import Mathlib

/-!
# buildinfo: text and JSON rendering of Go build information

A shallow embedding of `buildinfo.go` (package `buildinfo` of
`github.com/bnixon67/buildinfo`) together with the parts of the Go standard
library it calls, followed by theorems about `quoteIf`, `formatModule`,
`FormatText` and `FormatJSON`.

Conventions of the embedding:

* a Go `string` is a finite sequence of bytes (`GoString`), not necessarily
  valid UTF-8; string concatenation is list append;
* a `rune` is modelled by a natural number (every rune that occurs is the
  result of decoding, hence non-negative);
* `*strings.Builder` is modelled by the text written so far, passed in and
  returned;
* `fmt.Fprintf` with only `%s` verbs, and `fmt.Fprintln` with one string
  operand, are concatenations of their pieces;
* a loop that consumes its input is a recursion on a bound of the number of
  iterations, started with the length of the input.

The functions of the standard library are not part of the repository. They
are embedded from the library: `utf8.DecodeRuneInString`, `utf8.AppendRune`,
`unicode.IsControl`, `strconv.Quote` (with `appendQuotedWith`,
`appendEscapedRune`, `IsPrint`) and `strings.TrimPrefix` function by function;
`json.MarshalIndent` as the string encoder `appendString`, the encoding of the
three struct types as a syntax tree, the layout that `json.Indent` gives to
the compact text, and the limit of the scanner on the nesting of the text it
lays out; `json.Unmarshal` into an `interface{}` as a decoder after the grammar
of the scanner, with `unquoteBytes` for the string literals. Two facts of the
library are left open, as parameters: the verdict of the Unicode tables of
`strconv.IsPrint` on runes above U+00FF (`tbl`), and whether the fields of
`debug.BuildInfo`, `debug.Module` and `debug.BuildSetting` are declared with
the `omitempty` option (`omitempty`).
-/

/-- One byte of a Go string. -/
abbrev Byte := Fin 256

/-- A Go `string`: an immutable sequence of bytes. -/
abbrev GoString := List Byte

/-- The bytes of a source-code string literal (its UTF-8 encoding). -/
def lit (s : String) : GoString := s.toUTF8.data.toList.map (fun b => b.val)

/-- Conversion `byte(n)` of an integer to a byte: reduction modulo 256. -/
def toByte (n : Nat) : Byte := Fin.ofNat n

/-- Concatenation of lines, each terminated by a single newline byte. -/
def unlines (ls : List GoString) : GoString := (ls.map (fun l => l ++ lit "\n")).flatten

/-! ## Package `unicode/utf8` -/

namespace utf8

def RuneError : Nat := 0xFFFD
def RuneSelf : Nat := 0x80
def MaxRune : Nat := 0x10FFFF
def surrogateMin : Nat := 0xD800
def surrogateMax : Nat := 0xDFFF

def tx : Nat := 0x80
def t2 : Nat := 0xC0
def t3 : Nat := 0xE0
def t4 : Nat := 0xF0
def maskx : Nat := 0x3F
def mask2 : Nat := 0x1F
def mask3 : Nat := 0x0F
def mask4 : Nat := 0x07
def rune1Max : Nat := 0x7F
def rune2Max : Nat := 0x7FF
def rune3Max : Nat := 0xFFFF
def locb : Nat := 0x80
def hicb : Nat := 0xBF

def xx : Nat := 0xF1
def as : Nat := 0xF0
def s1 : Nat := 0x02
def s2 : Nat := 0x13
def s3 : Nat := 0x03
def s4 : Nat := 0x23
def s5 : Nat := 0x34
def s6 : Nat := 0x04
def s7 : Nat := 0x44

/-- The table `first`: information about the first byte of a UTF-8 sequence.
The high nibble indexes `acceptRanges` (or is `F` for the one-byte cases), the
low nibble is the length of the sequence. -/
def first (b : Byte) : Nat :=
  if b.val < 0x80 then as
  else if b.val < 0xC2 then xx
  else if b.val < 0xE0 then s1
  else if b.val = 0xE0 then s2
  else if b.val < 0xED then s3
  else if b.val = 0xED then s4
  else if b.val < 0xF0 then s3
  else if b.val = 0xF0 then s5
  else if b.val < 0xF4 then s6
  else if b.val = 0xF4 then s7
  else xx

/-- The table `acceptRanges`: the range `(lo, hi)` of valid second bytes. -/
def acceptRanges (i : Nat) : Nat × Nat :=
  match i with
  | 0 => (locb, hicb)
  | 1 => (0xA0, hicb)
  | 2 => (locb, 0x9F)
  | 3 => (0x90, hicb)
  | 4 => (locb, 0x8F)
  | _ => (0, 0)

/-- Function `utf8.DecodeRuneInString`: the first rune of `s` and its width in
bytes; `(RuneError, 0)` on the empty string and `(RuneError, 1)` on an
invalid encoding. -/
def DecodeRuneInString (s : GoString) : Nat × Nat :=
  let n := s.length
  if n < 1 then (RuneError, 0)
  else
    let s0 := (s.getD 0 0).val
    let x := first (s.getD 0 0)
    if x ≥ as then
      (if x = xx then RuneError else s0, 1)
    else
      let sz := x &&& 7
      let accept := acceptRanges (x >>> 4)
      if n < sz then (RuneError, 1)
      else
        let b1 := (s.getD 1 0).val
        if b1 < accept.1 ∨ accept.2 < b1 then (RuneError, 1)
        else if sz ≤ 2 then ((s0 &&& mask2) <<< 6 ||| (b1 &&& maskx), 2)
        else
          let b2 := (s.getD 2 0).val
          if b2 < locb ∨ hicb < b2 then (RuneError, 1)
          else if sz ≤ 3 then
            ((s0 &&& mask3) <<< 12 ||| (b1 &&& maskx) <<< 6 ||| (b2 &&& maskx), 3)
          else
            let b3 := (s.getD 3 0).val
            if b3 < locb ∨ hicb < b3 then (RuneError, 1)
            else
              ((s0 &&& mask4) <<< 18 ||| (b1 &&& maskx) <<< 12 ||| (b2 &&& maskx) <<< 6
                ||| (b3 &&& maskx), 4)

/-- Function `utf8.ValidRune`: whether `r` can be legally encoded as UTF-8. -/
def ValidRune (r : Nat) : Bool :=
  if r < surrogateMin then true
  else if surrogateMax < r ∧ r ≤ MaxRune then true
  else false

/-- Function `utf8.AppendRune`: appends the UTF-8 encoding of `r` to `p`; runes
out of range are encoded as `RuneError`. -/
def AppendRune (p : GoString) (r : Nat) : GoString :=
  if r ≤ rune1Max then p ++ [toByte r]
  else if r ≤ rune2Max then
    p ++ [toByte (t2 ||| (toByte (r >>> 6)).val), toByte (tx ||| ((toByte r).val &&& maskx))]
  else if r > MaxRune ∨ (surrogateMin ≤ r ∧ r ≤ surrogateMax) then
    let r := RuneError
    p ++ [toByte (t3 ||| (toByte (r >>> 12)).val),
          toByte (tx ||| ((toByte (r >>> 6)).val &&& maskx)),
          toByte (tx ||| ((toByte r).val &&& maskx))]
  else if r ≤ rune3Max then
    p ++ [toByte (t3 ||| (toByte (r >>> 12)).val),
          toByte (tx ||| ((toByte (r >>> 6)).val &&& maskx)),
          toByte (tx ||| ((toByte r).val &&& maskx))]
  else
    p ++ [toByte (t4 ||| (toByte (r >>> 18)).val),
          toByte (tx ||| ((toByte (r >>> 12)).val &&& maskx)),
          toByte (tx ||| ((toByte (r >>> 6)).val &&& maskx)),
          toByte (tx ||| ((toByte r).val &&& maskx))]

/-- The loop `for _, r := range s` of the language: the runes of `s` in
order, `RuneError` for every byte that begins no valid encoding. Every
iteration consumes at least one byte. -/
def runesLoop : Nat → GoString → List Nat
  | 0, _ => []
  | fuel + 1, s =>
    match s with
    | [] => []
    | b :: t =>
      (DecodeRuneInString (b :: t)).1
        :: runesLoop fuel ((b :: t).drop (DecodeRuneInString (b :: t)).2)

/-- The runes of a string. -/
def runes (s : GoString) : List Nat := runesLoop s.length s

end utf8

/-! ## Package `unicode` -/

namespace unicode

/-- Function `unicode.IsControl`: the control characters are those of the
category Cc, all in Latin-1: U+0000 to U+001F and U+007F to U+009F. -/
def IsControl (r : Nat) : Bool := r < 0x20 ∨ (0x7F ≤ r ∧ r ≤ 0x9F)

end unicode

/-! ## Package `unicode/utf16` -/

namespace utf16

/-- Function `utf16.IsSurrogate`: whether the code point can appear in a
surrogate pair. -/
def IsSurrogate (r : Nat) : Bool := 0xD800 ≤ r ∧ r < 0xE000

/-- Function `utf16.DecodeRune`: the code point of a surrogate pair, or U+FFFD
when the pair is not a valid one; `r2` is `none` for the -1 that `getu4`
returns when no second escape follows. -/
def DecodeRune (r1 : Nat) (r2 : Option Nat) : Nat :=
  match r2 with
  | none => 0xFFFD
  | some r2 =>
    if 0xD800 ≤ r1 ∧ r1 < 0xDC00 ∧ 0xDC00 ≤ r2 ∧ r2 < 0xE000 then
      ((r1 - 0xD800) <<< 10 ||| (r2 - 0xDC00)) + 0x10000
    else 0xFFFD

end utf16

/-! ## Package `strconv`: `Quote` -/

namespace strconv

def lowerhex : GoString := lit "0123456789abcdef"

/-- The byte `lowerhex[i]`. -/
def hexDigit (i : Nat) : Byte := lowerhex.getD i 0

/-- Function `strconv.IsPrint`. Runes up to U+00FF are decided by the Latin-1
fast path of the function; above that Go searches its generated Unicode tables
(`isPrint16`, `isNotPrint16`, `isPrint32`, `isNotPrint32`), whose verdict is
the parameter `tbl`. -/
def IsPrint (tbl : Nat → Bool) (r : Nat) : Bool :=
  if r ≤ 0xFF then
    if 0x20 ≤ r ∧ r ≤ 0x7E then true
    else if 0xA1 ≤ r ∧ r ≤ 0xFF then r != 0xAD
    else false
  else tbl r

/-- Function `strconv.appendEscapedRune` with `quote = '"'`, `ASCIIonly = false`
and `graphicOnly = false`, the arguments `strconv.Quote` passes. -/
def appendEscapedRune (tbl : Nat → Bool) (buf : GoString) (r : Nat) : GoString :=
  if r = 0x22 ∨ r = 0x5C then buf ++ [0x5C, toByte r]
  else if IsPrint tbl r then utf8.AppendRune buf r
  else if r = 0x07 then buf ++ lit "\\a"
  else if r = 0x08 then buf ++ lit "\\b"
  else if r = 0x0C then buf ++ lit "\\f"
  else if r = 0x0A then buf ++ lit "\\n"
  else if r = 0x0D then buf ++ lit "\\r"
  else if r = 0x09 then buf ++ lit "\\t"
  else if r = 0x0B then buf ++ lit "\\v"
  else if r < 0x20 ∨ r = 0x7F then
    buf ++ lit "\\x" ++ [hexDigit ((toByte r).val >>> 4), hexDigit ((toByte r).val &&& 0xF)]
  else if !utf8.ValidRune r then
    let r := 0xFFFD
    buf ++ lit "\\u" ++ [hexDigit (r >>> 12 &&& 0xF), hexDigit (r >>> 8 &&& 0xF),
      hexDigit (r >>> 4 &&& 0xF), hexDigit (r >>> 0 &&& 0xF)]
  else if r < 0x10000 then
    buf ++ lit "\\u" ++ [hexDigit (r >>> 12 &&& 0xF), hexDigit (r >>> 8 &&& 0xF),
      hexDigit (r >>> 4 &&& 0xF), hexDigit (r >>> 0 &&& 0xF)]
  else
    buf ++ lit "\\U" ++ [hexDigit (r >>> 28 &&& 0xF), hexDigit (r >>> 24 &&& 0xF),
      hexDigit (r >>> 20 &&& 0xF), hexDigit (r >>> 16 &&& 0xF),
      hexDigit (r >>> 12 &&& 0xF), hexDigit (r >>> 8 &&& 0xF),
      hexDigit (r >>> 4 &&& 0xF), hexDigit (r >>> 0 &&& 0xF)]

/-- The loop of `strconv.appendQuotedWith`: one iteration per rune of `s`,
`s = s[width:]` after each. Every iteration consumes at least one byte, so
`fuel = len(s)` iterations are enough. -/
def quoteLoop (tbl : Nat → Bool) : Nat → GoString → GoString → GoString
  | 0, buf, _ => buf
  | fuel + 1, buf, s =>
    match s with
    | [] => buf
    | s0 :: _ =>
      let rs := if s0.val ≥ utf8.RuneSelf then utf8.DecodeRuneInString s else (s0.val, 1)
      if rs.2 = 1 ∧ rs.1 = utf8.RuneError then
        quoteLoop tbl fuel
          (buf ++ lit "\\x" ++ [hexDigit (s0.val >>> 4), hexDigit (s0.val &&& 0xF)])
          (s.drop rs.2)
      else
        quoteLoop tbl fuel (appendEscapedRune tbl buf rs.1) (s.drop rs.2)

/-- Function `strconv.Quote`: a double-quoted Go string literal representing
`s` (`appendQuotedWith(buf, s, '"', false, false)` on an empty buffer). -/
def Quote (tbl : Nat → Bool) (s : GoString) : GoString :=
  quoteLoop tbl s.length [0x22] s ++ [0x22]

/-- Function `unhex` of `strconv`: the value of a hexadecimal digit. -/
def unhex (b : Byte) : Option Nat :=
  if 0x30 ≤ b.val ∧ b.val ≤ 0x39 then some (b.val - 0x30)
  else if 0x61 ≤ b.val ∧ b.val ≤ 0x66 then some (b.val - 0x61 + 10)
  else if 0x41 ≤ b.val ∧ b.val ≤ 0x46 then some (b.val - 0x41 + 10)
  else none

/-- The loop `for j := 0; j < n; j++ { x, ok := unhex(s[j]); v = v<<4 | x }` of
`strconv.UnquoteChar`; `none` when a byte is not a hexadecimal digit. -/
def unhexLoop : Nat → Nat → GoString → Option Nat
  | 0, v, _ => some v
  | n + 1, v, s =>
    match s with
    | [] => none
    | b :: s =>
      match unhex b with
      | none => none
      | some x => unhexLoop n (v <<< 4 ||| x) s

/-- The loop of the octal escape of `strconv.UnquoteChar`: two more octal
digits, `v = (v << 3) | x`. -/
def octalLoop : Nat → Nat → GoString → Option Nat
  | 0, v, _ => some v
  | n + 1, v, s =>
    match s with
    | [] => none
    | b :: s =>
      if b.val < 0x30 ∨ b.val > 0x37 then none
      else octalLoop n (v <<< 3 ||| (b.val - 0x30)) s

/-- Function `strconv.UnquoteChar`: decodes the first character or escape
sequence of the body of a quoted literal. The result is the value, whether it
requires a multibyte UTF-8 representation, and the rest of the input; `none`
stands for `ErrSyntax`. -/
def UnquoteChar (s : GoString) (quote : Byte) : Option (Nat × Bool × GoString) :=
  match s with
  | [] => none
  | c :: t =>
    if c = quote ∧ (quote = 0x27 ∨ quote = 0x22) then none
    else if c.val ≥ utf8.RuneSelf then
      let rs := utf8.DecodeRuneInString s
      some (rs.1, true, s.drop rs.2)
    else if c ≠ 0x5C then some (c.val, false, t)
    else
      match t with
      | [] => none
      | c :: s =>
        if c = 0x61 then some (0x07, false, s)
        else if c = 0x62 then some (0x08, false, s)
        else if c = 0x66 then some (0x0C, false, s)
        else if c = 0x6E then some (0x0A, false, s)
        else if c = 0x72 then some (0x0D, false, s)
        else if c = 0x74 then some (0x09, false, s)
        else if c = 0x76 then some (0x0B, false, s)
        else if c = 0x78 ∨ c = 0x75 ∨ c = 0x55 then
          let n := if c = 0x78 then 2 else if c = 0x75 then 4 else 8
          if s.length < n then none
          else
            match unhexLoop n 0 s with
            | none => none
            | some v =>
              if c = 0x78 then some (v, false, s.drop n)
              else if !utf8.ValidRune v then none
              else some (v, true, s.drop n)
        else if 0x30 ≤ c.val ∧ c.val ≤ 0x37 then
          if s.length < 2 then none
          else
            match octalLoop 2 (c.val - 0x30) s with
            | none => none
            | some v => if v > 255 then none else some (v, false, s.drop 2)
        else if c = 0x5C then some (0x5C, false, s)
        else if c = 0x27 ∨ c = 0x22 then
          if c ≠ quote then none else some (c.val, false, s)
        else none

/-- The loop of `strconv.Unquote` over the body of a double-quoted literal:
every character or escape sequence is decoded by `UnquoteChar` and appended to
`buf`, up to the terminating quote; a raw newline is a syntax error. The result
is the unquoted text and the input after the terminating quote. Every
iteration consumes at least one byte of `inp`. -/
def unquoteLoop : Nat → GoString → GoString → Option (GoString × GoString)
  | 0, _, _ => none
  | fuel + 1, buf, inp =>
    match inp with
    | [] => none
    | c :: rest =>
      if c = 0x22 then some (buf, rest)
      else
        match UnquoteChar inp 0x22 with
        | none => none
        | some (r, multibyte, rem) =>
          if c = 0x0A then none
          else if r < utf8.RuneSelf ∨ !multibyte then unquoteLoop fuel (buf ++ [toByte r]) rem
          else unquoteLoop fuel (utf8.AppendRune buf r) rem

/-- Function `strconv.Unquote` on double-quoted literals: the string that the
literal `s` quotes, reversing the escape rule of `Quote`; `none` stands for
`ErrSyntax`. The literal must start with a double quote, contain a
terminating one, and end there. (Single-quoted and back-quoted literals, which
`Quote` never produces, are rejected here; the shortcut of the library for
literals without any escape returns the same text as the loop.) -/
def Unquote (s : GoString) : Option GoString :=
  match s with
  | [] => none
  | q :: body =>
    if s.length < 2 then none
    else if q ≠ 0x22 then none
    else
      match unquoteLoop (body.length + 1) [] body with
      | none => none
      | some (out, rem) => if rem.length > 0 then none else some out

end strconv

/-! ## Package `runtime/debug`: the build record -/

namespace debug

/-- Type `debug.Module`. The field `Replace *Module` is `none` for a nil
pointer; chains of replacements are finite (the data source never produces a
cycle). -/
inductive Module where
  | mk (Path Version Sum : GoString) (Replace : Option Module)

def Module.Path : Module → GoString
  | .mk p _ _ _ => p

def Module.Version : Module → GoString
  | .mk _ v _ _ => v

def Module.Sum : Module → GoString
  | .mk _ _ s _ => s

def Module.Replace : Module → Option Module
  | .mk _ _ _ r => r

/-- Type `debug.BuildSetting`. -/
structure BuildSetting where
  Key : GoString
  Value : GoString

/-- Type `debug.BuildInfo`. `Deps` holds the modules the pointers of
`[]*Module` point to (the data source never stores a nil pointer there). -/
structure BuildInfo where
  GoVersion : GoString
  Path : GoString
  Main : Module
  Deps : List Module
  Settings : List BuildSetting

end debug

/-! ## Package `encoding/json`: `MarshalIndent` -/

namespace json

/-- A JSON text as a tree: the values that the encoder produces for a record
made of strings, slices, pointers and structs. -/
inductive Value where
  | null
  | str (s : GoString)
  | arr (elems : List Value)
  | obj (members : List (GoString × Value))

def hex : GoString := lit "0123456789abcdef"

/-- The byte `hex[i]`. -/
def hexDigit (i : Nat) : Byte := hex.getD i 0

/-- The table `htmlSafeSet`: the ASCII bytes that a JSON string embedded in HTML
shows unescaped, which are all from the blank on except the double quote, the
backslash and the three characters of markup. -/
def htmlSafeSet (b : Byte) : Bool :=
  0x20 ≤ b.val ∧ b.val < 0x80 ∧ b ≠ 0x22 ∧ b ≠ 0x26 ∧ b ≠ 0x3C ∧ b ≠ 0x3E ∧ b ≠ 0x5C

/-- The loop of `appendString` (with `escapeHTML = true`, as `Marshal` sets it)
over the bytes of `src` still to encode; `dst` is the
text so far. Bytes that need no escape are copied; the library copies them
in runs, to the same effect. Every iteration consumes at least one byte. -/
def appendStringLoop : Nat → GoString → GoString → GoString
  | 0, dst, _ => dst
  | fuel + 1, dst, src =>
    match src with
    | [] => dst
    | b :: rest =>
      if b.val < utf8.RuneSelf then
        if htmlSafeSet b then appendStringLoop fuel (dst ++ [b]) rest
        else if b = 0x5C ∨ b = 0x22 then appendStringLoop fuel (dst ++ [0x5C, b]) rest
        else if b = 0x08 then appendStringLoop fuel (dst ++ lit "\\b") rest
        else if b = 0x0C then appendStringLoop fuel (dst ++ lit "\\f") rest
        else if b = 0x0A then appendStringLoop fuel (dst ++ lit "\\n") rest
        else if b = 0x0D then appendStringLoop fuel (dst ++ lit "\\r") rest
        else if b = 0x09 then appendStringLoop fuel (dst ++ lit "\\t") rest
        else
          appendStringLoop fuel
            (dst ++ lit "\\u00" ++ [hexDigit (b.val >>> 4), hexDigit (b.val &&& 0xF)]) rest
      else
        let n := if src.length > 4 then 4 else src.length
        let cs := utf8.DecodeRuneInString (src.take n)
        if cs.1 = utf8.RuneError ∧ cs.2 = 1 then
          appendStringLoop fuel (dst ++ lit "\\ufffd") (src.drop cs.2)
        else if cs.1 = 0x2028 ∨ cs.1 = 0x2029 then
          appendStringLoop fuel (dst ++ lit "\\u202" ++ [hexDigit (cs.1 &&& 0xF)])
            (src.drop cs.2)
        else appendStringLoop fuel (dst ++ src.take cs.2) (src.drop cs.2)

/-- Function `appendString` of `encoding/json`: appends `src` as a JSON string
literal, between double quotes. -/
def appendString (dst src : GoString) : GoString :=
  appendStringLoop src.length (dst ++ [0x22]) src ++ [0x22]

/-- One string field of a struct, as a list of members: with the `omitempty`
option an empty string is left out. -/
def stringField (omitempty : Bool) (name : GoString) (s : GoString) :
    List (GoString × Value) :=
  if omitempty ∧ s.length = 0 then [] else [(name, .str s)]

/-- The encoding of a `debug.Module`: the fields `Path`, `Version`, `Sum` and
`Replace` in declaration order; a nil `Replace` is `null`, or left out with
the `omitempty` option. -/
def ofModule (omitempty : Bool) : debug.Module → Value
  | .mk path version sum replace =>
    .obj (stringField omitempty (lit "Path") path
      ++ stringField omitempty (lit "Version") version
      ++ stringField omitempty (lit "Sum") sum
      ++ (match replace with
          | none => if omitempty then [] else [(lit "Replace", .null)]
          | some r => [(lit "Replace", ofModule omitempty r)]))

/-- The encoding of a `debug.BuildSetting`. -/
def ofBuildSetting (omitempty : Bool) (s : debug.BuildSetting) : Value :=
  .obj (stringField omitempty (lit "Key") s.Key ++ stringField omitempty (lit "Value") s.Value)

/-- One slice field of a struct: a slice without elements is `null` (a nil
slice), or left out with the `omitempty` option. -/
def sliceField (omitempty : Bool) (name : GoString) (elems : List Value) :
    List (GoString × Value) :=
  if elems.length = 0 then (if omitempty then [] else [(name, .null)])
  else [(name, .arr elems)]

/-- The encoding of a `debug.BuildInfo`: the fields `GoVersion`, `Path`, `Main`,
`Deps` and `Settings` in declaration order. The flag `omitempty` says whether
the fields (all but `Main`) are declared with the `omitempty` option, as the
struct tags of recent releases of the library have it, or without any tag. -/
def ofBuildInfo (omitempty : Bool) (bi : debug.BuildInfo) : Value :=
  .obj (stringField omitempty (lit "GoVersion") bi.GoVersion
    ++ stringField omitempty (lit "Path") bi.Path
    ++ [(lit "Main", ofModule omitempty bi.Main)]
    ++ sliceField omitempty (lit "Deps") (bi.Deps.map (ofModule omitempty))
    ++ sliceField omitempty (lit "Settings") (bi.Settings.map (ofBuildSetting omitempty)))

/-- Function `appendNewline` of `encoding/json`: a line break, then the
prefix, then `depth` copies of the indent. -/
def appendNewline (dst pfx indent : GoString) (depth : Nat) : GoString :=
  dst ++ 0x0A :: (pfx ++ (List.replicate depth indent).flatten)

mutual

/-- The indented text of a value at nesting level `depth`, as `json.Indent`
lays out the compact encoding: every element of a non-empty object or array
begins on a new line, which begins with the prefix followed by one copy of the
indent per nesting level; the closing bracket is on a line of its own at the
level of the value; a colon is followed by a blank; empty objects and arrays
stay `{}` and `[]`. -/
def indentValue (pfx indent : GoString) (depth : Nat) : Value → GoString
  | .null => lit "null"
  | .str s => appendString [] s
  | .arr [] => lit "[]"
  | .arr (x :: xs) =>
    appendNewline (lit "[") pfx indent (depth + 1)
      ++ indentElems pfx indent (depth + 1) (x :: xs)
      ++ appendNewline [] pfx indent depth ++ lit "]"
  | .obj [] => lit "\x7b\x7d"
  | .obj (m :: ms) =>
    appendNewline (lit "\x7b") pfx indent (depth + 1)
      ++ indentMembers pfx indent (depth + 1) (m :: ms)
      ++ appendNewline [] pfx indent depth ++ lit "\x7d"

/-- The elements of an array, a comma and a line break between two. -/
def indentElems (pfx indent : GoString) (depth : Nat) : List Value → GoString
  | [] => []
  | [x] => indentValue pfx indent depth x
  | x :: y :: ys =>
    appendNewline (indentValue pfx indent depth x ++ lit ",") pfx indent depth
      ++ indentElems pfx indent depth (y :: ys)

/-- The members of an object, a comma and a line break between two. -/
def indentMembers (pfx indent : GoString) (depth : Nat) : List (GoString × Value) → GoString
  | [] => []
  | [m] => indentMember pfx indent depth m
  | m :: n :: ms =>
    appendNewline (indentMember pfx indent depth m ++ lit ",") pfx indent depth
      ++ indentMembers pfx indent depth (n :: ms)

/-- One member of an object: the key, a colon and a blank, the value. -/
def indentMember (pfx indent : GoString) (depth : Nat) : GoString × Value → GoString
  | (k, v) => appendString [] k ++ lit ": " ++ indentValue pfx indent depth v

end

/-- The constant `maxNestingDepth` of the scanner of `encoding/json`: the
scanner reports an error at the bracket that opens an object or array nested
deeper than this. -/
def maxNestingDepth : Nat := 10000

mutual

/-- The nesting depth of a value: the largest number of objects and arrays
open at once in its text (the largest height of the `parseState` stack of the
scanner that reads it). -/
def depth : Value → Nat
  | .null => 0
  | .str _ => 0
  | .arr xs => depthElems xs + 1
  | .obj ms => depthMembers ms + 1

/-- The largest depth of the elements of an array. -/
def depthElems : List Value → Nat
  | [] => 0
  | x :: xs => max (depth x) (depthElems xs)

/-- The largest depth of the members of an object. -/
def depthMembers : List (GoString × Value) → Nat
  | [] => 0
  | m :: ms => max (depthMember m) (depthMembers ms)

/-- The depth of the value of a member. -/
def depthMember : GoString × Value → Nat
  | (_, v) => depth v

end

/-- Function `json.MarshalIndent` on a `debug.BuildInfo`: `Marshal` encodes the
record, which has no error case for a record of strings, slices and (acyclic)
pointers; `appendIndent` then lays the encoding out with the given prefix and
indent, reading it with the scanner, and fails with the scanner when the
encoding is nested deeper than `maxNestingDepth`. In the encoding of a record
the arrays are at depth two, so the bracket at which the scanner gives up
opens an object (a module of a chain of replacements), which the message of
the `SyntaxError` names. The first line of the result does not begin with the
prefix. -/
def MarshalIndent (omitempty : Bool) (v : debug.BuildInfo) (pfx indent : GoString) :
    Except GoString GoString :=
  if depth (ofBuildInfo omitempty v) > maxNestingDepth then
    .error (lit "invalid character \x27\x7b\x27 exceeded max depth")
  else .ok (indentValue pfx indent 0 (ofBuildInfo omitempty v))

end json

/-! ## Package `buildinfo` -/

namespace buildinfo

open debug

/-- Function `quoteIf` returns the given string `s` wrapped in quotes if `quote`
is true, and `s` unchanged otherwise. -/
def quoteIf (tbl : Nat → Bool) (s : GoString) (quote : Bool) : GoString :=
  if quote then strconv.Quote tbl s else s

/-- Function `formatModule` writes a module as formatted text to the builder
`sb`; the result is the content of the builder afterwards. -/
def formatModule (tbl : Nat → Bool) (sb : GoString) :
    Module → Bool → GoString → GoString → GoString
  | .mk path version sum replace, quote, pfx, indent =>
    let sb := sb ++ (pfx ++ indent ++ lit "Path: " ++ quoteIf tbl path quote ++ lit "\n")
    let sb := sb ++ (pfx ++ indent ++ lit "Version: " ++ quoteIf tbl version quote ++ lit "\n")
    let sb := sb ++ (pfx ++ indent ++ lit "Sum: " ++ quoteIf tbl sum quote ++ lit "\n")
    match replace with
    | none => sb
    | some r =>
      let sb := sb ++ (pfx ++ indent ++ lit "Replace:" ++ lit "\n")
      formatModule tbl sb r quote (pfx ++ indent) indent

/-- The loop `for _, dep := range bi.Deps` of `FormatText`. -/
def formatDeps (tbl : Nat → Bool) (sb : GoString) (deps : List Module) (quote : Bool)
    (pfx indent : GoString) : GoString :=
  deps.foldl (fun sb dep => formatModule tbl sb dep quote pfx indent) sb

/-- The loop `for _, setting := range bi.Settings` of `FormatText`. -/
def formatSettings (tbl : Nat → Bool) (sb : GoString) (settings : List BuildSetting)
    (quote : Bool) (pfx indent : GoString) : GoString :=
  settings.foldl (fun sb setting =>
    sb ++ (pfx ++ indent ++ setting.Key ++ lit ": " ++ quoteIf tbl setting.Value quote
      ++ lit "\n")) sb

/-- Function `FormatText` returns the build information as formatted text. -/
def FormatText (tbl : Nat → Bool) (bi : BuildInfo) (quote : Bool) (pfx indent : GoString) :
    GoString :=
  let sb : GoString := []
  let sb := sb ++ (pfx ++ lit "Go Version: " ++ quoteIf tbl bi.GoVersion quote ++ lit "\n")
  let sb := sb ++ (pfx ++ lit "Path: " ++ quoteIf tbl bi.Path quote ++ lit "\n")
  let sb := sb ++ (pfx ++ lit "Main Module:\n")
  let sb := formatModule tbl sb bi.Main quote pfx indent
  let sb :=
    if bi.Deps.length > 0 then
      formatDeps tbl (sb ++ (pfx ++ lit "Dependencies:\n")) bi.Deps quote pfx indent
    else sb
  let sb :=
    if bi.Settings.length > 0 then
      formatSettings tbl (sb ++ (pfx ++ lit "Settings:\n")) bi.Settings quote pfx indent
    else sb
  sb

/-- Function `FormatJSON` returns the build information as a JSON string, and an
error (its message) when the conversion fails, with an empty string. -/
def FormatJSON (omitempty : Bool) (info : BuildInfo) (pfx indent : GoString) :
    GoString × Option GoString :=
  match json.MarshalIndent omitempty info pfx indent with
  | .error err => ([], some (lit "cannot convert build info to JSON: " ++ err))
  | .ok jsonData => (pfx ++ jsonData, none)

end buildinfo

/-! ## JSON syntax -/

namespace json

/-- Function `isSpace` of the JSON scanner: blank, tab, carriage return and
line feed. -/
def isSpace (c : Byte) : Bool := c = 0x20 ∨ c = 0x09 ∨ c = 0x0D ∨ c = 0x0A

def isDigit (c : Byte) : Bool := 0x30 ≤ c.val ∧ c.val ≤ 0x39

def isHexDigit (c : Byte) : Bool :=
  (0x30 ≤ c.val ∧ c.val ≤ 0x39) ∨ (0x61 ≤ c.val ∧ c.val ≤ 0x66) ∨ (0x41 ≤ c.val ∧ c.val ≤ 0x46)

/-- The input after the leading white space. -/
def skipSpace : GoString → GoString
  | [] => []
  | c :: s => if isSpace c then skipSpace s else c :: s

/-- The input after the leading decimal digits. -/
def skipDigits : GoString → GoString
  | [] => []
  | c :: s => if isDigit c then skipDigits s else c :: s

/-- The states of the scanner inside a string literal: in the string, after
a backslash, and after `\u` with four, three, two, one hexadecimal digits to
come. -/
inductive StringState where
  | inString
  | inStringEsc
  | inStringEscU
  | inStringEscU1
  | inStringEscU12
  | inStringEscU123

/-- The scanner inside a string literal, from the given state: characters
from the blank on, and the escapes `\"`, `\\`, `\/`, `\b`, `\f`, `\n`,
`\r`, `\t` and `\u` with four hexadecimal digits, up to the closing quote.
The result is the input after the closing quote. -/
def scanStringFrom : StringState → GoString → Option GoString
  | _, [] => none
  | .inString, c :: s =>
    if c = 0x22 then some s
    else if c = 0x5C then scanStringFrom .inStringEsc s
    else if c.val < 0x20 then none
    else scanStringFrom .inString s
  | .inStringEsc, c :: s =>
    if c = 0x62 ∨ c = 0x66 ∨ c = 0x6E ∨ c = 0x72 ∨ c = 0x74 ∨ c = 0x5C ∨ c = 0x2F ∨ c = 0x22 then
      scanStringFrom .inString s
    else if c = 0x75 then scanStringFrom .inStringEscU s
    else none
  | .inStringEscU, c :: s => if isHexDigit c then scanStringFrom .inStringEscU1 s else none
  | .inStringEscU1, c :: s => if isHexDigit c then scanStringFrom .inStringEscU12 s else none
  | .inStringEscU12, c :: s => if isHexDigit c then scanStringFrom .inStringEscU123 s else none
  | .inStringEscU123, c :: s => if isHexDigit c then scanStringFrom .inString s else none

/-- The rest of a string literal after its opening quote; the result is the
input after the closing quote. -/
def scanString (s : GoString) : Option GoString := scanStringFrom .inString s

/-- The exponent of a number after its `e` or `E`: an optional sign and at
least one digit. -/
def scanExp (s : GoString) : Option GoString :=
  let s :=
    match s with
    | c :: t => if c = 0x2B ∨ c = 0x2D then t else s
    | [] => s
  match s with
  | c :: t => if isDigit c then some (skipDigits t) else none
  | [] => none

/-- The optional fraction and exponent of a number after its integer part. -/
def scanFracExp (s : GoString) : Option GoString :=
  match s with
  | [] => some s
  | c :: t =>
    if c = 0x2E then
      match t with
      | [] => none
      | d :: t =>
        if isDigit d then
          match skipDigits t with
          | [] => some []
          | e :: r => if e = 0x65 ∨ e = 0x45 then scanExp r else some (e :: r)
        else none
    else if c = 0x65 ∨ c = 0x45 then scanExp t
    else some s

/-- A number: an optional minus sign, then `0` or a digit from 1 to 9 followed
by digits, then the optional fraction and exponent. -/
def scanNumber (s : GoString) : Option GoString :=
  let s :=
    match s with
    | c :: t => if c = 0x2D then t else s
    | [] => s
  match s with
  | [] => none
  | c :: t =>
    if c = 0x30 then scanFracExp t
    else if 0x31 ≤ c.val ∧ c.val ≤ 0x39 then scanFracExp (skipDigits t)
    else none

/-- The input after the literal name `name`, when the input begins with it. -/
def scanLiteral (name s : GoString) : Option GoString :=
  if name.isPrefixOf s then some (s.drop name.length) else none

mutual

/-- One JSON value at the head of the input (which does not begin with white
space): an object, an array, a string, a number or one of the names `true`,
`false`, `null`. The result is the input after the value; `none` is a syntax
error. The first argument bounds the nesting of calls. -/
def parseValue : Nat → GoString → Option GoString
  | 0, _ => none
  | fuel + 1, s =>
    match s with
    | [] => none
    | c :: rest =>
      if c = 0x7B then
        match skipSpace rest with
        | [] => none
        | d :: rest => if d = 0x7D then some rest else parseMembers fuel (d :: rest)
      else if c = 0x5B then
        match skipSpace rest with
        | [] => none
        | d :: rest => if d = 0x5D then some rest else parseElems fuel (d :: rest)
      else if c = 0x22 then scanString rest
      else if c = 0x2D ∨ isDigit c then scanNumber s
      else if c = 0x74 then scanLiteral (lit "true") s
      else if c = 0x66 then scanLiteral (lit "false") s
      else if c = 0x6E then scanLiteral (lit "null") s
      else none

/-- The members of a non-empty object up to and including the closing brace:
a string, a colon, a value, then a comma and more members, or the brace. -/
def parseMembers : Nat → GoString → Option GoString
  | 0, _ => none
  | fuel + 1, s =>
    match s with
    | [] => none
    | c :: rest =>
      if c = 0x22 then
        match scanString rest with
        | none => none
        | some s =>
          match skipSpace s with
          | [] => none
          | c :: s =>
            if c = 0x3A then
              match parseValue fuel (skipSpace s) with
              | none => none
              | some s =>
                match skipSpace s with
                | [] => none
                | c :: s =>
                  if c = 0x2C then parseMembers fuel (skipSpace s)
                  else if c = 0x7D then some s
                  else none
            else none
      else none

/-- The elements of a non-empty array up to and including the closing
bracket: a value, then a comma and more elements, or the bracket. -/
def parseElems : Nat → GoString → Option GoString
  | 0, _ => none
  | fuel + 1, s =>
    match parseValue fuel s with
    | none => none
    | some s =>
      match skipSpace s with
      | [] => none
      | c :: s =>
        if c = 0x2C then parseElems fuel (skipSpace s)
        else if c = 0x5D then some s
        else none

end

/-- Whether `data` is one JSON value between optional white space, checked
with the given bound on the nesting of calls. -/
def checkValid (fuel : Nat) (data : GoString) : Bool :=
  match parseValue fuel (skipSpace data) with
  | none => false
  | some rest => (skipSpace rest).isEmpty

/-- The text `data` is valid JSON (RFC 8259): some bound on the nesting of
calls lets the check succeed. -/
def Valid (data : GoString) : Prop := ∃ fuel, checkValid fuel data = true

end json

/-! ## Package `encoding/json`: `Unmarshal` -/

namespace json

open utf8

/-- A decoded JSON value, as `Unmarshal` stores it in an `interface{}`: `nil`,
a `bool`, a number (here the text of its literal, which the library converts
to a `float64`), a `string`, a `[]interface{}`, or a `map[string]interface{}`
(here the list of its entries in the order of the text; the encoder of a
struct writes no key twice). -/
inductive Any where
  | null
  | bool (b : Bool)
  | num (text : GoString)
  | str (s : GoString)
  | arr (elems : List Any)
  | obj (members : List (GoString × Any))

/-- The loop of `getu4` over the four hexadecimal digits. -/
def getu4Loop : Nat → Nat → GoString → Option Nat
  | 0, r, _ => some r
  | n + 1, r, s =>
    match s with
    | [] => none
    | c :: s =>
      if 0x30 ≤ c.val ∧ c.val ≤ 0x39 then getu4Loop n (r * 16 + (c.val - 0x30)) s
      else if 0x61 ≤ c.val ∧ c.val ≤ 0x66 then getu4Loop n (r * 16 + (c.val - 0x61 + 10)) s
      else if 0x41 ≤ c.val ∧ c.val ≤ 0x46 then getu4Loop n (r * 16 + (c.val - 0x41 + 10)) s
      else none

/-- Function `getu4`: the code point of the escape (a backslash, `u` and four
hexadecimal digits) at the beginning of `s`; `none` (the library returns -1)
when `s` does not begin with one. -/
def getu4 (s : GoString) : Option Nat :=
  match s with
  | b0 :: b1 :: t => if s.length < 6 ∨ b0 ≠ 0x5C ∨ b1 ≠ 0x75 then none else getu4Loop 4 0 t
  | _ => none

/-- The loop of `unquoteBytes` over the body `s` of a string literal, `out`
being the text decoded so far: an escape becomes the character it names (two
escapes of a surrogate pair become one rune), a byte that begins no valid
UTF-8 encoding becomes U+FFFD, everything else is copied. The scanner has
accepted the literal before, so the cases in which the library reports a
failure (an unknown escape, a raw quote or control character) do not occur;
there the loop stops. Every iteration consumes at least one byte. (The
shortcut of the library for literals without anything to decode returns the
same text as the loop.) -/
def unquoteBytesLoop : Nat → GoString → GoString → GoString
  | 0, out, _ => out
  | fuel + 1, out, s =>
    match s with
    | [] => out
    | c :: t =>
      if c = 0x5C then
        match t with
        | [] => out
        | e :: t =>
          if e = 0x22 ∨ e = 0x5C ∨ e = 0x2F ∨ e = 0x27 then unquoteBytesLoop fuel (out ++ [e]) t
          else if e = 0x62 then unquoteBytesLoop fuel (out ++ [0x08]) t
          else if e = 0x66 then unquoteBytesLoop fuel (out ++ [0x0C]) t
          else if e = 0x6E then unquoteBytesLoop fuel (out ++ [0x0A]) t
          else if e = 0x72 then unquoteBytesLoop fuel (out ++ [0x0D]) t
          else if e = 0x74 then unquoteBytesLoop fuel (out ++ [0x09]) t
          else if e = 0x75 then
            match getu4 s with
            | none => out
            | some rr =>
              if utf16.IsSurrogate rr then
                let dec := utf16.DecodeRune rr (getu4 (s.drop 6))
                if dec ≠ 0xFFFD then unquoteBytesLoop fuel (AppendRune out dec) (s.drop 12)
                else unquoteBytesLoop fuel (AppendRune out 0xFFFD) (s.drop 6)
              else unquoteBytesLoop fuel (AppendRune out rr) (s.drop 6)
          else out
      else if c = 0x22 ∨ c.val < 0x20 then out
      else if c.val < RuneSelf then unquoteBytesLoop fuel (out ++ [c]) t
      else
        let rs := DecodeRuneInString s
        unquoteBytesLoop fuel (AppendRune out rs.1) (s.drop rs.2)

/-- Function `unquoteBytes` on the body of a string literal (the literal
without its quotes): the string that the literal denotes. -/
def unquoteBytes (body : GoString) : GoString := unquoteBytesLoop body.length [] body

/-- The body of the string literal that the scanner has read: `s` is the input
after the opening quote and `r` the input after the closing quote. -/
def literalBody (s r : GoString) : GoString := s.take (s.length - r.length - 1)

mutual

/-- The decoder of one JSON value at the head of the input (which does not
begin with white space), after the grammar of `parseValue`: the value and the
input after it; `none` is a syntax error. The first argument bounds the
nesting of calls. -/
def decodeValue : Nat → GoString → Option (Any × GoString)
  | 0, _ => none
  | fuel + 1, s =>
    match s with
    | [] => none
    | c :: rest =>
      if c = 0x7B then
        match skipSpace rest with
        | [] => none
        | d :: rest =>
          if d = 0x7D then some (.obj [], rest)
          else
            match decodeMembers fuel (d :: rest) with
            | none => none
            | some (ms, r) => some (.obj ms, r)
      else if c = 0x5B then
        match skipSpace rest with
        | [] => none
        | d :: rest =>
          if d = 0x5D then some (.arr [], rest)
          else
            match decodeElems fuel (d :: rest) with
            | none => none
            | some (xs, r) => some (.arr xs, r)
      else if c = 0x22 then
        match scanString rest with
        | none => none
        | some r => some (.str (unquoteBytes (literalBody rest r)), r)
      else if c = 0x2D ∨ isDigit c then
        match scanNumber s with
        | none => none
        | some r => some (.num (s.take (s.length - r.length)), r)
      else if c = 0x74 then
        match scanLiteral (lit "true") s with
        | none => none
        | some r => some (.bool true, r)
      else if c = 0x66 then
        match scanLiteral (lit "false") s with
        | none => none
        | some r => some (.bool false, r)
      else if c = 0x6E then
        match scanLiteral (lit "null") s with
        | none => none
        | some r => some (.null, r)
      else none

/-- The members of a non-empty object up to and including the closing brace. -/
def decodeMembers : Nat → GoString → Option (List (GoString × Any) × GoString)
  | 0, _ => none
  | fuel + 1, s =>
    match s with
    | [] => none
    | c :: rest =>
      if c = 0x22 then
        match scanString rest with
        | none => none
        | some s1 =>
          match skipSpace s1 with
          | [] => none
          | c :: s2 =>
            if c = 0x3A then
              match decodeValue fuel (skipSpace s2) with
              | none => none
              | some (v, s3) =>
                match skipSpace s3 with
                | [] => none
                | c :: s4 =>
                  if c = 0x2C then
                    match decodeMembers fuel (skipSpace s4) with
                    | none => none
                    | some (ms, r) => some ((unquoteBytes (literalBody rest s1), v) :: ms, r)
                  else if c = 0x7D then some ([(unquoteBytes (literalBody rest s1), v)], s4)
                  else none
            else none
      else none

/-- The elements of a non-empty array up to and including the closing
bracket. -/
def decodeElems : Nat → GoString → Option (List Any × GoString)
  | 0, _ => none
  | fuel + 1, s =>
    match decodeValue fuel s with
    | none => none
    | some (x, s1) =>
      match skipSpace s1 with
      | [] => none
      | c :: s2 =>
        if c = 0x2C then
          match decodeElems fuel (skipSpace s2) with
          | none => none
          | some (xs, r) => some (x :: xs, r)
        else if c = 0x5D then some ([x], s2)
        else none

end

/-- Function `json.Unmarshal` into an `interface{}`: the value that the text
`data` denotes, when it is one JSON value between optional white space. One
call per byte of the text bounds the nesting of calls. -/
def Unmarshal (data : GoString) : Option Any :=
  match decodeValue (data.length + 1) (skipSpace data) with
  | none => none
  | some (t, rest) => if (skipSpace rest).isEmpty then some t else none

/-- The keys of an object, in the order of the text; no key for other values. -/
def Any.keys : Any → List GoString
  | .obj ms => ms.map Prod.fst
  | _ => []

/-- The value of the member `k` of an object. -/
def Any.get (k : GoString) : Any → Option Any
  | .obj ms => ms.lookup k
  | _ => none

end json

/-! ## Package `strings` -/

namespace strings

/-- Function `strings.TrimPrefix`: `s` without the leading `pfx`, or `s` itself
when it does not begin with `pfx`. -/
def TrimPrefix (s pfx : GoString) : GoString :=
  if pfx.isPrefixOf s then s.drop pfx.length else s

end strings

/-! ## Vocabulary of the statements -/

/-- The lines of a text: the maximal segments without a newline byte, each
terminated by a newline (a last segment without newline counts as a line). -/
def lines : GoString → List GoString
  | [] => []
  | b :: rest =>
    if b = 0x0A then [] :: lines rest
    else
      match lines rest with
      | [] => [[b]]
      | l :: ls => (b :: l) :: ls

namespace json

/-- The text `b` begins like a line of indented JSON: the prefix, some copies
of the indent, then the first byte of a JSON token (a double quote, a brace,
a bracket, or the `n` of `null`). -/
def BeginsIndented (pfx indent b : GoString) : Prop :=
  ∃ (k : Nat) (c : Byte) (t : GoString),
    b = pfx ++ (List.replicate k indent).flatten ++ c :: t
      ∧ c ∈ [(0x22 : Byte), 0x7B, 0x7D, 0x5B, 0x5D, 0x6E]

/-- Every line feed of `s` is followed by the beginning of a line of indented
JSON. -/
def LineFeedsIndented (pfx indent s : GoString) : Prop :=
  ∀ a b, s = a ++ 0x0A :: b → BeginsIndented pfx indent b

/-- A piece of the body of a JSON string literal: the scanner of string
literals reads over it, and it has no line feed. -/
def Passes (c : GoString) : Prop := (∀ x, scanString (c ++ x) = scanString x) ∧ 0x0A ∉ c

mutual

/-- What the decoder returns for the text of a value of the encoder: the same
tree, with every string and every key as `unquoteBytes` reads the literal that
`appendString` has written for it. -/
def decoded : Value → Any
  | .null => .null
  | .str s => .str (unquoteBytes (appendStringLoop s.length [] s))
  | .arr xs => .arr (decodedElems xs)
  | .obj ms => .obj (decodedMembers ms)

/-- What the decoder returns for the elements of an array. -/
def decodedElems : List Value → List Any
  | [] => []
  | x :: xs => decoded x :: decodedElems xs

/-- What the decoder returns for the members of an object. -/
def decodedMembers : List (GoString × Value) → List (GoString × Any)
  | [] => []
  | m :: ms => decodedMember m :: decodedMembers ms

/-- What the decoder returns for one member: its key and its value. -/
def decodedMember : GoString × Value → GoString × Any
  | (k, v) => (unquoteBytes (appendStringLoop k.length [] k), decoded v)

end

/-- The keys that the encoder of a struct writes, given for every field its
name and whether its value is empty: every name, or with the `omitempty`
option the names of the fields that are not empty, in the order of the
declaration. -/
def presentKeys (omitempty : Bool) (fields : List (GoString × Bool)) : List GoString :=
  (fields.filter (fun f => !(omitempty && f.2))).map Prod.fst

/-- The decoded value `t` is an object with the keys of the module: of the
fields `Path`, `Version`, `Sum`, `Replace`, those that the encoder writes. The
value of its key `Replace` is `null` when the module has no replacement, and
otherwise, recursively, such an object for the replacement. -/
def IsModuleOf (omitempty : Bool) : debug.Module → Any → Prop
  | .mk p v s none, t =>
    ∃ ms, t = .obj ms
      ∧ ms.map Prod.fst = presentKeys omitempty [(lit "Path", p.isEmpty),
          (lit "Version", v.isEmpty), (lit "Sum", s.isEmpty), (lit "Replace", true)]
      ∧ ∀ x, (lit "Replace", x) ∈ ms → x = .null
  | .mk p v s (some r), t =>
    ∃ ms, t = .obj ms
      ∧ ms.map Prod.fst = presentKeys omitempty [(lit "Path", p.isEmpty),
          (lit "Version", v.isEmpty), (lit "Sum", s.isEmpty), (lit "Replace", false)]
      ∧ ∃ x, (lit "Replace", x) ∈ ms ∧ IsModuleOf omitempty r x

/-- The decoded value `t` is an object with the keys of the setting: of the
fields `Key` and `Value`, those that the encoder writes. -/
def IsSettingOf (omitempty : Bool) (s : debug.BuildSetting) (t : Any) : Prop :=
  ∃ ms, t = .obj ms
    ∧ ms.map Prod.fst
        = presentKeys omitempty [(lit "Key", s.Key.isEmpty), (lit "Value", s.Value.isEmpty)]

end json

namespace utf8

/-- What the decoder says about a string whose first byte is not ASCII: either
the encoding is invalid, or the string starts with the (shortest, valid)
encoding `enc` of a rune `r`, which the encoder reproduces. -/
def DecodesTo (s0 : Byte) (t : GoString) : Prop :=
  DecodeRuneInString (s0 :: t) = (RuneError, 1)
  ∨ ∃ (r : Nat) (e u : GoString), t = e ++ u ∧ 1 ≤ e.length ∧ 0x80 ≤ r ∧ ValidRune r = true
      ∧ (∀ p, AppendRune p r = p ++ s0 :: e)
      ∧ (∀ v, DecodeRuneInString (s0 :: e ++ v) = (r, e.length + 1))
      ∧ (∀ b ∈ e, 0x80 ≤ b.val)

/-- No rune of `s` is a control character, however many runes are read. -/
def NoControl (s : GoString) : Prop :=
  ∀ fuel, ∀ r ∈ runesLoop fuel s, unicode.IsControl r = false

end utf8

namespace debug

/-- The chain of replacements of a module: the module itself, its
replacement, the replacement of that one, and so on. -/
def Module.chain : Module → List Module
  | .mk p v s none => [.mk p v s none]
  | .mk p v s (some r) => .mk p v s (some r) :: Module.chain r

/-- The values of a module that the text report shows: path, version and
checksum of the module and of every module of its chain of replacements. -/
def Module.values : Module → List GoString
  | .mk p v s none => [p, v, s]
  | .mk p v s (some r) => p :: v :: s :: Module.values r

/-- The values of a record that the text report shows (all its strings but
the keys of the settings). -/
def BuildInfo.values (bi : BuildInfo) : List GoString :=
  bi.GoVersion :: bi.Path :: (bi.Main.values ++ (bi.Deps.map Module.values).flatten
    ++ bi.Settings.map (fun s => s.Value))

end debug

namespace buildinfo

open debug

/-- The three header lines and the main-module block of the text report
(steps 1 to 4 of the spec's `FormatText`). -/
def mainBlock (tbl : Nat → Bool) (bi : BuildInfo) (quote : Bool) (pfx indent : GoString) :
    GoString :=
  unlines [pfx ++ lit "Go Version: " ++ quoteIf tbl bi.GoVersion quote,
           pfx ++ lit "Path: " ++ quoteIf tbl bi.Path quote,
           pfx ++ lit "Main Module:"]
    ++ formatModule tbl [] bi.Main quote pfx indent

/-- The dependencies section of the text report: the header line and the
rendering of every dependency, in input order (step 5 of the spec's
`FormatText`). -/
def depsSection (tbl : Nat → Bool) (deps : List Module) (quote : Bool) (pfx indent : GoString) :
    GoString :=
  unlines [pfx ++ lit "Dependencies:"]
    ++ (deps.map (fun d => formatModule tbl [] d quote pfx indent)).flatten

/-- The settings section of the text report: the header line and one line per
setting, in input order (step 6 of the spec's `FormatText`). -/
def settingsSection (tbl : Nat → Bool) (settings : List BuildSetting) (quote : Bool)
    (pfx indent : GoString) : GoString :=
  unlines ((pfx ++ lit "Settings:") :: settings.map (fun s =>
    pfx ++ indent ++ s.Key ++ lit ": " ++ quoteIf tbl s.Value quote))

/-- The lines that `formatModule` writes, one per call of `Fprintf` or
`Fprintln`, without their final newline. -/
def moduleLines (tbl : Nat → Bool) : Module → Bool → GoString → GoString → List GoString
  | .mk path version sum replace, quote, pfx, indent =>
    [pfx ++ indent ++ lit "Path: " ++ quoteIf tbl path quote,
     pfx ++ indent ++ lit "Version: " ++ quoteIf tbl version quote,
     pfx ++ indent ++ lit "Sum: " ++ quoteIf tbl sum quote]
    ++ (match replace with
        | none => []
        | some r =>
          (pfx ++ indent ++ lit "Replace:") :: moduleLines tbl r quote (pfx ++ indent) indent)

/-- The lines that `FormatText` writes, one per call of `Fprintf` or
`Fprintln`, without their final newline. -/
def textLines (tbl : Nat → Bool) (bi : BuildInfo) (quote : Bool) (pfx indent : GoString) :
    List GoString :=
  [pfx ++ lit "Go Version: " ++ quoteIf tbl bi.GoVersion quote,
   pfx ++ lit "Path: " ++ quoteIf tbl bi.Path quote,
   pfx ++ lit "Main Module:"]
  ++ moduleLines tbl bi.Main quote pfx indent
  ++ (match bi.Deps with
      | [] => []
      | _ :: _ => (pfx ++ lit "Dependencies:")
          :: (bi.Deps.map (fun d => moduleLines tbl d quote pfx indent)).flatten)
  ++ (match bi.Settings with
      | [] => []
      | _ :: _ => (pfx ++ lit "Settings:") :: bi.Settings.map (fun s =>
          pfx ++ indent ++ s.Key ++ lit ": " ++ quoteIf tbl s.Value quote))

/-- The lines of one level of a chain of replacements: at level `i` (the module
itself is level 0) the line `Replace:` that introduces the module, after the
prefix and `i` copies of the indent (no such line at level 0), then the lines
`Path`, `Version` and `Sum` after the prefix and `i + 1` copies of the indent. -/
def levelLines (tbl : Nat → Bool) (quote : Bool) (pfx indent : GoString) (i : Nat) (m : Module) :
    List GoString :=
  (if i = 0 then [] else [pfx ++ (List.replicate i indent).flatten ++ lit "Replace:"])
  ++ [pfx ++ (List.replicate (i + 1) indent).flatten ++ lit "Path: " ++ quoteIf tbl m.Path quote,
      pfx ++ (List.replicate (i + 1) indent).flatten ++ lit "Version: "
        ++ quoteIf tbl m.Version quote,
      pfx ++ (List.replicate (i + 1) indent).flatten ++ lit "Sum: " ++ quoteIf tbl m.Sum quote]

/-- The lines of the modules `ms`, taken as the levels `i`, `i + 1`, ... of a
chain of replacements. -/
def chainLines (tbl : Nat → Bool) (quote : Bool) (pfx indent : GoString) :
    Nat → List Module → List GoString
  | _, [] => []
  | i, m :: ms => levelLines tbl quote pfx indent i m ++ chainLines tbl quote pfx indent (i + 1) ms

/-- The zero value `debug.BuildInfo{}` (the test case "Empty BuildInfo"). -/
def zeroBuildInfo : BuildInfo :=
  { GoVersion := [], Path := [], Main := .mk [] [] [] none, Deps := [], Settings := [] }

/-- The record of the test case "Basic JSON output". -/
def basicBuildInfo : BuildInfo :=
  { GoVersion := lit "go1.21", Path := lit "test.com/pkg",
    Main := .mk (lit "test.com/pkg") (lit "v0.9.1") (lit "h1:abc987654321") none,
    Deps := [], Settings := [] }

/-- The record of the test case "Minimal BuildInfo". -/
def minimalBuildInfo : BuildInfo :=
  { GoVersion := lit "go1.20.3", Path := lit "example.com/project",
    Main := .mk (lit "example.com/project") (lit "v1.2.3") (lit "h1:abcdef1234567890") none,
    Deps := [], Settings := [] }

/-- A record whose main module is replaced by the module `R` at version `v2`
without checksum. -/
def replacedBuildInfo : BuildInfo :=
  { GoVersion := lit "go1.20.3", Path := lit "example.com/project",
    Main := .mk (lit "example.com/project") (lit "v1.2.3") (lit "h1:abcdef1234567890")
      (some (.mk (lit "R") (lit "v2") (lit "") none)),
    Deps := [], Settings := [] }

/-- The record of the test case "With Dependencies", with two more
dependencies. -/
def depsBuildInfo : BuildInfo :=
  { GoVersion := lit "go1.19", Path := lit "github.com/test/project",
    Main := .mk (lit "github.com/test/project") (lit "v2.0.0") (lit "h1:def4567890abcdef") none,
    Deps := [.mk (lit "github.com/dependency/module") (lit "v1.5.0")
               (lit "h1:123abc456def7890") none,
             .mk (lit "a.org/z") (lit "v0.1.0") (lit "") none,
             .mk (lit "a.org/b") (lit "v0.2.0") (lit "") none],
    Settings := [] }

/-- The record of the spec's concrete scenario: one setting `CGO_ENABLED=1`. -/
def settingsBuildInfo : BuildInfo :=
  { GoVersion := lit "go1.18", Path := lit "project.com/foo",
    Main := .mk (lit "project.com/foo") (lit "v1.0.1") (lit "h1:xyz9876543210") none,
    Deps := [], Settings := [⟨lit "CGO_ENABLED", lit "1"⟩] }

/-- A module with a chain of `n` replacements, all fields empty. -/
def deepModule : Nat → Module
  | 0 => .mk [] [] [] none
  | n + 1 => .mk [] [] [] (some (deepModule n))

/-- The zero record but for a main module with a chain of 9999 replacements. -/
def deepBuildInfo : BuildInfo :=
  { GoVersion := [], Path := [], Main := deepModule 9999, Deps := [], Settings := [] }

/-- A record whose Go version has a line feed inside. -/
def newlineBuildInfo : BuildInfo :=
  { GoVersion := lit "go1.20\nbeta", Path := lit "p",
    Main := .mk (lit "p") (lit "v1") (lit "") none, Deps := [], Settings := [] }

end buildinfo

/-! ## UTF-8: the decoder inverts the encoder -/

namespace utf8

theorem or_eq_add (a b k : Nat) (ha : 2 ^ k ∣ a) (hb : b < 2 ^ k) : a ||| b = a + b := by
  obtain ⟨c, rfl⟩ := ha
  exact (Nat.mul_add_lt_is_or hb c).symm

theorem shl_eq_mul (a k : Nat) : a <<< k = a * 2 ^ k := Nat.shiftLeft_eq a k
theorem shr_eq_div (a k : Nat) : a >>> k = a / 2 ^ k := Nat.shiftRight_eq_div_pow a k
theorem and_0x3F (x : Nat) : x &&& 0x3F = x % 64 := Nat.and_pow_two_sub_one_eq_mod x 6
theorem and_0x1F (x : Nat) : x &&& 0x1F = x % 32 := Nat.and_pow_two_sub_one_eq_mod x 5
theorem and_0x0F (x : Nat) : x &&& 0x0F = x % 16 := Nat.and_pow_two_sub_one_eq_mod x 4
theorem and_0x07 (x : Nat) : x &&& 0x07 = x % 8 := Nat.and_pow_two_sub_one_eq_mod x 3
theorem toByte_val (n : Nat) : (toByte n).val = n % 256 := rfl
theorem toByte_self (b : Byte) : toByte b.val = b := by
  apply Fin.ext; rw [toByte_val]; omega

theorem shl4 (a : Nat) : a <<< 4 = a * 16 := Nat.shiftLeft_eq a 4
theorem shl6 (a : Nat) : a <<< 6 = a * 64 := Nat.shiftLeft_eq a 6
theorem shl12 (a : Nat) : a <<< 12 = a * 4096 := Nat.shiftLeft_eq a 12
theorem shl18 (a : Nat) : a <<< 18 = a * 262144 := Nat.shiftLeft_eq a 18

theorem or2m (a x : Nat) : a <<< 6 ||| x % 64 = a * 64 + x % 64 := by
  have := Nat.mod_lt x (show 64 > 0 by decide)
  rw [shl6, or_eq_add _ _ 6 (by omega) (by omega)]

theorem or3m (a x y : Nat) :
    a <<< 12 ||| (x % 64) <<< 6 ||| y % 64 = a * 4096 + x % 64 * 64 + y % 64 := by
  have := Nat.mod_lt x (show 64 > 0 by decide)
  have := Nat.mod_lt y (show 64 > 0 by decide)
  rw [shl6, shl12, or_eq_add (a * 4096) _ 12 (by omega) (by omega),
    or_eq_add _ _ 6 (by omega) (by omega)]

theorem or4m (a x y z : Nat) :
    a <<< 18 ||| (x % 64) <<< 12 ||| (y % 64) <<< 6 ||| z % 64
      = a * 262144 + x % 64 * 4096 + y % 64 * 64 + z % 64 := by
  have := Nat.mod_lt x (show 64 > 0 by decide)
  have := Nat.mod_lt y (show 64 > 0 by decide)
  have := Nat.mod_lt z (show 64 > 0 by decide)
  rw [shl6, shl12, shl18, or_eq_add (a * 262144) _ 18 (by omega) (by omega),
    or_eq_add (a * 262144 + x % 64 * 4096) _ 12 (by omega) (by omega),
    or_eq_add _ _ 6 (by omega) (by omega)]

theorem first_consts :
    (s1 &&& 7 = 2 ∧ s1 >>> 4 = 0) ∧ (s2 &&& 7 = 3 ∧ s2 >>> 4 = 1) ∧ (s3 &&& 7 = 3 ∧ s3 >>> 4 = 0)
    ∧ (s4 &&& 7 = 3 ∧ s4 >>> 4 = 2) ∧ (s5 &&& 7 = 4 ∧ s5 >>> 4 = 3) ∧ (s6 &&& 7 = 4 ∧ s6 >>> 4 = 0)
    ∧ (s7 &&& 7 = 4 ∧ s7 >>> 4 = 4) := by decide

theorem first_cases : ∀ b : Byte, 0x80 ≤ b.val →
    (first b = xx ∧ (b.val < 0xC2 ∨ 0xF5 ≤ b.val))
    ∨ (first b = s1 ∧ 0xC2 ≤ b.val ∧ b.val ≤ 0xDF)
    ∨ (first b = s2 ∧ b.val = 0xE0)
    ∨ (first b = s3 ∧ (0xE1 ≤ b.val ∧ b.val ≤ 0xEC ∨ 0xEE ≤ b.val ∧ b.val ≤ 0xEF))
    ∨ (first b = s4 ∧ b.val = 0xED)
    ∨ (first b = s5 ∧ b.val = 0xF0)
    ∨ (first b = s6 ∧ 0xF1 ≤ b.val ∧ b.val ≤ 0xF3)
    ∨ (first b = s7 ∧ b.val = 0xF4) := by
  decide!

theorem first_ascii : ∀ b : Byte, b.val < 0x80 → first b = as := by decide!

/-- Normal form of the decoder on a string with a non-ASCII first byte. -/
theorem decode_xx (s0 : Byte) (t : GoString) (h : first s0 = xx) :
    DecodeRuneInString (s0 :: t) = (RuneError, 1) := by
  simp [DecodeRuneInString, h, xx, as]

theorem decode_two (s0 : Byte) (t : GoString) (h : first s0 = s1) :
    DecodeRuneInString (s0 :: t) =
      match t with
      | [] => (RuneError, 1)
      | b1 :: _ =>
        if b1.val < 0x80 ∨ 0xBF < b1.val then (RuneError, 1)
        else (s0.val % 32 * 64 + b1.val % 64, 2) := by
  have c := first_consts.1
  have hx : ¬ (s1 ≥ as) := by decide
  cases t with
  | nil => simp [DecodeRuneInString, h, hx, c.1]
  | cons b1 t =>
    simp only [DecodeRuneInString, h, hx, c.1, c.2, List.length_cons, List.getD_cons_zero,
      List.getD_cons_succ, acceptRanges, locb, hicb, mask2, maskx, and_0x3F, and_0x1F, or2m]
    simp

theorem decode_three (s0 : Byte) (t : GoString) (x lo hi : Nat) (h : first s0 = x)
    (hx : ¬ (x ≥ as)) (hsz : x &&& 7 = 3) (hacc : acceptRanges (x >>> 4) = (lo, hi)) :
    DecodeRuneInString (s0 :: t) =
      match t with
      | b1 :: b2 :: _ =>
        if b1.val < lo ∨ hi < b1.val then (RuneError, 1)
        else if b2.val < 0x80 ∨ 0xBF < b2.val then (RuneError, 1)
        else (s0.val % 16 * 4096 + b1.val % 64 * 64 + b2.val % 64, 3)
      | _ => (RuneError, 1) := by
  match t with
  | [] => simp [DecodeRuneInString, h, hx, hsz]
  | [b1] => simp [DecodeRuneInString, h, hx, hsz]
  | b1 :: b2 :: t =>
    simp only [DecodeRuneInString, h, hx, hsz, hacc, List.length_cons, List.getD_cons_zero,
      List.getD_cons_succ, locb, hicb, mask3, maskx, and_0x3F, and_0x0F, or3m]
    simp

theorem decode_four (s0 : Byte) (t : GoString) (x lo hi : Nat) (h : first s0 = x)
    (hx : ¬ (x ≥ as)) (hsz : x &&& 7 = 4) (hacc : acceptRanges (x >>> 4) = (lo, hi)) :
    DecodeRuneInString (s0 :: t) =
      match t with
      | b1 :: b2 :: b3 :: _ =>
        if b1.val < lo ∨ hi < b1.val then (RuneError, 1)
        else if b2.val < 0x80 ∨ 0xBF < b2.val then (RuneError, 1)
        else if b3.val < 0x80 ∨ 0xBF < b3.val then (RuneError, 1)
        else (s0.val % 8 * 262144 + b1.val % 64 * 4096 + b2.val % 64 * 64 + b3.val % 64, 4)
      | _ => (RuneError, 1) := by
  match t with
  | [] => simp [DecodeRuneInString, h, hx, hsz]
  | [b1] => simp [DecodeRuneInString, h, hx, hsz]
  | [b1, b2] => simp [DecodeRuneInString, h, hx, hsz]
  | b1 :: b2 :: b3 :: t =>
    simp only [DecodeRuneInString, h, hx, hsz, hacc, List.length_cons, List.getD_cons_zero,
      List.getD_cons_succ, locb, hicb, mask4, maskx, and_0x3F, and_0x07, or4m]
    simp

theorem encode_two (p : GoString) (s0 b1 : Byte) (h0 : 0xC2 ≤ s0.val) (h0' : s0.val ≤ 0xDF)
    (h1 : 0x80 ≤ b1.val) (h1' : b1.val ≤ 0xBF) :
    AppendRune p (s0.val % 32 * 64 + b1.val % 64) = p ++ [s0, b1] := by
  have hr1 : ¬ (s0.val % 32 * 64 + b1.val % 64 ≤ rune1Max) := by simp only [rune1Max]; omega
  have hr2 : s0.val % 32 * 64 + b1.val % 64 ≤ rune2Max := by simp only [rune2Max]; omega
  simp only [AppendRune, hr1, hr2, if_true, if_false, t2, tx, maskx, toByte_val, shr_eq_div,
    and_0x3F]
  rw [or_eq_add _ _ 6 (by omega) (by omega), or_eq_add _ _ 6 (by omega) (by omega)]
  congr 2
  · apply Fin.ext; rw [toByte_val]; omega
  · congr 1; apply Fin.ext; rw [toByte_val]; omega

theorem encode_three (p : GoString) (s0 b1 b2 : Byte) (h0 : 0xE0 ≤ s0.val) (h0' : s0.val ≤ 0xEF)
    (h1 : 0x80 ≤ b1.val) (h1' : b1.val ≤ 0xBF) (h2 : 0x80 ≤ b2.val) (h2' : b2.val ≤ 0xBF)
    (hlo : s0.val = 0xE0 → 0xA0 ≤ b1.val) (hhi : s0.val = 0xED → b1.val ≤ 0x9F) :
    AppendRune p (s0.val % 16 * 4096 + b1.val % 64 * 64 + b2.val % 64) = p ++ [s0, b1, b2] := by
  generalize hr : s0.val % 16 * 4096 + b1.val % 64 * 64 + b2.val % 64 = r
  have hr1 : ¬ (r ≤ rune1Max) := by simp only [rune1Max]; omega
  have hr2 : ¬ (r ≤ rune2Max) := by simp only [rune2Max]; omega
  have hr3 : r ≤ rune3Max := by simp only [rune3Max]; omega
  have hs : ¬ (r > MaxRune ∨ (surrogateMin ≤ r ∧ r ≤ surrogateMax)) := by
    simp only [MaxRune, surrogateMin, surrogateMax]; omega
  simp only [AppendRune, hr1, hr2, hr3, hs, if_true, if_false, t3, tx, maskx, toByte_val,
    shr_eq_div, and_0x3F]
  rw [or_eq_add 0xE0 _ 5 (by omega) (by omega), or_eq_add 0x80 _ 6 (by omega) (by omega),
    or_eq_add 0x80 _ 6 (by omega) (by omega)]
  congr 2
  · apply Fin.ext; rw [toByte_val]; omega
  · congr 1
    · apply Fin.ext; rw [toByte_val]; omega
    · congr 1; apply Fin.ext; rw [toByte_val]; omega

theorem encode_four (p : GoString) (s0 b1 b2 b3 : Byte) (h0 : 0xF0 ≤ s0.val)
    (h0' : s0.val ≤ 0xF4)
    (h1 : 0x80 ≤ b1.val) (h1' : b1.val ≤ 0xBF) (h2 : 0x80 ≤ b2.val) (h2' : b2.val ≤ 0xBF)
    (h3 : 0x80 ≤ b3.val) (h3' : b3.val ≤ 0xBF)
    (hlo : s0.val = 0xF0 → 0x90 ≤ b1.val) (hhi : s0.val = 0xF4 → b1.val ≤ 0x8F) :
    AppendRune p (s0.val % 8 * 262144 + b1.val % 64 * 4096 + b2.val % 64 * 64 + b3.val % 64)
      = p ++ [s0, b1, b2, b3] := by
  generalize hr : s0.val % 8 * 262144 + b1.val % 64 * 4096 + b2.val % 64 * 64 + b3.val % 64 = r
  have hr1 : ¬ (r ≤ rune1Max) := by simp only [rune1Max]; omega
  have hr2 : ¬ (r ≤ rune2Max) := by simp only [rune2Max]; omega
  have hr3 : ¬ (r ≤ rune3Max) := by simp only [rune3Max]; omega
  have hs : ¬ (r > MaxRune ∨ (surrogateMin ≤ r ∧ r ≤ surrogateMax)) := by
    simp only [MaxRune, surrogateMin, surrogateMax]; omega
  simp only [AppendRune, hr1, hr2, hr3, hs, if_true, if_false, t4, tx, maskx, toByte_val,
    shr_eq_div, and_0x3F]
  rw [or_eq_add 0xF0 _ 4 (by omega) (by omega), or_eq_add 0x80 _ 6 (by omega) (by omega),
    or_eq_add 0x80 _ 6 (by omega) (by omega), or_eq_add 0x80 _ 6 (by omega) (by omega)]
  congr 2
  · apply Fin.ext; rw [toByte_val]; omega
  · congr 1
    · apply Fin.ext; rw [toByte_val]; omega
    · congr 1
      · apply Fin.ext; rw [toByte_val]; omega
      · congr 1; apply Fin.ext; rw [toByte_val]; omega

theorem ValidRune_lt (r : Nat) (h : r < 0xD800) : ValidRune r = true := by
  simp [ValidRune, surrogateMin, h]

theorem ValidRune_gt (r : Nat) (h : 0xDFFF < r) (h' : r ≤ 0x10FFFF) : ValidRune r = true := by
  simp only [ValidRune, surrogateMin, surrogateMax, MaxRune]
  rw [if_neg (by omega), if_pos ⟨h, h'⟩]

theorem decodes_two (s0 : Byte) (t : GoString) (h : first s0 = s1) (h0 : 0xC2 ≤ s0.val)
    (h0' : s0.val ≤ 0xDF) : DecodesTo s0 t := by
  have key := fun t => decode_two s0 t h
  match t with
  | [] => left; rw [key]
  | b1 :: t =>
    by_cases hb : b1.val < 0x80 ∨ 0xBF < b1.val
    · left; rw [key]; simp only [hb, if_true]
    · right
      refine ⟨s0.val % 32 * 64 + b1.val % 64, [b1], t, rfl, by simp, by omega,
        ValidRune_lt _ (by omega), fun p => encode_two p s0 b1 h0 h0' (by omega) (by omega), ?_,
        ?_⟩
      · intro v
        rw [List.cons_append, key]
        simp only [List.singleton_append, hb, if_false, List.length_singleton]
      · intro b hb'
        simp only [List.mem_singleton] at hb'
        subst hb'
        omega

theorem decodes_three (s0 : Byte) (t : GoString) (x lo hi : Nat) (h : first s0 = x)
    (hx : ¬ (x ≥ as)) (hsz : x &&& 7 = 3) (hacc : acceptRanges (x >>> 4) = (lo, hi))
    (h0 : 0xE0 ≤ s0.val) (h0' : s0.val ≤ 0xEF) (hlo : 0x80 ≤ lo) (hhi : hi ≤ 0xBF)
    (hlo' : s0.val = 0xE0 → 0xA0 ≤ lo) (hhi' : s0.val = 0xED → hi ≤ 0x9F) : DecodesTo s0 t := by
  have key := fun t => decode_three s0 t x lo hi h hx hsz hacc
  match t with
  | [] => left; rw [key]
  | [b1] => left; rw [key]
  | b1 :: b2 :: t =>
    by_cases hb : b1.val < lo ∨ hi < b1.val
    · left; rw [key]; simp only [hb, if_true]
    · by_cases hc : b2.val < 0x80 ∨ 0xBF < b2.val
      · left; rw [key]; simp only [hb, hc, if_true, if_false]
      · right
        refine ⟨s0.val % 16 * 4096 + b1.val % 64 * 64 + b2.val % 64, [b1, b2], t, rfl, by simp,
          by omega, ?_, fun p => encode_three p s0 b1 b2 h0 h0' (by omega) (by omega) (by omega)
            (by omega) (by omega) (by omega), ?_, ?_⟩
        · by_cases hd : s0.val ≤ 0xEC
          · exact ValidRune_lt _ (by omega)
          · by_cases he : s0.val = 0xED
            · exact ValidRune_lt _ (by have := hhi' he; omega)
            · exact ValidRune_gt _ (by omega) (by omega)
        · intro v
          rw [List.cons_append, key]
          simp only [List.cons_append, List.nil_append, hb, hc, if_false, List.length_cons,
            List.length_nil]
        · intro b hb'
          simp only [List.mem_cons, List.mem_singleton, List.not_mem_nil, or_false] at hb'
          rcases hb' with rfl | rfl <;> omega

theorem decodes_four (s0 : Byte) (t : GoString) (x lo hi : Nat) (h : first s0 = x)
    (hx : ¬ (x ≥ as)) (hsz : x &&& 7 = 4) (hacc : acceptRanges (x >>> 4) = (lo, hi))
    (h0 : 0xF0 ≤ s0.val) (h0' : s0.val ≤ 0xF4) (hlo : 0x80 ≤ lo) (hhi : hi ≤ 0xBF)
    (hlo' : s0.val = 0xF0 → 0x90 ≤ lo) (hhi' : s0.val = 0xF4 → hi ≤ 0x8F) : DecodesTo s0 t := by
  have key := fun t => decode_four s0 t x lo hi h hx hsz hacc
  match t with
  | [] => left; rw [key]
  | [b1] => left; rw [key]
  | [b1, b2] => left; rw [key]
  | b1 :: b2 :: b3 :: t =>
    by_cases hb : b1.val < lo ∨ hi < b1.val
    · left; rw [key]; simp only [hb, if_true]
    · by_cases hc : b2.val < 0x80 ∨ 0xBF < b2.val
      · left; rw [key]; simp only [hb, hc, if_true, if_false]
      · by_cases hd : b3.val < 0x80 ∨ 0xBF < b3.val
        · left; rw [key]; simp only [hb, hc, hd, if_true, if_false]
        · right
          refine ⟨s0.val % 8 * 262144 + b1.val % 64 * 4096 + b2.val % 64 * 64 + b3.val % 64,
            [b1, b2, b3], t, rfl, by simp, by omega, ?_,
            fun p => encode_four p s0 b1 b2 b3 h0 h0' (by omega) (by omega) (by omega)
              (by omega) (by omega) (by omega) (by omega) (by omega), ?_, ?_⟩
          · refine ValidRune_gt _ (by omega) ?_
            have := hhi'
            omega
          · intro v
            rw [List.cons_append, key]
            simp only [List.cons_append, List.nil_append, hb, hc, hd, if_false, List.length_cons,
              List.length_nil]
          · intro b hb'
            simp only [List.mem_cons, List.mem_singleton, List.not_mem_nil, or_false] at hb'
            rcases hb' with rfl | rfl | rfl <;> omega

theorem decodes (s0 : Byte) (t : GoString) (h : 0x80 ≤ s0.val) : DecodesTo s0 t := by
  have c := first_consts
  rcases first_cases s0 h with h1 | h1 | h1 | h1 | h1 | h1 | h1 | h1
  · left; exact decode_xx s0 t h1.1
  · exact decodes_two s0 t h1.1 h1.2.1 h1.2.2
  · exact decodes_three s0 t s2 0xA0 hicb h1.1 (by decide) c.2.1.1 (by rw [c.2.1.2]; rfl)
      (by omega) (by omega) (by decide) (by decide) (by intro; decide) (by omega)
  · exact decodes_three s0 t s3 locb hicb h1.1 (by decide) c.2.2.1.1 (by rw [c.2.2.1.2]; rfl)
      (by omega) (by omega) (by decide) (by decide) (by omega) (by omega)
  · exact decodes_three s0 t s4 locb 0x9F h1.1 (by decide) c.2.2.2.1.1
      (by rw [c.2.2.2.1.2]; rfl)
      (by omega) (by omega) (by decide) (by decide) (by omega) (by intro; decide)
  · exact decodes_four s0 t s5 0x90 hicb h1.1 (by decide) c.2.2.2.2.1.1
      (by rw [c.2.2.2.2.1.2]; rfl)
      (by omega) (by omega) (by decide) (by decide) (by intro; decide) (by omega)
  · exact decodes_four s0 t s6 locb hicb h1.1 (by decide) c.2.2.2.2.2.1.1
      (by rw [c.2.2.2.2.2.1.2]; rfl)
      (by omega) (by omega) (by decide) (by decide) (by omega) (by omega)
  · exact decodes_four s0 t s7 locb 0x8F h1.1 (by decide) c.2.2.2.2.2.2.1
      (by rw [c.2.2.2.2.2.2.2]; rfl)
      (by omega) (by omega) (by decide) (by decide) (by omega) (by intro; decide)

end utf8

/-! ## `strconv.Quote`: the buffer, the hexadecimal digits, the escapes -/

namespace strconv

open utf8

theorem append_ite (c : Prop) [Decidable c] (p a b : GoString) :
    p ++ (if c then a else b) = if c then p ++ a else p ++ b := by
  split <;> rfl

theorem AppendRune_buf (p : GoString) (r : Nat) : AppendRune p r = p ++ AppendRune [] r := by
  simp only [AppendRune, append_ite, List.nil_append]

theorem appendEscapedRune_buf (tbl : Nat → Bool) (buf : GoString) (r : Nat) :
    appendEscapedRune tbl buf r = buf ++ appendEscapedRune tbl [] r := by
  simp only [appendEscapedRune, append_ite, List.nil_append, List.append_assoc]
  rw [AppendRune_buf buf r]

theorem quoteLoop_buf (tbl : Nat → Bool) : ∀ (n : Nat) (buf s : GoString),
    quoteLoop tbl n buf s = buf ++ quoteLoop tbl n [] s
  | 0, buf, s => by simp [quoteLoop]
  | n + 1, buf, [] => by simp [quoteLoop]
  | n + 1, buf, s0 :: t => by
    simp only [quoteLoop]
    generalize (if s0.val ≥ RuneSelf then DecodeRuneInString (s0 :: t) else (s0.val, 1)) = rs
    split
    · rw [quoteLoop_buf tbl n (buf ++ _ ++ _), quoteLoop_buf tbl n ([] ++ _ ++ _)]
      simp only [List.nil_append, List.append_assoc]
    · rw [quoteLoop_buf tbl n (appendEscapedRune tbl buf _),
        quoteLoop_buf tbl n (appendEscapedRune tbl [] _), appendEscapedRune_buf]
      simp only [List.nil_append, List.append_assoc]

theorem unhex_hexDigit_fin : ∀ k : Fin 16, unhex (hexDigit k.val) = some k.val := by decide!

theorem unhex_hexDigit (k : Nat) (h : k < 16) : unhex (hexDigit k) = some k :=
  unhex_hexDigit_fin ⟨k, h⟩

theorem unhexLoop_hexDigit (n v a : Nat) (s : GoString) (h : a < 16) :
    unhexLoop (n + 1) v (hexDigit a :: s) = unhexLoop n (v * 16 + a) s := by
  simp only [unhexLoop, unhex_hexDigit a h]
  rw [shl4, or_eq_add _ _ 4 (by omega) (by omega)]

theorem unquoteLoop_step (F : Nat) (buf rest rem : GoString) (c : Byte) (r : Nat) (mb : Bool)
    (hc : c ≠ 0x22) (hn : c ≠ 0x0A) (h : UnquoteChar (c :: rest) 0x22 = some (r, mb, rem)) :
    unquoteLoop (F + 1) buf (c :: rest)
      = if r < RuneSelf ∨ mb = false then unquoteLoop F (buf ++ [toByte r]) rem
        else unquoteLoop F (AppendRune buf r) rem := by
  simp only [unquoteLoop, hc, hn, h, if_false]
  simp

theorem UnquoteChar_x (s : GoString) :
    UnquoteChar (0x5C :: 0x78 :: s) 0x22
      = if s.length < 2 then none
        else
          match unhexLoop 2 0 s with
          | none => none
          | some v => some (v, false, s.drop 2) := rfl

theorem UnquoteChar_u (s : GoString) :
    UnquoteChar (0x5C :: 0x75 :: s) 0x22
      = if s.length < 4 then none
        else
          match unhexLoop 4 0 s with
          | none => none
          | some v => if !ValidRune v then none else some (v, true, s.drop 4) := rfl

theorem UnquoteChar_U (s : GoString) :
    UnquoteChar (0x5C :: 0x55 :: s) 0x22
      = if s.length < 8 then none
        else
          match unhexLoop 8 0 s with
          | none => none
          | some v => if !ValidRune v then none else some (v, true, s.drop 8) := rfl

theorem UnquoteChar_named (s : GoString) :
    UnquoteChar (0x5C :: 0x61 :: s) 0x22 = some (0x07, false, s)
    ∧ UnquoteChar (0x5C :: 0x62 :: s) 0x22 = some (0x08, false, s)
    ∧ UnquoteChar (0x5C :: 0x66 :: s) 0x22 = some (0x0C, false, s)
    ∧ UnquoteChar (0x5C :: 0x6E :: s) 0x22 = some (0x0A, false, s)
    ∧ UnquoteChar (0x5C :: 0x72 :: s) 0x22 = some (0x0D, false, s)
    ∧ UnquoteChar (0x5C :: 0x74 :: s) 0x22 = some (0x09, false, s)
    ∧ UnquoteChar (0x5C :: 0x76 :: s) 0x22 = some (0x0B, false, s)
    ∧ UnquoteChar (0x5C :: 0x5C :: s) 0x22 = some (0x5C, false, s)
    ∧ UnquoteChar (0x5C :: 0x22 :: s) 0x22 = some (0x22, false, s) :=
  ⟨rfl, rfl, rfl, rfl, rfl, rfl, rfl, rfl, rfl⟩

theorem UnquoteChar_raw (c : Byte) (s : GoString) (h : c.val < 0x80) (hq : c ≠ 0x22)
    (hb : c ≠ 0x5C) : UnquoteChar (c :: s) 0x22 = some (c.val, false, s) := by
  have h' : ¬ (c.val ≥ RuneSelf) := by simp only [RuneSelf]; omega
  simp only [UnquoteChar, hq, h', hb, false_and, if_false, ne_eq, not_false_eq_true, if_true]

theorem UnquoteChar_multibyte (c : Byte) (s : GoString) (h : 0x80 ≤ c.val) :
    UnquoteChar (c :: s) 0x22
      = some ((DecodeRuneInString (c :: s)).1, true,
          (c :: s).drop (DecodeRuneInString (c :: s)).2) := by
  have h' : c.val ≥ RuneSelf := by simp only [RuneSelf]; omega
  have hq : c ≠ 0x22 := by intro e; rw [e] at h; revert h; decide
  simp only [UnquoteChar, hq, h', false_and, if_false, if_true]

theorem unquoteLoop_hex (F : Nat) (buf rest : GoString) (b : Byte) :
    unquoteLoop (F + 1) buf
        (0x5C :: 0x78 :: hexDigit (b.val >>> 4) :: hexDigit (b.val &&& 0xF) :: rest)
      = unquoteLoop F (buf ++ [b]) rest := by
  have h1 : b.val >>> 4 < 16 := by rw [shr_eq_div]; omega
  have h2 : b.val &&& 0xF < 16 := by rw [and_0x0F]; omega
  have hv : (0 * 16 + b.val >>> 4) * 16 + (b.val &&& 0xF) = b.val := by
    rw [shr_eq_div, and_0x0F]; omega
  rw [unquoteLoop_step F buf _ rest 0x5C b.val false (by decide) (by decide)]
  · simp [toByte_self]
  · rw [UnquoteChar_x, unhexLoop_hexDigit _ _ _ _ h1, unhexLoop_hexDigit _ _ _ _ h2, hv]
    simp [unhexLoop]

/-! ## `strconv.Quote` is inverted by unquoting -/

theorem appendEscapedRune_latin1 (tbl : Nat → Bool) (r : Nat) (h : r ≤ 0xFF) :
    appendEscapedRune tbl [] r = appendEscapedRune (fun _ => false) [] r := by
  simp only [appendEscapedRune, IsPrint, h, if_true]

theorem ascii_chunk : ∀ b : Byte, b.val < 0x80 →
    (appendEscapedRune (fun _ => false) [] b.val = [b] ∧ b ≠ 0x22 ∧ b ≠ 0x5C ∧ b ≠ 0x0A)
    ∨ (appendEscapedRune (fun _ => false) [] b.val = [0x5C, 0x61] ∧ b = 0x07)
    ∨ (appendEscapedRune (fun _ => false) [] b.val = [0x5C, 0x62] ∧ b = 0x08)
    ∨ (appendEscapedRune (fun _ => false) [] b.val = [0x5C, 0x66] ∧ b = 0x0C)
    ∨ (appendEscapedRune (fun _ => false) [] b.val = [0x5C, 0x6E] ∧ b = 0x0A)
    ∨ (appendEscapedRune (fun _ => false) [] b.val = [0x5C, 0x72] ∧ b = 0x0D)
    ∨ (appendEscapedRune (fun _ => false) [] b.val = [0x5C, 0x74] ∧ b = 0x09)
    ∨ (appendEscapedRune (fun _ => false) [] b.val = [0x5C, 0x76] ∧ b = 0x0B)
    ∨ (appendEscapedRune (fun _ => false) [] b.val = [0x5C, 0x5C] ∧ b = 0x5C)
    ∨ (appendEscapedRune (fun _ => false) [] b.val = [0x5C, 0x22] ∧ b = 0x22)
    ∨ appendEscapedRune (fun _ => false) [] b.val
        = [0x5C, 0x78, hexDigit (b.val >>> 4), hexDigit (b.val &&& 0xF)] := by
  decide!

theorem unquoteLoop_named (F : Nat) (buf rest : GoString) (c b : Byte)
    (h : UnquoteChar (0x5C :: c :: rest) 0x22 = some (b.val, false, rest)) :
    unquoteLoop (F + 1) buf (0x5C :: c :: rest) = unquoteLoop F (buf ++ [b]) rest := by
  rw [unquoteLoop_step F buf _ rest 0x5C b.val false (by decide) (by decide) h]
  simp [toByte_self]

/-- One iteration of the quoting loop on an ASCII byte is undone by one
iteration of the unquoting loop. -/
theorem unquote_ascii (tbl : Nat → Bool) (F : Nat) (buf rest : GoString) (b : Byte)
    (h : b.val < 0x80) :
    appendEscapedRune tbl [] b.val ≠ []
    ∧ unquoteLoop (F + 1) buf (appendEscapedRune tbl [] b.val ++ rest)
        = unquoteLoop F (buf ++ [b]) rest := by
  rw [appendEscapedRune_latin1 tbl _ (by omega)]
  have n := UnquoteChar_named rest
  rcases ascii_chunk b h with ⟨e, h1, h2, h3⟩ | ⟨e, hb⟩ | ⟨e, hb⟩ | ⟨e, hb⟩ | ⟨e, hb⟩ | ⟨e, hb⟩
      | ⟨e, hb⟩ | ⟨e, hb⟩ | ⟨e, hb⟩ | ⟨e, hb⟩ | e
  · rw [e]
    refine ⟨by simp, ?_⟩
    rw [List.singleton_append, unquoteLoop_step F buf rest rest b b.val false h1 h3
      (UnquoteChar_raw b rest h h1 h2)]
    simp [toByte_self]
  all_goals rw [e]
  all_goals refine ⟨by simp, ?_⟩
  · exact unquoteLoop_named F buf rest _ b (by rw [hb]; exact n.1)
  · exact unquoteLoop_named F buf rest _ b (by rw [hb]; exact n.2.1)
  · exact unquoteLoop_named F buf rest _ b (by rw [hb]; exact n.2.2.1)
  · exact unquoteLoop_named F buf rest _ b (by rw [hb]; exact n.2.2.2.1)
  · exact unquoteLoop_named F buf rest _ b (by rw [hb]; exact n.2.2.2.2.1)
  · exact unquoteLoop_named F buf rest _ b (by rw [hb]; exact n.2.2.2.2.2.1)
  · exact unquoteLoop_named F buf rest _ b (by rw [hb]; exact n.2.2.2.2.2.2.1)
  · exact unquoteLoop_named F buf rest _ b (by rw [hb]; exact n.2.2.2.2.2.2.2.1)
  · exact unquoteLoop_named F buf rest _ b (by rw [hb]; exact n.2.2.2.2.2.2.2.2)
  · exact unquoteLoop_hex F buf rest b

theorem nibble_lt (r k : Nat) : r >>> k &&& 0xF < 16 := by
  rw [and_0x0F]; omega

theorem unhexLoop_u4 (r : Nat) (rest : GoString) (h : r < 0x10000) :
    unhexLoop 4 0 (hexDigit (r >>> 12 &&& 0xF) :: hexDigit (r >>> 8 &&& 0xF)
      :: hexDigit (r >>> 4 &&& 0xF) :: hexDigit (r >>> 0 &&& 0xF) :: rest) = some r := by
  rw [unhexLoop_hexDigit _ _ _ _ (nibble_lt r 12), unhexLoop_hexDigit _ _ _ _ (nibble_lt r 8),
    unhexLoop_hexDigit _ _ _ _ (nibble_lt r 4), unhexLoop_hexDigit _ _ _ _ (nibble_lt r 0)]
  simp only [unhexLoop, shr_eq_div, and_0x0F]
  congr 1
  omega

theorem unhexLoop_U8 (r : Nat) (rest : GoString) (h : r < 0x100000000) :
    unhexLoop 8 0 (hexDigit (r >>> 28 &&& 0xF) :: hexDigit (r >>> 24 &&& 0xF)
      :: hexDigit (r >>> 20 &&& 0xF) :: hexDigit (r >>> 16 &&& 0xF)
      :: hexDigit (r >>> 12 &&& 0xF) :: hexDigit (r >>> 8 &&& 0xF)
      :: hexDigit (r >>> 4 &&& 0xF) :: hexDigit (r >>> 0 &&& 0xF) :: rest) = some r := by
  rw [unhexLoop_hexDigit _ _ _ _ (nibble_lt r 28), unhexLoop_hexDigit _ _ _ _ (nibble_lt r 24),
    unhexLoop_hexDigit _ _ _ _ (nibble_lt r 20), unhexLoop_hexDigit _ _ _ _ (nibble_lt r 16),
    unhexLoop_hexDigit _ _ _ _ (nibble_lt r 12), unhexLoop_hexDigit _ _ _ _ (nibble_lt r 8),
    unhexLoop_hexDigit _ _ _ _ (nibble_lt r 4), unhexLoop_hexDigit _ _ _ _ (nibble_lt r 0)]
  simp only [unhexLoop, shr_eq_div, and_0x0F]
  congr 1
  omega

theorem ValidRune_le (r : Nat) (h : ValidRune r = true) : r ≤ 0x10FFFF := by
  simp only [ValidRune, surrogateMin, surrogateMax, MaxRune] at h
  split_ifs at h <;> omega

theorem lit_escapes : lit "\\x" = [0x5C, 0x78] ∧ lit "\\u" = [0x5C, 0x75]
    ∧ lit "\\U" = [0x5C, 0x55] := by decide

/-- One iteration of the quoting loop on a validly encoded non-ASCII rune is
undone by one iteration of the unquoting loop. -/
theorem unquote_multibyte (tbl : Nat → Bool) (F : Nat) (buf rest e : GoString) (s0 : Byte)
    (r : Nat) (h0 : 0x80 ≤ s0.val) (hr : 0x80 ≤ r) (hv : ValidRune r = true)
    (henc : ∀ p, AppendRune p r = p ++ s0 :: e)
    (hdec : ∀ v, DecodeRuneInString (s0 :: e ++ v) = (r, e.length + 1)) :
    appendEscapedRune tbl [] r ≠ []
    ∧ unquoteLoop (F + 1) buf (appendEscapedRune tbl [] r ++ rest)
        = unquoteLoop F (buf ++ s0 :: e) rest := by
  have hq : s0 ≠ 0x22 := by intro e; rw [e] at h0; revert h0; decide
  have hn : s0 ≠ 0x0A := by intro e; rw [e] at h0; revert h0; decide
  have hmax := ValidRune_le r hv
  have c1 : ¬ (r = 0x22 ∨ r = 0x5C) := by omega
  have c2 : ¬ (r < 0x20 ∨ r = 0x7F) := by omega
  have hns : ¬ (r < RuneSelf ∨ true = false) := by simp only [RuneSelf]; simp; omega
  simp only [appendEscapedRune, c1, c2, if_false, hv, Bool.not_true, Bool.false_eq_true,
    show ¬ r = 0x07 by omega, show ¬ r = 0x08 by omega, show ¬ r = 0x0C by omega,
    show ¬ r = 0x0A by omega, show ¬ r = 0x0D by omega, show ¬ r = 0x09 by omega,
    show ¬ r = 0x0B by omega, lit_escapes.2.1, lit_escapes.2.2, List.nil_append]
  cases hp : IsPrint tbl r
  · simp only [Bool.false_eq_true, if_false]
    by_cases hu : r < 0x10000
    · simp only [hu, if_true, List.cons_append, List.nil_append]
      refine ⟨by simp, ?_⟩
      rw [unquoteLoop_step F buf _ rest 0x5C r true (by decide) (by decide),
        if_neg hns, henc]
      rw [UnquoteChar_u]
      simp only [unhexLoop_u4 r rest hu, hv]
      simp
    · simp only [hu, if_false, List.cons_append, List.nil_append]
      refine ⟨by simp, ?_⟩
      rw [unquoteLoop_step F buf _ rest 0x5C r true (by decide) (by decide),
        if_neg hns, henc]
      rw [UnquoteChar_U]
      simp only [unhexLoop_U8 r rest (by omega), hv]
      simp
  · simp only [if_true, henc, List.nil_append]
    refine ⟨by simp, ?_⟩
    rw [List.cons_append, unquoteLoop_step F buf _ rest s0 r true hq hn, if_neg hns, henc]
    rw [UnquoteChar_multibyte s0 _ h0, ← List.cons_append, hdec]
    simp

/-- One iteration of the quoting loop: it consumes a non-empty piece `pre` of
the input and emits a non-empty chunk `ch` from which one iteration of the
unquoting loop recovers `pre`. -/
theorem quote_step (tbl : Nat → Bool) (s0 : Byte) (t : GoString) :
    ∃ ch pre post : GoString, s0 :: t = pre ++ post ∧ pre ≠ [] ∧ ch ≠ []
      ∧ (∀ n, quoteLoop tbl (n + 1) [] (s0 :: t) = ch ++ quoteLoop tbl n [] post)
      ∧ (∀ F buf rest, unquoteLoop (F + 1) buf (ch ++ rest) = unquoteLoop F (buf ++ pre) rest) := by
  by_cases h : s0.val < 0x80
  · have hs : ¬ (s0.val ≥ RuneSelf) := by simp only [RuneSelf]; omega
    have he : ¬ (s0.val = RuneError) := by simp only [RuneError]; omega
    refine ⟨appendEscapedRune tbl [] s0.val, [s0], t, rfl, by simp,
      (unquote_ascii tbl 0 [] [] s0 h).1, ?_, fun F buf rest => (unquote_ascii tbl F buf rest s0 h).2⟩
    intro n
    simp only [quoteLoop, hs, if_false, he, and_false, List.drop_one, List.tail_cons]
    rw [quoteLoop_buf]
  · have hs : s0.val ≥ RuneSelf := by simp only [RuneSelf]; omega
    rcases decodes s0 t (by omega) with hd | ⟨r, e, u, rfl, he, hr, hv, henc, hdec, -⟩
    · refine ⟨[0x5C, 0x78, hexDigit (s0.val >>> 4), hexDigit (s0.val &&& 0xF)], [s0], t, rfl,
        by simp, by simp, ?_, fun F buf rest => unquoteLoop_hex F buf rest s0⟩
      intro n
      simp only [quoteLoop, hs, if_true, hd, and_self, List.drop_one, List.tail_cons,
        lit_escapes.1, List.nil_append]
      rw [quoteLoop_buf]
      simp
    · have hw : ¬ (e.length + 1 = 1 ∧ r = RuneError) := by omega
      refine ⟨appendEscapedRune tbl [] r, s0 :: e, u, rfl, by simp,
        (unquote_multibyte tbl 0 [] [] e s0 r (by omega) hr hv henc hdec).1, ?_,
        fun F buf rest => (unquote_multibyte tbl F buf rest e s0 r (by omega) hr hv henc hdec).2⟩
      intro n
      have hd := hdec u
      rw [List.cons_append] at hd
      simp only [quoteLoop, hs, if_true, hd, hw, if_false]
      rw [quoteLoop_buf]
      simp

/-- Unquoting the output of the quoting loop, followed by the closing quote,
gives back the input. -/
theorem unquoteLoop_quoteLoop (tbl : Nat → Bool) : ∀ (n : Nat) (s buf : GoString) (F : Nat),
    s.length ≤ n → (quoteLoop tbl n [] s).length + 1 ≤ F →
    unquoteLoop F buf (quoteLoop tbl n [] s ++ [0x22]) = some (buf ++ s, []) := by
  intro n
  induction n with
  | zero =>
    intro s buf F hs hF
    have : s = [] := List.length_eq_zero.mp (by omega)
    subst this
    obtain ⟨F, rfl⟩ : ∃ k, F = k + 1 := ⟨F - 1, by omega⟩
    simp [quoteLoop, unquoteLoop]
  | succ n ih =>
    intro s buf F hs hF
    cases s with
    | nil =>
      obtain ⟨F, rfl⟩ : ∃ k, F = k + 1 := ⟨F - 1, by omega⟩
      simp [quoteLoop, unquoteLoop]
    | cons s0 t =>
      obtain ⟨ch, pre, post, hsplit, hpre, hch, hq, hu⟩ := quote_step tbl s0 t
      rw [hq] at hF ⊢
      have hl : 1 ≤ ch.length := List.length_pos.mpr hch
      have hp : 1 ≤ pre.length := List.length_pos.mpr hpre
      have hlen : (s0 :: t).length = pre.length + post.length := by rw [hsplit]; simp
      rw [List.length_append] at hF
      obtain ⟨F, rfl⟩ : ∃ k, F = k + 1 := ⟨F - 1, by omega⟩
      rw [List.append_assoc, hu, ih post (buf ++ pre) F (by omega) (by omega), hsplit]
      simp

theorem Unquote_Quote (tbl : Nat → Bool) (s : GoString) : Unquote (Quote tbl s) = some s := by
  have h : Quote tbl s = 0x22 :: (quoteLoop tbl s.length [] s ++ [0x22]) := by
    simp only [Quote]
    rw [quoteLoop_buf]
    simp
  rw [h]
  simp only [Unquote]
  rw [unquoteLoop_quoteLoop tbl s.length s [] _ (Nat.le_refl _) (by simp)]
  simp

end strconv

/-! ## Lines -/

theorem exists_first_newline (s : GoString) :
    (0x0A : Byte) ∉ s ∨ ∃ u t, s = u ++ 0x0A :: t ∧ (0x0A : Byte) ∉ u := by
  induction s with
  | nil => left; simp
  | cons b s ih =>
    by_cases hb : b = 0x0A
    · right; exact ⟨[], s, by rw [hb]; rfl, by simp⟩
    · rcases ih with h | ⟨u, t, rfl, hu⟩
      · left
        simp only [List.mem_cons, not_or]
        exact ⟨fun e => hb e.symm, h⟩
      · right
        refine ⟨b :: u, t, rfl, ?_⟩
        simp only [List.mem_cons, not_or]
        exact ⟨fun e => hb e.symm, hu⟩

theorem lines_of_not_mem (u : GoString) (h : (0x0A : Byte) ∉ u) (hne : u ≠ []) :
    lines u = [u] := by
  induction u with
  | nil => exact absurd rfl hne
  | cons b u ih =>
    simp only [List.mem_cons, not_or] at h
    have hb : ¬ b = 0x0A := fun e => h.1 e.symm
    cases u with
    | nil => simp [lines, hb]
    | cons c u =>
      have := ih h.2 (by simp)
      simp only [lines, hb, if_false] at this ⊢
      rw [this]

theorem lines_append_newline (u t : GoString) (h : (0x0A : Byte) ∉ u) :
    lines (u ++ 0x0A :: t) = u :: lines t := by
  induction u with
  | nil => simp [lines]
  | cons b u ih =>
    simp only [List.mem_cons, not_or] at h
    have hb : ¬ b = 0x0A := fun e => h.1 e.symm
    have := ih h.2
    have e : lines (b :: (u ++ 0x0A :: t)) = (b :: u) :: lines t := by
      rw [lines]
      simp only [hb, if_false, this]
    exact e

theorem lines_unlines (ls : List GoString) (h : ∀ l ∈ ls, (0x0A : Byte) ∉ l) :
    lines (unlines ls) = ls := by
  induction ls with
  | nil => rfl
  | cons l ls ih =>
    have e : unlines (l :: ls) = l ++ 0x0A :: unlines ls := by
      simp only [unlines, List.map_cons, List.flatten_cons, List.append_assoc]
      rfl
    rw [e, lines_append_newline l _ (h l (by simp)), ih (fun m hm => h m (by simp [hm]))]

/-! ## The test vectors of `buildinfo_test.go` -/

namespace buildinfo

open debug

theorem TestQuoteIf_table (tbl : Nat → Bool) :
    quoteIf tbl (lit "hello") false = lit "hello"
    ∧ quoteIf tbl (lit "hello") true = lit "\"hello\""
    ∧ quoteIf tbl (lit "") false = lit ""
    ∧ quoteIf tbl (lit "") true = lit "\"\""
    ∧ quoteIf tbl (lit "hello\nworld") true = lit "\"hello\\nworld\""
    ∧ quoteIf tbl (lit "\"test\"") true = lit "\"\\\"test\\\"\""
    ∧ quoteIf tbl (lit "12345") false = lit "12345"
    ∧ quoteIf tbl (lit "12345") true = lit "\"12345\""
    ∧ quoteIf tbl (lit "Go: \tGopher") true = lit "\"Go: \\tGopher\"" := by
  refine ⟨?_, ?_, ?_, ?_, ?_, ?_, ?_, ?_, ?_⟩ <;> rfl

set_option maxRecDepth 100000 in
set_option maxHeartbeats 4000000 in
theorem TestFormatText_minimal (tbl : Nat → Bool) :
    FormatText tbl
      { GoVersion := lit "go1.20.3", Path := lit "example.com/project",
        Main := .mk (lit "example.com/project") (lit "v1.2.3") (lit "h1:abcdef1234567890") none,
        Deps := [], Settings := [] } false (lit "") (lit "  ")
    = lit ("Go Version: go1.20.3\nPath: example.com/project\nMain Module:\n"
        ++ "  Path: example.com/project\n  Version: v1.2.3\n  Sum: h1:abcdef1234567890\n") := by
  rfl

set_option maxRecDepth 100000 in
set_option maxHeartbeats 4000000 in
theorem TestFormatText_withReplace (tbl : Nat → Bool) :
    FormatText tbl
      { GoVersion := lit "go1.20.3", Path := lit "example.com/project",
        Main := .mk (lit "example.com/project") (lit "v1.2.3") (lit "h1:abcdef1234567890")
          (some (.mk (lit "example.com/replace") (lit "v4.5.6") (lit "") none)),
        Deps := [], Settings := [] } false (lit "") (lit "  ")
    = lit ("Go Version: go1.20.3\nPath: example.com/project\nMain Module:\n"
        ++ "  Path: example.com/project\n  Version: v1.2.3\n  Sum: h1:abcdef1234567890\n"
        ++ "  Replace:\n    Path: example.com/replace\n    Version: v4.5.6\n    Sum: \n") := by
  rfl

set_option maxRecDepth 100000 in
set_option maxHeartbeats 4000000 in
theorem TestFormatText_withDependencies (tbl : Nat → Bool) :
    FormatText tbl
      { GoVersion := lit "go1.19", Path := lit "github.com/test/project",
        Main := .mk (lit "github.com/test/project") (lit "v2.0.0") (lit "h1:def4567890abcdef") none,
        Deps := [.mk (lit "github.com/dependency/module") (lit "v1.5.0")
          (lit "h1:123abc456def7890") none],
        Settings := [] } false (lit "") (lit "  ")
    = lit ("Go Version: go1.19\nPath: github.com/test/project\nMain Module:\n"
        ++ "  Path: github.com/test/project\n  Version: v2.0.0\n  Sum: h1:def4567890abcdef\n"
        ++ "Dependencies:\n  Path: github.com/dependency/module\n  Version: v1.5.0\n"
        ++ "  Sum: h1:123abc456def7890\n") := by
  rfl

/-! ## The text report -/

theorem unlines_nil : unlines [] = [] := rfl

theorem unlines_cons (l : GoString) (ls : List GoString) :
    unlines (l :: ls) = l ++ lit "\n" ++ unlines ls := by
  simp [unlines]

theorem unlines_append (a b : List GoString) : unlines (a ++ b) = unlines a ++ unlines b := by
  simp [unlines]

/-- What `formatModule` writes does not depend on the text already in the
builder, which it leaves in place. -/
theorem formatModule_builder (tbl : Nat → Bool) :
    ∀ (m : Module) (sb : GoString) (quote : Bool) (pfx indent : GoString),
      formatModule tbl sb m quote pfx indent = sb ++ formatModule tbl [] m quote pfx indent
  | .mk p v s none, sb, quote, pfx, indent => by
    simp [formatModule]
  | .mk p v s (some r), sb, quote, pfx, indent => by
    simp only [formatModule]
    rw [formatModule_builder tbl r (_ ++ _), formatModule_builder tbl r ([] ++ _ ++ _ ++ _ ++ _)]
    simp

theorem formatModule_spec (tbl : Nat → Bool) (sb : GoString) (m : Module) (quote : Bool)
    (pfx indent : GoString) :
    formatModule tbl sb m quote pfx indent =
      sb ++ unlines [pfx ++ indent ++ lit "Path: " ++ quoteIf tbl m.Path quote,
                     pfx ++ indent ++ lit "Version: " ++ quoteIf tbl m.Version quote,
                     pfx ++ indent ++ lit "Sum: " ++ quoteIf tbl m.Sum quote]
        ++ (match m.Replace with
            | none => []
            | some r => unlines [pfx ++ indent ++ lit "Replace:"]
                ++ formatModule tbl [] r quote (pfx ++ indent) indent) := by
  cases m with
  | mk p v s r =>
    cases r with
    | none => simp [formatModule, unlines_cons, unlines_nil, Module.Path, Module.Version, Module.Sum, Module.Replace]
    | some r =>
      simp only [formatModule, Module.Path, Module.Version, Module.Sum, Module.Replace]
      rw [formatModule_builder]
      simp [unlines_cons, unlines_nil]

theorem formatDeps_eq (tbl : Nat → Bool) (deps : List Module) (quote : Bool)
    (pfx indent : GoString) : ∀ sb : GoString,
    formatDeps tbl sb deps quote pfx indent
      = sb ++ (deps.map (fun d => formatModule tbl [] d quote pfx indent)).flatten := by
  induction deps with
  | nil => intro sb; simp [formatDeps]
  | cons d ds ih =>
    intro sb
    simp only [formatDeps, List.foldl_cons] at ih ⊢
    rw [ih, formatModule_builder]
    simp

theorem formatSettings_eq (tbl : Nat → Bool) (settings : List BuildSetting) (quote : Bool)
    (pfx indent : GoString) : ∀ sb : GoString,
    formatSettings tbl sb settings quote pfx indent
      = sb ++ unlines (settings.map (fun s =>
          pfx ++ indent ++ s.Key ++ lit ": " ++ quoteIf tbl s.Value quote)) := by
  induction settings with
  | nil => intro sb; simp [formatSettings, unlines_nil]
  | cons d ds ih =>
    intro sb
    simp only [formatSettings, List.foldl_cons] at ih ⊢
    rw [ih]
    simp [unlines_cons]

theorem lit_mainModule : lit "Main Module:\n" = lit "Main Module:" ++ lit "\n" := by decide
theorem lit_dependencies : lit "Dependencies:\n" = lit "Dependencies:" ++ lit "\n" := by decide
theorem lit_settings : lit "Settings:\n" = lit "Settings:" ++ lit "\n" := by decide

theorem FormatText_eq (tbl : Nat → Bool) (bi : BuildInfo) (quote : Bool) (pfx indent : GoString) :
    FormatText tbl bi quote pfx indent
      = unlines [pfx ++ lit "Go Version: " ++ quoteIf tbl bi.GoVersion quote,
                 pfx ++ lit "Path: " ++ quoteIf tbl bi.Path quote,
                 pfx ++ lit "Main Module:"]
        ++ formatModule tbl [] bi.Main quote pfx indent
        ++ (match bi.Deps with
            | [] => []
            | _ :: _ => unlines [pfx ++ lit "Dependencies:"]
                ++ (bi.Deps.map (fun d => formatModule tbl [] d quote pfx indent)).flatten)
        ++ (match bi.Settings with
            | [] => []
            | _ :: _ => unlines ((pfx ++ lit "Settings:") :: bi.Settings.map (fun s =>
                pfx ++ indent ++ s.Key ++ lit ": " ++ quoteIf tbl s.Value quote))) := by
  obtain ⟨gv, path, main, deps, settings⟩ := bi
  simp only [FormatText]
  rw [formatModule_builder]
  cases deps with
  | nil =>
    cases settings with
    | nil => simp [unlines_cons, unlines_nil, lit_mainModule]
    | cons s ss =>
      simp [unlines_cons, unlines_nil, lit_mainModule, lit_settings, formatSettings_eq]
  | cons d ds =>
    cases settings with
    | nil => simp [unlines_cons, unlines_nil, lit_mainModule, lit_dependencies, formatDeps_eq]
    | cons s ss =>
      simp [unlines_cons, unlines_nil, lit_mainModule, lit_settings, formatSettings_eq,
        lit_dependencies, formatDeps_eq]

/-- C1. `formatModule` appends to the builder exactly the lines `Path`,
`Version`, `Sum` of the module, each with the leading `pfx ++ indent` and a
final newline, in that order; for a module with a replacement `r` it then
appends the line `pfx ++ indent ++ "Replace:"` and what `formatModule` appends
for `r` under the leading string `pfx ++ indent` and the same `indent`; without
replacement nothing more. The text already in the builder stays in front,
unchanged. -/
theorem formatModule_appends (tbl : Nat → Bool) (sb : GoString) (m : Module) (quote : Bool)
    (pfx indent : GoString) :
    formatModule tbl sb m quote pfx indent =
      sb ++ unlines [pfx ++ indent ++ lit "Path: " ++ quoteIf tbl m.Path quote,
                     pfx ++ indent ++ lit "Version: " ++ quoteIf tbl m.Version quote,
                     pfx ++ indent ++ lit "Sum: " ++ quoteIf tbl m.Sum quote]
        ++ (match m.Replace with
            | none => []
            | some r => unlines [pfx ++ indent ++ lit "Replace:"]
                ++ formatModule tbl [] r quote (pfx ++ indent) indent) :=
  formatModule_spec tbl sb m quote pfx indent

/-- C3, as the code has it. For a record whose main module is replaced by a
module with path `R`, version `v2` and empty checksum, with quoting off, the
text report begins with the three header lines and the main module's three
lines at `pfx ++ indent`, followed by the line `pfx ++ indent ++ "Replace:"`,
which has the SAME indentation as the main module's lines, and then the
replacement's `Path: R`, `Version: v2` and `Sum: ` lines one indent unit
deeper, at `pfx ++ indent ++ indent`; the replacement's checksum line ends
with the blank after `Sum:`. -/
theorem FormatText_replace (tbl : Nat → Bool) (bi : BuildInfo) (r : Module)
    (pfx indent : GoString) (hm : bi.Main.Replace = some r) (hp : r.Path = lit "R")
    (hv : r.Version = lit "v2") (hs : r.Sum = lit "") :
    unlines [pfx ++ lit "Go Version: " ++ bi.GoVersion,
             pfx ++ lit "Path: " ++ bi.Path,
             pfx ++ lit "Main Module:",
             pfx ++ indent ++ lit "Path: " ++ bi.Main.Path,
             pfx ++ indent ++ lit "Version: " ++ bi.Main.Version,
             pfx ++ indent ++ lit "Sum: " ++ bi.Main.Sum,
             pfx ++ indent ++ lit "Replace:",
             pfx ++ indent ++ indent ++ lit "Path: R",
             pfx ++ indent ++ indent ++ lit "Version: v2",
             pfx ++ indent ++ indent ++ lit "Sum: "]
      <+: FormatText tbl bi false pfx indent := by
  rw [FormatText_eq, formatModule_spec, hm]
  simp only []
  rw [formatModule_spec, hp, hv, hs]
  have e1 : lit "Path: R" = lit "Path: " ++ lit "R" := by decide
  have e2 : lit "Version: v2" = lit "Version: " ++ lit "v2" := by decide
  have e3 : lit "" = [] := by decide
  simp only [quoteIf, e1, e2, e3, unlines_cons, unlines_nil, List.append_assoc, List.nil_append,
    List.append_nil, Bool.false_eq_true, if_false]
  repeat (first | exact List.prefix_append _ _ | rw [List.prefix_append_right_inj])

theorem FormatText_replace_witness :
    replacedBuildInfo.Main.Replace = some (.mk (lit "R") (lit "v2") (lit "") none)
    ∧ unlines [lit "> " ++ lit "Go Version: " ++ replacedBuildInfo.GoVersion,
             lit "> " ++ lit "Path: " ++ replacedBuildInfo.Path,
             lit "> " ++ lit "Main Module:",
             lit "> " ++ lit "  " ++ lit "Path: " ++ replacedBuildInfo.Main.Path,
             lit "> " ++ lit "  " ++ lit "Version: " ++ replacedBuildInfo.Main.Version,
             lit "> " ++ lit "  " ++ lit "Sum: " ++ replacedBuildInfo.Main.Sum,
             lit "> " ++ lit "  " ++ lit "Replace:",
             lit "> " ++ lit "  " ++ lit "  " ++ lit "Path: R",
             lit "> " ++ lit "  " ++ lit "  " ++ lit "Version: v2",
             lit "> " ++ lit "  " ++ lit "  " ++ lit "Sum: "]
      <+: FormatText (fun _ => false) replacedBuildInfo false (lit "> ") (lit "  ") :=
  ⟨rfl, FormatText_replace (fun _ => false) replacedBuildInfo
    (.mk (lit "R") (lit "v2") (lit "") none) (lit "> ") (lit "  ") rfl rfl rfl rfl⟩

/-- C3 as stated fails: with empty leading string and an indent of two blanks,
the report of `replacedBuildInfo` has no line `"    Replace:"` (two indent
units); its `Replace:` line carries one indent unit, like the main module's
own lines. -/
theorem FormatText_replace_counterexample :
    (lit "" ++ lit "  " ++ lit "  " ++ lit "Replace:")
        ∉ lines (FormatText (fun _ => false) replacedBuildInfo false (lit "") (lit "  "))
    ∧ lines (FormatText (fun _ => false) replacedBuildInfo false (lit "") (lit "  "))
      = [lit "Go Version: go1.20.3", lit "Path: example.com/project", lit "Main Module:",
         lit "  Path: example.com/project", lit "  Version: v1.2.3",
         lit "  Sum: h1:abcdef1234567890", lit "  Replace:", lit "    Path: R",
         lit "    Version: v2", lit "    Sum: "] := by
  decide!

/-- C4. With `quote = false`, `quoteIf` returns its argument unchanged, byte for
byte. -/
theorem quoteIf_false (tbl : Nat → Bool) (s : GoString) : quoteIf tbl s false = s := by
  simp [quoteIf]

theorem unlines_length_pos (l : GoString) (ls : List GoString) :
    0 < (unlines (l :: ls)).length := by
  have e : (lit "\n").length = 1 := by decide
  simp [unlines_cons, e]

/-- C6. The `Dependencies:` and `Settings:` sections are rendered only for a
non-empty sequence. With no dependencies the report is the main block
directly followed by the settings section (which is itself absent when there
are no settings): no `Dependencies:` header in between. With no settings the
report ends with the main block or the dependencies section: no `Settings:`
header. Replacing a non-empty dependencies (or settings) sequence by the empty
one, all else equal, gives a strictly shorter report. -/
theorem FormatText_sections_gated (tbl : Nat → Bool) (bi : BuildInfo) (quote : Bool)
    (pfx indent : GoString) :
    FormatText tbl { bi with Deps := [] } quote pfx indent
        = mainBlock tbl bi quote pfx indent
          ++ (if bi.Settings.isEmpty then []
              else settingsSection tbl bi.Settings quote pfx indent)
    ∧ FormatText tbl { bi with Settings := [] } quote pfx indent
        = mainBlock tbl bi quote pfx indent
          ++ (if bi.Deps.isEmpty then [] else depsSection tbl bi.Deps quote pfx indent)
    ∧ (∀ (d : Module) (ds : List Module),
        (FormatText tbl { bi with Deps := [] } quote pfx indent).length
          < (FormatText tbl { bi with Deps := d :: ds } quote pfx indent).length)
    ∧ (∀ (s : BuildSetting) (ss : List BuildSetting),
        (FormatText tbl { bi with Settings := [] } quote pfx indent).length
          < (FormatText tbl { bi with Settings := s :: ss } quote pfx indent).length) := by
  obtain ⟨gv, path, main, deps, settings⟩ := bi
  refine ⟨?_, ?_, ?_, ?_⟩
  · rw [FormatText_eq]
    cases settings <;> simp [mainBlock, settingsSection]
  · rw [FormatText_eq]
    cases deps <;> simp [mainBlock, depsSection]
  · intro d ds
    rw [FormatText_eq, FormatText_eq]
    have h := unlines_length_pos (pfx ++ lit "Dependencies:") []
    simp only [List.length_append, List.append_nil] at h ⊢
    omega
  · intro s ss
    rw [FormatText_eq, FormatText_eq]
    have h := unlines_length_pos (pfx ++ lit "Settings:")
      ((s :: ss).map (fun s => pfx ++ indent ++ s.Key ++ lit ": " ++ quoteIf tbl s.Value quote))
    simp only [List.length_append, List.append_nil] at h ⊢
    omega

/-- C7. For a record with a non-empty dependencies sequence the report is the
main block, then the line `pfx ++ "Dependencies:"`, then immediately the
concatenation of the `formatModule` renderings of the dependencies in exactly
the input order, each rendered with the same top-level `pfx` and `indent`, and
then the settings section (if any). -/
theorem FormatText_deps_in_order (tbl : Nat → Bool) (bi : BuildInfo) (quote : Bool)
    (pfx indent : GoString) (h : bi.Deps ≠ []) :
    FormatText tbl bi quote pfx indent
      = mainBlock tbl bi quote pfx indent
        ++ unlines [pfx ++ lit "Dependencies:"]
        ++ (bi.Deps.map (fun d => formatModule tbl [] d quote pfx indent)).flatten
        ++ (if bi.Settings.isEmpty then []
            else settingsSection tbl bi.Settings quote pfx indent) := by
  obtain ⟨gv, path, main, deps, settings⟩ := bi
  rw [FormatText_eq]
  cases deps with
  | nil => exact absurd rfl h
  | cons d ds => cases settings <;> simp [mainBlock, settingsSection]

theorem FormatText_deps_in_order_witness :
    depsBuildInfo.Deps ≠ []
    ∧ FormatText (fun _ => false) depsBuildInfo true (lit "# ") (lit "  ")
      = mainBlock (fun _ => false) depsBuildInfo true (lit "# ") (lit "  ")
        ++ unlines [lit "# " ++ lit "Dependencies:"]
        ++ (depsBuildInfo.Deps.map
            (fun d => formatModule (fun _ => false) [] d true (lit "# ") (lit "  "))).flatten
        ++ (if depsBuildInfo.Settings.isEmpty then []
            else settingsSection (fun _ => false) depsBuildInfo.Settings true (lit "# ")
              (lit "  ")) :=
  ⟨by simp [depsBuildInfo],
    FormatText_deps_in_order (fun _ => false) depsBuildInfo true (lit "# ") (lit "  ")
      (by simp [depsBuildInfo])⟩

/-- C8. For a record with a non-empty settings sequence the report ends with
the line `pfx ++ "Settings:"` followed, for each setting in input order, by the
line `pfx ++ indent ++ key ++ ": " ++ quoteIf value quote`; the key is written
raw whatever `quote` is. Concretely, with the leading string `--> `, an indent
of four blanks, quoting on and the one setting `CGO_ENABLED=1`, the report ends
with the line `--> Settings:` immediately followed by the line
`-->     CGO_ENABLED: "1"`. -/
theorem FormatText_settings (tbl : Nat → Bool) (bi : BuildInfo) (quote : Bool)
    (pfx indent : GoString) (h : bi.Settings ≠ []) :
    FormatText tbl bi quote pfx indent
      = FormatText tbl { bi with Settings := [] } quote pfx indent
        ++ unlines ((pfx ++ lit "Settings:") :: bi.Settings.map (fun s =>
            pfx ++ indent ++ s.Key ++ lit ": " ++ quoteIf tbl s.Value quote))
    ∧ (bi.Settings = [⟨lit "CGO_ENABLED", lit "1"⟩] →
        FormatText tbl bi true (lit "--> ") (lit "    ")
          = FormatText tbl { bi with Settings := [] } true (lit "--> ") (lit "    ")
            ++ lit "--> Settings:\n-->     CGO_ENABLED: \"1\"\n") := by
  have key : ∀ (q : Bool) (p i : GoString), FormatText tbl bi q p i
      = FormatText tbl { bi with Settings := [] } q p i
        ++ unlines ((p ++ lit "Settings:") :: bi.Settings.map (fun s =>
            p ++ i ++ s.Key ++ lit ": " ++ quoteIf tbl s.Value q)) := by
    intro q p i
    obtain ⟨gv, path, main, deps, settings⟩ := bi
    rw [FormatText_eq, FormatText_eq]
    cases settings with
    | nil => exact absurd rfl h
    | cons s ss => simp
  refine ⟨key quote pfx indent, ?_⟩
  intro hs
  rw [key true, hs]
  have hq : strconv.Quote tbl (lit "1") = lit "\"1\"" := rfl
  have e : lit "--> " ++ lit "Settings:" ++ lit "\n"
      ++ (lit "--> " ++ lit "    " ++ lit "CGO_ENABLED" ++ lit ": " ++ lit "\"1\"" ++ lit "\n")
      = lit "--> Settings:\n-->     CGO_ENABLED: \"1\"\n" := by decide
  simp only [List.map_cons, List.map_nil, unlines_cons, unlines_nil, quoteIf, if_true, hq,
    List.append_nil, ← e, List.append_assoc]

theorem FormatText_settings_witness :
    settingsBuildInfo.Settings ≠ []
    ∧ settingsBuildInfo.Settings = [⟨lit "CGO_ENABLED", lit "1"⟩]
    ∧ FormatText (fun _ => false) settingsBuildInfo true (lit "--> ") (lit "    ")
        = FormatText (fun _ => false) { settingsBuildInfo with Settings := [] } true
            (lit "--> ") (lit "    ")
          ++ lit "--> Settings:\n-->     CGO_ENABLED: \"1\"\n" :=
  ⟨by simp [settingsBuildInfo], rfl,
    (FormatText_settings (fun _ => false) settingsBuildInfo true (lit "--> ") (lit "    ")
      (by simp [settingsBuildInfo])).2 rfl⟩

/-! ## Quoting -/

open utf8 strconv

theorem quoteLoop_ascii (tbl : Nat → Bool) : ∀ (n : Nat) (buf s : GoString),
    (∀ b ∈ s, b.val < 0x80) → quoteLoop tbl n buf s = quoteLoop (fun _ => false) n buf s
  | 0, buf, s, _ => by simp [quoteLoop]
  | n + 1, buf, [], _ => by simp [quoteLoop]
  | n + 1, buf, s0 :: t, h => by
    have h0 : s0.val < 0x80 := h s0 (by simp)
    have hs : ¬ (s0.val ≥ RuneSelf) := by simp only [RuneSelf]; omega
    have ht : ∀ b ∈ t, b.val < 0x80 := fun b hb => h b (by simp [hb])
    simp only [quoteLoop, hs, if_false, List.drop_one, List.tail_cons]
    rw [quoteLoop_ascii tbl n _ t ht, quoteLoop_ascii tbl n _ t ht,
      appendEscapedRune_buf tbl, appendEscapedRune_buf (fun _ => false),
      appendEscapedRune_latin1 tbl _ (by omega)]

/-- On ASCII text `quoteIf` does not consult the Unicode tables. -/
theorem quoteIf_ascii (tbl : Nat → Bool) (s : GoString) (quote : Bool)
    (h : ∀ b ∈ s, b.val < 0x80) : quoteIf tbl s quote = quoteIf (fun _ => false) s quote := by
  simp only [quoteIf, Quote]
  rw [quoteLoop_ascii tbl _ _ s h]

theorem TestFormatText_withSettingsQuoted (tbl : Nat → Bool) :
    FormatText tbl
      { GoVersion := lit "go1.18", Path := lit "project.com/foo",
        Main := .mk (lit "project.com/foo") (lit "v1.0.1") (lit "h1:xyz9876543210") none,
        Deps := [],
        Settings := [⟨lit "CGO_ENABLED", lit "1"⟩, ⟨lit "GOOS", lit "linux"⟩] }
      true (lit "--> ") (lit "    ")
    = lit ("--> Go Version: \"go1.18\"\n--> Path: \"project.com/foo\"\n--> Main Module:\n"
        ++ "-->     Path: \"project.com/foo\"\n-->     Version: \"v1.0.1\"\n"
        ++ "-->     Sum: \"h1:xyz9876543210\"\n--> Settings:\n"
        ++ "-->     CGO_ENABLED: \"1\"\n-->     GOOS: \"linux\"\n") := by
  have e : ∀ tbl', FormatText tbl'
      { GoVersion := lit "go1.18", Path := lit "project.com/foo",
        Main := .mk (lit "project.com/foo") (lit "v1.0.1") (lit "h1:xyz9876543210") none,
        Deps := [],
        Settings := [⟨lit "CGO_ENABLED", lit "1"⟩, ⟨lit "GOOS", lit "linux"⟩] }
      true (lit "--> ") (lit "    ")
      = lit "--> " ++ lit "Go Version: " ++ quoteIf tbl' (lit "go1.18") true ++ lit "\n"
        ++ (lit "--> " ++ lit "Path: " ++ quoteIf tbl' (lit "project.com/foo") true ++ lit "\n")
        ++ (lit "--> " ++ lit "Main Module:\n")
        ++ (lit "--> " ++ lit "    " ++ lit "Path: " ++ quoteIf tbl' (lit "project.com/foo") true
            ++ lit "\n")
        ++ (lit "--> " ++ lit "    " ++ lit "Version: " ++ quoteIf tbl' (lit "v1.0.1") true
            ++ lit "\n")
        ++ (lit "--> " ++ lit "    " ++ lit "Sum: " ++ quoteIf tbl' (lit "h1:xyz9876543210") true
            ++ lit "\n")
        ++ (lit "--> " ++ lit "Settings:\n")
        ++ (lit "--> " ++ lit "    " ++ lit "CGO_ENABLED" ++ lit ": " ++ quoteIf tbl' (lit "1") true
            ++ lit "\n")
        ++ (lit "--> " ++ lit "    " ++ lit "GOOS" ++ lit ": " ++ quoteIf tbl' (lit "linux") true
            ++ lit "\n") := by
    intro tbl'
    simp only [FormatText, formatModule, formatSettings, formatDeps, List.length_cons,
      List.length_nil, List.foldl_cons, List.foldl_nil, List.nil_append, List.append_assoc]
    simp
  rw [e, quoteIf_ascii tbl (lit "go1.18") true (by decide!),
    quoteIf_ascii tbl (lit "project.com/foo") true (by decide!),
    quoteIf_ascii tbl (lit "v1.0.1") true (by decide!),
    quoteIf_ascii tbl (lit "h1:xyz9876543210") true (by decide!),
    quoteIf_ascii tbl (lit "1") true (by decide!),
    quoteIf_ascii tbl (lit "linux") true (by decide!)]
  decide!

/-- C5. With `quote = true` the result of `quoteIf` has at least two bytes,
starts and ends with a double quote, and unquoting it (reversing the escape
rule of Go string literals: the escapes of the quote, the backslash and the
control characters, and the `\x`, `\u` and `\U` escapes) gives back exactly
`s`; the empty string is quoted as two double quotes. -/
theorem quoteIf_true_unquote (tbl : Nat → Bool) (s : GoString) :
    2 ≤ (quoteIf tbl s true).length
    ∧ (quoteIf tbl s true).head? = some 0x22
    ∧ (quoteIf tbl s true).getLast? = some 0x22
    ∧ strconv.Unquote (quoteIf tbl s true) = some s
    ∧ quoteIf tbl [] true = [0x22, 0x22] := by
  have h : quoteIf tbl s true = 0x22 :: (quoteLoop tbl s.length [] s ++ [0x22]) := by
    simp only [quoteIf, Quote, if_true]
    rw [quoteLoop_buf]
    simp
  refine ⟨?_, ?_, ?_, ?_, rfl⟩
  · rw [h]; simp
  · rw [h]; simp
  · rw [h, ← List.cons_append]
    exact List.getLast?_concat _
  · simp only [quoteIf, if_true]
    exact Unquote_Quote tbl s

end buildinfo

/-! ## The JSON encoder writes valid JSON -/

open utf8 json

namespace json

theorem append_ite' (c : Prop) [Decidable c] (p a b : GoString) :
    p ++ (if c then a else b) = if c then p ++ a else p ++ b := by
  split <;> rfl

theorem appendStringLoop_buf : ∀ (n : Nat) (dst src : GoString),
    appendStringLoop n dst src = dst ++ appendStringLoop n [] src
  | 0, dst, src => by simp [appendStringLoop]
  | n + 1, dst, [] => by simp [appendStringLoop]
  | n + 1, dst, b :: rest => by
    simp only [appendStringLoop]
    generalize DecodeRuneInString
      ((b :: rest).take (if (b :: rest).length > 4 then 4 else (b :: rest).length)) = cs
    simp only [append_ite']
    rw [appendStringLoop_buf n (dst ++ _), appendStringLoop_buf n ([] ++ _),
      appendStringLoop_buf n (dst ++ [0x5C, b]), appendStringLoop_buf n ([] ++ [0x5C, b]),
      appendStringLoop_buf n (dst ++ lit "\\b"), appendStringLoop_buf n ([] ++ lit "\\b"),
      appendStringLoop_buf n (dst ++ lit "\\f"), appendStringLoop_buf n ([] ++ lit "\\f"),
      appendStringLoop_buf n (dst ++ lit "\\n"), appendStringLoop_buf n ([] ++ lit "\\n"),
      appendStringLoop_buf n (dst ++ lit "\\r"), appendStringLoop_buf n ([] ++ lit "\\r"),
      appendStringLoop_buf n (dst ++ lit "\\t"), appendStringLoop_buf n ([] ++ lit "\\t"),
      appendStringLoop_buf n (dst ++ lit "\\u00" ++ _),
      appendStringLoop_buf n ([] ++ lit "\\u00" ++ _),
      appendStringLoop_buf n (dst ++ lit "\\ufffd"), appendStringLoop_buf n ([] ++ lit "\\ufffd"),
      appendStringLoop_buf n (dst ++ lit "\\u202" ++ _),
      appendStringLoop_buf n ([] ++ lit "\\u202" ++ _),
      appendStringLoop_buf n (dst ++ List.take _ _), appendStringLoop_buf n ([] ++ List.take _ _)]
    simp only [List.nil_append, List.append_assoc]

theorem Passes_nil : Passes [] := ⟨fun _ => rfl, by simp⟩

theorem Passes_append (a b : GoString) (ha : Passes a) (hb : Passes b) : Passes (a ++ b) := by
  refine ⟨fun x => ?_, ?_⟩
  · rw [List.append_assoc, ha.1, hb.1]
  · simp only [List.mem_append, not_or]
    exact ⟨ha.2, hb.2⟩

theorem Passes_byte (b : Byte) (h1 : 0x20 ≤ b.val) (h2 : b ≠ 0x22) (h3 : b ≠ 0x5C) :
    Passes [b] := by
  refine ⟨fun x => ?_, ?_⟩
  · have h4 : ¬ (b.val < 0x20) := by omega
    show scanStringFrom .inString (b :: x) = _
    simp only [scanString, scanStringFrom, h2, h3, h4, if_false]
  · simp only [List.mem_singleton]
    intro e
    rw [← e] at h1
    revert h1
    decide

theorem Passes_bytes (l : GoString) (h : ∀ b ∈ l, 0x80 ≤ b.val) : Passes l := by
  induction l with
  | nil => exact Passes_nil
  | cons b l ih =>
    have hb : 0x80 ≤ b.val := h b (by simp)
    have := Passes_append [b] l
      (Passes_byte b (by omega) (by intro e; rw [e] at hb; revert hb; decide)
        (by intro e; rw [e] at hb; revert hb; decide))
      (ih (fun c hc => h c (by simp [hc])))
    simpa using this

theorem isHexDigit_hexDigit : ∀ k : Fin 16, isHexDigit (hexDigit k.val) = true
    ∧ hexDigit k.val ≠ 0x0A := by decide!

theorem Passes_short : Passes [0x5C, 0x5C] ∧ Passes [0x5C, 0x22] ∧ Passes (lit "\\b")
    ∧ Passes (lit "\\f") ∧ Passes (lit "\\n") ∧ Passes (lit "\\r") ∧ Passes (lit "\\t") := by
  refine ⟨⟨fun x => rfl, by decide⟩, ⟨fun x => rfl, by decide⟩, ⟨fun x => rfl, by decide⟩,
    ⟨fun x => rfl, by decide⟩, ⟨fun x => rfl, by decide⟩, ⟨fun x => rfl, by decide⟩,
    ⟨fun x => rfl, by decide⟩⟩

theorem Passes_u00 (a b : Nat) (ha : a < 16) (hb : b < 16) :
    Passes (lit "\\u00" ++ [hexDigit a, hexDigit b]) := by
  have e : lit "\\u00" = [0x5C, 0x75, 0x30, 0x30] := by decide
  have h1 := isHexDigit_hexDigit ⟨a, ha⟩
  have h2 := isHexDigit_hexDigit ⟨b, hb⟩
  refine ⟨fun x => ?_, ?_⟩
  · rw [e]
    show scanStringFrom .inStringEscU12 (hexDigit a :: hexDigit b :: x) = _
    simp only [scanStringFrom, h1.1, h2.1, if_true, scanString]
  · rw [e]
    simp only [List.cons_append, List.nil_append, List.mem_cons, List.not_mem_nil, or_false,
      not_or]
    exact ⟨by decide, by decide, by decide, by decide, fun e => h1.2 e.symm,
      fun e => h2.2 e.symm⟩

theorem Passes_ufffd : Passes (lit "\\ufffd") := ⟨fun x => rfl, by decide⟩

theorem Passes_u202 (a : Nat) (ha : a < 16) : Passes (lit "\\u202" ++ [hexDigit a]) := by
  have e : lit "\\u202" = [0x5C, 0x75, 0x32, 0x30, 0x32] := by decide
  have h1 := isHexDigit_hexDigit ⟨a, ha⟩
  refine ⟨fun x => ?_, ?_⟩
  · rw [e]
    show scanStringFrom .inStringEscU123 (hexDigit a :: x) = _
    simp only [scanStringFrom, h1.1, if_true, scanString]
  · rw [e]
    simp only [List.cons_append, List.nil_append, List.mem_cons, List.not_mem_nil, or_false,
      not_or]
    exact ⟨by decide, by decide, by decide, by decide, by decide, fun e => h1.2 e.symm⟩

theorem nibble_hi (b : Byte) : b.val >>> 4 < 16 := by
  rw [Nat.shiftRight_eq_div_pow]; omega

theorem nibble_lo (n : Nat) : n &&& 0xF < 16 := by
  rw [Nat.and_pow_two_sub_one_eq_mod n 4]; omega

theorem take_of_take_eq (t e u : GoString) (k : Nat) (h : t.take k = e ++ u) :
    t.take e.length = e := by
  have h1 : e.length ≤ k := by
    have := congrArg List.length h
    simp only [List.length_take, List.length_append] at this
    omega
  have h2 : (t.take k).take e.length = e := by rw [h]; simp
  rw [List.take_take] at h2
  rwa [Nat.min_eq_left h1] at h2

/-- The body of the literal written by `appendString` is read over by the
scanner of string literals, and has no line feed. -/
theorem Passes_appendStringLoop : ∀ (n : Nat) (src : GoString),
    Passes (appendStringLoop n [] src)
  | 0, src => by simp only [appendStringLoop]; exact Passes_nil
  | n + 1, [] => by simp only [appendStringLoop]; exact Passes_nil
  | n + 1, b :: rest => by
    have ih := Passes_appendStringLoop n
    have sh := Passes_short
    simp only [appendStringLoop, List.nil_append]
    by_cases hb : b.val < RuneSelf
    · simp only [hb, if_true]
      cases hs : htmlSafeSet b
      · simp only [Bool.false_eq_true, if_false]
        by_cases h1 : b = 0x5C ∨ b = 0x22
        · simp only [h1, if_true]
          rw [appendStringLoop_buf]
          rcases h1 with rfl | rfl
          · exact Passes_append _ _ sh.1 (ih rest)
          · exact Passes_append _ _ sh.2.1 (ih rest)
        simp only [h1, if_false]
        by_cases h2 : b = 0x08
        · simp only [h2, if_true]
          rw [appendStringLoop_buf]; exact Passes_append _ _ sh.2.2.1 (ih rest)
        simp only [h2, if_false]
        by_cases h3 : b = 0x0C
        · simp only [h3, if_true]
          rw [appendStringLoop_buf]; exact Passes_append _ _ sh.2.2.2.1 (ih rest)
        simp only [h3, if_false]
        by_cases h4 : b = 0x0A
        · simp only [h4, if_true]
          rw [appendStringLoop_buf]; exact Passes_append _ _ sh.2.2.2.2.1 (ih rest)
        simp only [h4, if_false]
        by_cases h5 : b = 0x0D
        · simp only [h5, if_true]
          rw [appendStringLoop_buf]; exact Passes_append _ _ sh.2.2.2.2.2.1 (ih rest)
        simp only [h5, if_false]
        by_cases h6 : b = 0x09
        · simp only [h6, if_true]
          rw [appendStringLoop_buf]; exact Passes_append _ _ sh.2.2.2.2.2.2 (ih rest)
        simp only [h6, if_false]
        rw [appendStringLoop_buf]
        exact Passes_append _ _ (Passes_u00 _ _ (nibble_hi b) (nibble_lo _)) (ih rest)
      · simp only [if_true]
        rw [appendStringLoop_buf]
        simp only [htmlSafeSet, decide_eq_true_eq] at hs
        exact Passes_append _ _ (Passes_byte b hs.1 hs.2.2.1 hs.2.2.2.2.2.2) (ih rest)
    · simp only [hb, if_false]
      have hb' : 0x80 ≤ b.val := by simp only [RuneSelf] at hb; omega
      generalize hk : (if (b :: rest).length > 4 then 4 else (b :: rest).length) = k
      have hk1 : 1 ≤ k := by
        rw [← hk]; simp only [List.length_cons]; split_ifs <;> omega
      obtain ⟨k, rfl⟩ : ∃ j, k = j + 1 := ⟨k - 1, by omega⟩
      rw [List.take_succ_cons]
      split_ifs with h1 h2
      · rw [appendStringLoop_buf]; exact Passes_append _ _ Passes_ufffd (ih _)
      · rw [appendStringLoop_buf]
        exact Passes_append _ _ (Passes_u202 _ (nibble_lo _)) (ih _)
      · rw [appendStringLoop_buf]
        refine Passes_append _ _ ?_ (ih _)
        rcases decodes b (rest.take k) hb' with hd | ⟨r, e, u, he, hl, hr, hv, henc, hdec, hbytes⟩
        · rw [hd] at h1
          exact absurd ⟨rfl, rfl⟩ h1
        · have hd := hdec u
          rw [List.cons_append, ← he] at hd
          rw [hd]
          simp only [List.take_succ_cons]
          rw [take_of_take_eq rest e u k he]
          exact Passes_bytes (b :: e) (by
            intro c hc
            rcases List.mem_cons.mp hc with rfl | hc
            · exact hb'
            · exact hbytes c hc)

theorem appendString_eq (s : GoString) :
    appendString [] s = 0x22 :: (appendStringLoop s.length [] s ++ [0x22]) := by
  simp only [appendString, List.nil_append]
  rw [appendStringLoop_buf]
  simp

theorem skipSpace_append (w x : GoString) (hw : ∀ b ∈ w, isSpace b = true) :
    skipSpace (w ++ x) = skipSpace x := by
  induction w with
  | nil => rfl
  | cons b w ih =>
    have hb : isSpace b = true := hw b (by simp)
    simp only [List.cons_append, skipSpace, hb, if_true]
    exact ih (fun c hc => hw c (by simp [hc]))

theorem skipSpace_cons (c : Byte) (x : GoString) (h : isSpace c = false) :
    skipSpace (c :: x) = c :: x := by
  simp only [skipSpace, h, Bool.false_eq_true, if_false]

theorem isSpace_newline (pfx indent : GoString) (hp : ∀ b ∈ pfx, isSpace b = true)
    (hi : ∀ b ∈ indent, isSpace b = true) (d : Nat) :
    ∀ b ∈ appendNewline [] pfx indent d, isSpace b = true := by
  intro b hb
  simp only [appendNewline, List.nil_append, List.mem_cons, List.mem_append, List.mem_flatten,
    List.mem_replicate] at hb
  rcases hb with rfl | hb | ⟨l, ⟨-, rfl⟩, hb⟩
  · rfl
  · exact hp b hb
  · exact hi b hb

theorem appendNewline_dst (dst pfx indent : GoString) (d : Nat) :
    appendNewline dst pfx indent d = dst ++ appendNewline [] pfx indent d := by
  simp [appendNewline]

/-- The first byte of the text of a value is the first byte of a JSON token,
not white space. -/
theorem indentValue_head (pfx indent : GoString) (d : Nat) (v : Value) :
    ∃ c t, indentValue pfx indent d v = c :: t ∧ isSpace c = false ∧ c ≠ 0x5D := by
  cases v with
  | null => exact ⟨0x6E, lit "ull", by simp only [indentValue]; decide, by decide, by decide⟩
  | str s => exact ⟨0x22, _, by simp only [indentValue]; exact appendString_eq s, by decide, by decide⟩
  | arr xs =>
    cases xs with
    | nil => exact ⟨0x5B, [0x5D], by simp only [indentValue]; decide, by decide, by decide⟩
    | cons x xs =>
      simp only [indentValue, appendNewline, show lit "[" = [0x5B] by decide, List.cons_append,
        List.nil_append]
      exact ⟨_, _, rfl, by decide, by decide⟩
  | obj ms =>
    cases ms with
    | nil => exact ⟨0x7B, [0x7D], by simp only [indentValue]; decide, by decide, by decide⟩
    | cons m ms =>
      simp only [indentValue, appendNewline, show lit "\x7b" = [0x7B] by decide,
        List.cons_append, List.nil_append]
      exact ⟨_, _, rfl, by decide, by decide⟩

theorem skipSpace_indentValue (pfx indent : GoString) (d : Nat) (v : Value) (x : GoString) :
    skipSpace (indentValue pfx indent d v ++ x) = indentValue pfx indent d v ++ x := by
  obtain ⟨c, t, e, hc, -⟩ := indentValue_head pfx indent d v
  rw [e, List.cons_append, skipSpace_cons c _ hc]

theorem indentElems_cons (pfx indent : GoString) (d : Nat) (x : Value) (xs : List Value) :
    ∃ t, indentElems pfx indent d (x :: xs) = indentValue pfx indent d x ++ t := by
  cases xs with
  | nil => exact ⟨[], by simp only [indentElems, List.append_nil]⟩
  | cons y ys =>
    exact ⟨_, by simp only [indentElems, appendNewline, List.append_assoc]; rfl⟩

theorem indentMembers_cons (pfx indent : GoString) (d : Nat) (m : GoString × Value)
    (ms : List (GoString × Value)) :
    ∃ t, indentMembers pfx indent d (m :: ms) = 0x22 :: t := by
  obtain ⟨k, v⟩ := m
  cases ms with
  | nil =>
    exact ⟨_, by simp only [indentMembers, indentMember, appendString_eq, List.cons_append]; rfl⟩
  | cons y ys =>
    exact ⟨_, by
      simp only [indentMembers, indentMember, appendNewline, appendString_eq, List.cons_append]
      rfl⟩

theorem scanLiteral_self (name rest : GoString) : scanLiteral name (name ++ rest) = some rest := by
  have h : name.isPrefixOf (name ++ rest) = true := by
    rw [List.isPrefixOf_iff_prefix]; exact List.prefix_append _ _
  simp [scanLiteral, h]

theorem parseValue_null (fuel : Nat) (rest : GoString) :
    parseValue (fuel + 1) (lit "null" ++ rest) = some rest := by
  have e : lit "null" ++ rest = 0x6E :: (lit "ull" ++ rest) := by
    show _ = lit "null" ++ rest; rfl
  rw [e, parseValue]
  simp only [show ¬ ((0x6E : Byte) = 0x7B) by decide, show ¬ ((0x6E : Byte) = 0x5B) by decide,
    show ¬ ((0x6E : Byte) = 0x22) by decide, show ¬ ((0x6E : Byte) = 0x74) by decide,
    show ¬ ((0x6E : Byte) = 0x66) by decide,
    show ¬ ((0x6E : Byte) = 0x2D ∨ isDigit 0x6E = true) by decide, if_false, if_true]
  rw [← e]
  exact scanLiteral_self _ _

theorem parseValue_str (fuel : Nat) (body rest : GoString) (h : Passes body) :
    parseValue (fuel + 1) (0x22 :: (body ++ 0x22 :: rest)) = some rest := by
  rw [parseValue]
  simp only [show ¬ ((0x22 : Byte) = 0x7B) by decide, show ¬ ((0x22 : Byte) = 0x5B) by decide,
    if_false, if_true]
  rw [h.1]
  rfl

theorem parseValue_arr (fuel : Nat) (t rest : GoString) (d : Byte)
    (h : skipSpace t = d :: rest) (hd : d ≠ 0x5D) :
    parseValue (fuel + 1) (0x5B :: t) = parseElems fuel (d :: rest) := by
  rw [parseValue]
  simp only [show ¬ ((0x5B : Byte) = 0x7B) by decide, if_false, if_true, h, hd]

theorem parseValue_obj (fuel : Nat) (t rest : GoString) (d : Byte)
    (h : skipSpace t = d :: rest) (hd : d ≠ 0x7D) :
    parseValue (fuel + 1) (0x7B :: t) = parseMembers fuel (d :: rest) := by
  rw [parseValue]
  simp only [if_true, h, hd, if_false]

theorem parseElems_last (fuel : Nat) (s s1 s2 : GoString)
    (h : parseValue fuel s = some s1) (h1 : skipSpace s1 = 0x5D :: s2) :
    parseElems (fuel + 1) s = some s2 := by
  rw [parseElems]
  simp only [h, h1, show ¬ ((0x5D : Byte) = 0x2C) by decide, if_false, if_true]

theorem parseElems_more (fuel : Nat) (s s1 s2 : GoString)
    (h : parseValue fuel s = some s1) (h1 : skipSpace s1 = 0x2C :: s2) :
    parseElems (fuel + 1) s = parseElems fuel (skipSpace s2) := by
  rw [parseElems]
  simp only [h, h1, if_true]

theorem parseMembers_key (fuel : Nat) (body t : GoString) (h : Passes body) :
    parseMembers (fuel + 1) (0x22 :: (body ++ 0x22 :: 0x3A :: 0x20 :: t))
      = parseMembers (fuel + 1) (0x22 :: 0x22 :: 0x3A :: 0x20 :: t) := by
  rw [parseMembers, parseMembers]
  simp only [if_true]
  rw [h.1]

theorem parseMembers_last (fuel : Nat) (t s1 s2 : GoString)
    (h : parseValue fuel (skipSpace t) = some s1) (h1 : skipSpace s1 = 0x7D :: s2) :
    parseMembers (fuel + 1) (0x22 :: 0x22 :: 0x3A :: 0x20 :: t) = some s2 := by
  rw [parseMembers]
  simp only [if_true]
  have e : scanString (0x22 :: 0x3A :: 0x20 :: t) = some (0x3A :: 0x20 :: t) := rfl
  have e2 : skipSpace (0x3A :: 0x20 :: t) = 0x3A :: 0x20 :: t := rfl
  have e3 : skipSpace (0x20 :: t) = skipSpace t := rfl
  simp only [e, e2, e3, if_true, h, h1, show ¬ ((0x7D : Byte) = 0x2C) by decide, if_false]

theorem parseMembers_more (fuel : Nat) (t s1 s2 : GoString)
    (h : parseValue fuel (skipSpace t) = some s1) (h1 : skipSpace s1 = 0x2C :: s2) :
    parseMembers (fuel + 1) (0x22 :: 0x22 :: 0x3A :: 0x20 :: t)
      = parseMembers fuel (skipSpace s2) := by
  rw [parseMembers]
  simp only [if_true]
  have e : scanString (0x22 :: 0x3A :: 0x20 :: t) = some (0x3A :: 0x20 :: t) := rfl
  have e2 : skipSpace (0x3A :: 0x20 :: t) = 0x3A :: 0x20 :: t := rfl
  have e3 : skipSpace (0x20 :: t) = skipSpace t := rfl
  simp only [e, e2, e3, if_true, h, h1]

/-- The text of a value, of the elements of an array and of the members of an
object, as laid out with a prefix and an indent of white space, is accepted by
the parser, which stops right after it. -/
theorem parse_indent (pfx indent : GoString) (hp : ∀ b ∈ pfx, isSpace b = true)
    (hi : ∀ b ∈ indent, isSpace b = true) (v : Value) :
    ∀ d, ∃ n, ∀ fuel rest, n ≤ fuel →
      parseValue fuel (indentValue pfx indent d v ++ rest) = some rest := by
  have hnl := isSpace_newline pfx indent hp hi
  refine Value.rec
    (motive_1 := fun v => ∀ d, ∃ n, ∀ fuel rest, n ≤ fuel →
      parseValue fuel (indentValue pfx indent d v ++ rest) = some rest)
    (motive_2 := fun xs => xs ≠ [] → ∀ d, ∃ n, ∀ fuel rest d', n ≤ fuel →
      parseElems fuel (indentElems pfx indent d xs
        ++ (appendNewline [] pfx indent d' ++ 0x5D :: rest)) = some rest)
    (motive_3 := fun ms => ms ≠ [] → ∀ d, ∃ n, ∀ fuel rest d', n ≤ fuel →
      parseMembers fuel (indentMembers pfx indent d ms
        ++ (appendNewline [] pfx indent d' ++ 0x7D :: rest)) = some rest)
    (motive_4 := fun m => ∀ d, ∃ n, ∀ fuel rest, n ≤ fuel →
      parseValue fuel (indentValue pfx indent d m.2 ++ rest) = some rest)
    ?_ ?_ ?_ ?_ ?_ ?_ ?_ ?_ ?_ v
  · -- null
    intro d
    refine ⟨1, fun fuel rest h => ?_⟩
    obtain ⟨f, rfl⟩ : ∃ f, fuel = f + 1 := ⟨fuel - 1, by omega⟩
    simp only [indentValue]
    exact parseValue_null f rest
  · -- str
    intro s d
    refine ⟨1, fun fuel rest h => ?_⟩
    obtain ⟨f, rfl⟩ : ∃ f, fuel = f + 1 := ⟨fuel - 1, by omega⟩
    simp only [indentValue]
    rw [appendString_eq, List.cons_append, List.append_assoc, List.singleton_append]
    exact parseValue_str f _ rest (Passes_appendStringLoop _ _)
  · -- arr
    intro elems ih d
    cases elems with
    | nil =>
      refine ⟨1, fun fuel rest h => ?_⟩
      obtain ⟨f, rfl⟩ : ∃ f, fuel = f + 1 := ⟨fuel - 1, by omega⟩
      simp only [indentValue]
      have e : lit "[]" ++ rest = 0x5B :: 0x5D :: rest := rfl
      rw [e, parseValue]
      rfl
    | cons x xs =>
      obtain ⟨n, hn⟩ := ih (by simp) (d + 1)
      refine ⟨n + 1, fun fuel rest h => ?_⟩
      obtain ⟨f, rfl⟩ : ∃ f, fuel = f + 1 := ⟨fuel - 1, by omega⟩
      obtain ⟨t, ht⟩ := indentElems_cons pfx indent (d + 1) x xs
      obtain ⟨c, t', e, hc, hc'⟩ := indentValue_head pfx indent (d + 1) x
      have e1 : indentValue pfx indent d (.arr (x :: xs)) ++ rest
          = 0x5B :: (appendNewline [] pfx indent (d + 1)
              ++ (indentElems pfx indent (d + 1) (x :: xs)
                ++ (appendNewline [] pfx indent d ++ 0x5D :: rest))) := by
        simp only [indentValue, appendNewline_dst (lit "["), List.append_assoc]
        rfl
      rw [e1, parseValue_arr f _ (t' ++ t ++ (appendNewline [] pfx indent d ++ 0x5D :: rest)) c
        (by
          rw [skipSpace_append _ _ (hnl (d + 1)), ht, e]
          simp only [List.cons_append, List.append_assoc]
          exact skipSpace_cons c _ hc) hc']
      have := hn f rest d (by omega)
      rw [ht, e] at this
      simpa only [List.cons_append, List.append_assoc] using this
  · -- obj
    intro members ih d
    cases members with
    | nil =>
      refine ⟨1, fun fuel rest h => ?_⟩
      obtain ⟨f, rfl⟩ : ∃ f, fuel = f + 1 := ⟨fuel - 1, by omega⟩
      simp only [indentValue]
      have e : lit "\x7b\x7d" ++ rest = 0x7B :: 0x7D :: rest := rfl
      rw [e, parseValue]
      rfl
    | cons m ms =>
      obtain ⟨n, hn⟩ := ih (by simp) (d + 1)
      refine ⟨n + 1, fun fuel rest h => ?_⟩
      obtain ⟨f, rfl⟩ : ∃ f, fuel = f + 1 := ⟨fuel - 1, by omega⟩
      obtain ⟨t, ht⟩ := indentMembers_cons pfx indent (d + 1) m ms
      have e1 : indentValue pfx indent d (.obj (m :: ms)) ++ rest
          = 0x7B :: (appendNewline [] pfx indent (d + 1)
              ++ (indentMembers pfx indent (d + 1) (m :: ms)
                ++ (appendNewline [] pfx indent d ++ 0x7D :: rest))) := by
        simp only [indentValue, appendNewline_dst (lit "\x7b"), List.append_assoc]
        rfl
      rw [e1, parseValue_obj f _ (t ++ (appendNewline [] pfx indent d ++ 0x7D :: rest)) 0x22
        (by
          rw [skipSpace_append _ _ (hnl (d + 1)), ht]
          rfl) (by decide)]
      have := hn f rest d (by omega)
      rw [ht] at this
      simpa only [List.cons_append, List.append_assoc] using this
  · -- no element
    intro h
    exact absurd rfl h
  · -- elements
    intro x xs ihx ihxs _ d
    cases xs with
    | nil =>
      obtain ⟨n, hn⟩ := ihx d
      refine ⟨n + 1, fun fuel rest d' h => ?_⟩
      obtain ⟨f, rfl⟩ : ∃ f, fuel = f + 1 := ⟨fuel - 1, by omega⟩
      simp only [indentElems]
      refine parseElems_last f _ _ rest (hn f _ (by omega)) ?_
      rw [skipSpace_append _ _ (hnl d')]
      rfl
    | cons y ys =>
      obtain ⟨n1, h1⟩ := ihx d
      obtain ⟨n2, h2⟩ := ihxs (by simp) d
      refine ⟨max n1 n2 + 1, fun fuel rest d' h => ?_⟩
      obtain ⟨f, rfl⟩ : ∃ f, fuel = f + 1 := ⟨fuel - 1, by omega⟩
      have hf1 : n1 ≤ f := by have := Nat.le_max_left n1 n2; omega
      have hf2 : n2 ≤ f := by have := Nat.le_max_right n1 n2; omega
      obtain ⟨t, ht⟩ := indentElems_cons pfx indent d y ys
      have e1 : indentElems pfx indent d (x :: y :: ys)
            ++ (appendNewline [] pfx indent d' ++ 0x5D :: rest)
          = indentValue pfx indent d x ++ (0x2C :: (appendNewline [] pfx indent d
              ++ (indentElems pfx indent d (y :: ys)
                ++ (appendNewline [] pfx indent d' ++ 0x5D :: rest)))) := by
        simp only [indentElems, appendNewline_dst (_ ++ lit ","), List.append_assoc]
        rfl
      have step := parseElems_more f
        (indentValue pfx indent d x ++ (0x2C :: (appendNewline [] pfx indent d
          ++ (indentElems pfx indent d (y :: ys)
            ++ (appendNewline [] pfx indent d' ++ 0x5D :: rest)))))
        _ _ (h1 f _ hf1) rfl
      rw [e1, step, skipSpace_append _ _ (hnl d), ht, List.append_assoc, skipSpace_indentValue,
        ← List.append_assoc, ← ht]
      exact h2 f rest d' hf2
  · -- no member
    intro h
    exact absurd rfl h
  · -- members
    intro m ms ihm ihms _ d
    obtain ⟨k, v⟩ := m
    have hk := Passes_appendStringLoop k.length k
    cases ms with
    | nil =>
      obtain ⟨n, hn⟩ := ihm d
      refine ⟨n + 1, fun fuel rest d' h => ?_⟩
      obtain ⟨f, rfl⟩ : ∃ f, fuel = f + 1 := ⟨fuel - 1, by omega⟩
      have e1 : indentMembers pfx indent d [(k, v)]
            ++ (appendNewline [] pfx indent d' ++ 0x7D :: rest)
          = 0x22 :: (appendStringLoop k.length [] k ++ 0x22 :: 0x3A :: 0x20 ::
              (indentValue pfx indent d v ++ (appendNewline [] pfx indent d' ++ 0x7D :: rest))) := by
        simp only [indentMembers, indentMember, appendString_eq, List.cons_append,
          List.append_assoc]
        rfl
      rw [e1, parseMembers_key f _ _ hk]
      refine parseMembers_last f _ (appendNewline [] pfx indent d' ++ 0x7D :: rest) rest ?_ ?_
      · rw [skipSpace_indentValue]
        exact hn f _ (by omega)
      · rw [skipSpace_append _ _ (hnl d')]
        rfl
    | cons m' ms =>
      obtain ⟨n1, h1⟩ := ihm d
      obtain ⟨n2, h2⟩ := ihms (by simp) d
      refine ⟨max n1 n2 + 1, fun fuel rest d' h => ?_⟩
      obtain ⟨f, rfl⟩ : ∃ f, fuel = f + 1 := ⟨fuel - 1, by omega⟩
      have hf1 : n1 ≤ f := by have := Nat.le_max_left n1 n2; omega
      have hf2 : n2 ≤ f := by have := Nat.le_max_right n1 n2; omega
      obtain ⟨t, ht⟩ := indentMembers_cons pfx indent d m' ms
      have e1 : indentMembers pfx indent d ((k, v) :: m' :: ms)
            ++ (appendNewline [] pfx indent d' ++ 0x7D :: rest)
          = 0x22 :: (appendStringLoop k.length [] k ++ 0x22 :: 0x3A :: 0x20 ::
              (indentValue pfx indent d v ++ (0x2C :: (appendNewline [] pfx indent d
                ++ (indentMembers pfx indent d (m' :: ms)
                  ++ (appendNewline [] pfx indent d' ++ 0x7D :: rest)))))) := by
        simp only [indentMembers, indentMember, appendString_eq, appendNewline,
          List.cons_append, List.append_assoc, List.nil_append,
          show lit ": " = [0x3A, 0x20] by decide, show lit "," = [0x2C] by decide]
      have step := parseMembers_more f
        (indentValue pfx indent d v ++ (0x2C :: (appendNewline [] pfx indent d
          ++ (indentMembers pfx indent d (m' :: ms)
            ++ (appendNewline [] pfx indent d' ++ 0x7D :: rest)))))
        (0x2C :: (appendNewline [] pfx indent d
          ++ (indentMembers pfx indent d (m' :: ms)
            ++ (appendNewline [] pfx indent d' ++ 0x7D :: rest))))
        _ (by rw [skipSpace_indentValue]; exact h1 f _ hf1) rfl
      rw [e1, parseMembers_key f _ _ hk, step, skipSpace_append _ _ (hnl d), ht]
      have := h2 f rest d' hf2
      rw [ht] at this
      exact this
  · -- one member
    intro k v ih
    exact ih

end json

/-! ## The JSON report -/

open debug buildinfo

namespace buildinfo

theorem FormatJSON_eq (omitempty : Bool) (info : BuildInfo) (pfx indent : GoString)
    (hd : depth (ofBuildInfo omitempty info) ≤ maxNestingDepth) :
    FormatJSON omitempty info pfx indent
      = (pfx ++ indentValue pfx indent 0 (ofBuildInfo omitempty info), none) := by
  simp only [FormatJSON, MarshalIndent, Nat.not_lt.mpr hd, if_false]

end buildinfo

/-! ## The lines of the JSON report -/

theorem not_mem_flatten_replicate (indent : GoString) (hi : (0x0A : Byte) ∉ indent) (d : Nat) :
    (0x0A : Byte) ∉ (List.replicate d indent).flatten := by
  simp only [List.mem_flatten, List.mem_replicate, not_exists, not_and]
  rintro l ⟨-, rfl⟩
  exact hi

namespace json

theorem BeginsIndented_append (pfx indent b x : GoString) (h : BeginsIndented pfx indent b) :
    BeginsIndented pfx indent (b ++ x) := by
  obtain ⟨k, c, t, rfl, hc⟩ := h
  exact ⟨k, c, t ++ x, by simp, hc⟩

theorem BeginsIndented_starts (pfx indent b : GoString) (h : BeginsIndented pfx indent b) :
    pfx <+: b := by
  obtain ⟨k, c, t, rfl, -⟩ := h
  rw [List.append_assoc]
  exact List.prefix_append _ _

theorem LineFeedsIndented_of_not_mem (pfx indent s : GoString) (h : (0x0A : Byte) ∉ s) :
    LineFeedsIndented pfx indent s := by
  intro a b e
  exact absurd (by rw [e]; simp) h

theorem LineFeedsIndented_append (pfx indent s t : GoString)
    (hs : LineFeedsIndented pfx indent s) (ht : LineFeedsIndented pfx indent t) :
    LineFeedsIndented pfx indent (s ++ t) := by
  intro a b e
  rcases List.append_eq_append_iff.mp e with ⟨a', rfl, h⟩ | ⟨c', rfl, h⟩
  · exact ht a' b h
  · cases c' with
    | nil =>
      rw [List.nil_append] at h
      exact ht [] b (by rw [h]; rfl)
    | cons x c' =>
      rw [List.cons_append, List.cons.injEq] at h
      obtain ⟨rfl, rfl⟩ := h
      exact BeginsIndented_append pfx indent _ _ (hs a c' rfl)

theorem LineFeedsIndented_suffix (pfx indent a b : GoString)
    (h : LineFeedsIndented pfx indent (a ++ b)) : LineFeedsIndented pfx indent b := by
  intro x y e
  exact h (a ++ x) y (by rw [e]; simp)

theorem split_after_clean (w y a b : GoString) (hw : (0x0A : Byte) ∉ w)
    (e : w ++ y = a ++ 0x0A :: b) : ∃ a', a = w ++ a' ∧ y = a' ++ 0x0A :: b := by
  rcases List.append_eq_append_iff.mp e with ⟨a', h1, h2⟩ | ⟨c', h1, h2⟩
  · exact ⟨a', h1, h2⟩
  · cases c' with
    | nil =>
      rw [List.nil_append] at h2
      rw [List.append_nil] at h1
      exact ⟨[], by rw [h1, List.append_nil], by rw [← h2]; rfl⟩
    | cons x c' =>
      rw [List.cons_append, List.cons.injEq] at h2
      exact absurd (by rw [h1, h2.1]; simp) hw

/-- A line break of `json.Indent` followed by a text that begins with a token. -/
theorem LineFeedsIndented_newline (pfx indent : GoString) (hp : (0x0A : Byte) ∉ pfx)
    (hi : (0x0A : Byte) ∉ indent) (d : Nat) (c : Byte) (t : GoString)
    (hc : c ∈ [(0x22 : Byte), 0x7B, 0x7D, 0x5B, 0x5D, 0x6E])
    (ht : LineFeedsIndented pfx indent (c :: t)) :
    LineFeedsIndented pfx indent (appendNewline [] pfx indent d ++ c :: t) := by
  intro a b e
  simp only [appendNewline, List.nil_append, List.cons_append] at e
  cases a with
  | nil =>
    rw [List.nil_append, List.cons.injEq] at e
    exact ⟨d, c, t, e.2.symm, hc⟩
  | cons x a =>
    rw [List.cons_append, List.cons.injEq] at e
    have hw : (0x0A : Byte) ∉ pfx ++ (List.replicate d indent).flatten := by
      simp only [List.mem_append, not_or]
      exact ⟨hp, not_mem_flatten_replicate indent hi d⟩
    obtain ⟨a', -, h2⟩ := split_after_clean _ _ _ _ hw e.2
    exact ht a' b h2

/-- When a text begins like a line of indented JSON and so does what follows
each of its line feeds, every line of the text begins like a line of indented
JSON. -/
theorem lines_indented (pfx indent : GoString) (hp : (0x0A : Byte) ∉ pfx)
    (hi : (0x0A : Byte) ∉ indent) :
    ∀ (n : Nat) (x : GoString), x.length ≤ n → BeginsIndented pfx indent x →
      LineFeedsIndented pfx indent x → ∀ l ∈ lines x, BeginsIndented pfx indent l := by
  intro n
  induction n with
  | zero =>
    intro x hx hb _ l _
    obtain ⟨k, c, t, rfl, -⟩ := hb
    simp at hx
  | succ n ih =>
    intro x hx hb hf l hl
    obtain ⟨k, c, t, rfl, hc⟩ := hb
    have hcn : c ≠ 0x0A := by
      intro e; rw [e] at hc; revert hc; decide
    have hw : (0x0A : Byte) ∉ pfx ++ (List.replicate k indent).flatten ++ [c] := by
      simp only [List.mem_append, List.mem_singleton, not_or]
      exact ⟨⟨hp, not_mem_flatten_replicate indent hi k⟩, fun e => hcn e.symm⟩
    have ex : pfx ++ (List.replicate k indent).flatten ++ c :: t
        = (pfx ++ (List.replicate k indent).flatten ++ [c]) ++ t := by simp
    rcases exists_first_newline t with h | ⟨u, t', rfl, hu⟩
    · have hall : (0x0A : Byte) ∉ pfx ++ (List.replicate k indent).flatten ++ c :: t := by
        rw [ex]
        simp only [List.mem_append, not_or] at hw ⊢
        exact ⟨hw, h⟩
      rw [lines_of_not_mem _ hall (by simp), List.mem_singleton] at hl
      rw [hl]
      exact ⟨k, c, t, rfl, hc⟩
    · have hwu : (0x0A : Byte) ∉ (pfx ++ (List.replicate k indent).flatten ++ [c]) ++ u := by
        simp only [List.mem_append, not_or] at hw ⊢
        exact ⟨hw, hu⟩
      have ex2 : pfx ++ (List.replicate k indent).flatten ++ c :: (u ++ 0x0A :: t')
          = ((pfx ++ (List.replicate k indent).flatten ++ [c]) ++ u) ++ 0x0A :: t' := by simp
      rw [ex2, lines_append_newline _ _ hwu, List.mem_cons] at hl
      rcases hl with rfl | hl
      · exact ⟨k, c, u, by simp, hc⟩
      · have hb' := hf _ _ ex2
        have hf' : LineFeedsIndented pfx indent t' := by
          have := LineFeedsIndented_suffix pfx indent
            (((pfx ++ (List.replicate k indent).flatten ++ [c]) ++ u) ++ [0x0A]) t'
            (by
              have e3 : (((pfx ++ (List.replicate k indent).flatten ++ [c]) ++ u) ++ [0x0A]) ++ t'
                  = pfx ++ (List.replicate k indent).flatten ++ c :: (u ++ 0x0A :: t') := by simp
              rw [e3]; exact hf)
          exact this
        refine ih t' ?_ hb' hf' l hl
        simp only [List.length_append, List.length_cons] at hx
        omega

theorem not_mem_appendString (s : GoString) : (0x0A : Byte) ∉ appendString [] s := by
  rw [appendString_eq]
  have h := (Passes_appendStringLoop s.length s).2
  simp only [List.mem_cons, List.mem_append, List.not_mem_nil, or_false, not_or]
  exact ⟨by decide, h, by decide⟩

theorem indentValue_token (pfx indent : GoString) (d : Nat) (v : Value) :
    ∃ c t, indentValue pfx indent d v = c :: t ∧ c ∈ [(0x22 : Byte), 0x7B, 0x7D, 0x5B, 0x5D, 0x6E] := by
  cases v with
  | null => exact ⟨0x6E, lit "ull", by simp only [indentValue]; decide, by decide⟩
  | str s => exact ⟨0x22, _, by simp only [indentValue]; exact appendString_eq s, by decide⟩
  | arr xs =>
    cases xs with
    | nil => exact ⟨0x5B, [0x5D], by simp only [indentValue]; decide, by decide⟩
    | cons x xs =>
      simp only [indentValue, appendNewline, show lit "[" = [0x5B] by decide, List.cons_append,
        List.nil_append]
      exact ⟨_, _, rfl, by decide⟩
  | obj ms =>
    cases ms with
    | nil => exact ⟨0x7B, [0x7D], by simp only [indentValue]; decide, by decide⟩
    | cons m ms =>
      simp only [indentValue, appendNewline, show lit "\x7b" = [0x7B] by decide,
        List.cons_append, List.nil_append]
      exact ⟨_, _, rfl, by decide⟩

theorem indentElems_token (pfx indent : GoString) (d : Nat) (x : Value) (xs : List Value) :
    ∃ c t, indentElems pfx indent d (x :: xs) = c :: t
      ∧ c ∈ [(0x22 : Byte), 0x7B, 0x7D, 0x5B, 0x5D, 0x6E] := by
  obtain ⟨t, ht⟩ := indentElems_cons pfx indent d x xs
  obtain ⟨c, t', e, hc⟩ := indentValue_token pfx indent d x
  exact ⟨c, t' ++ t, by rw [ht, e]; rfl, hc⟩

/-- In the text of a value laid out by `json.Indent`, every line feed is
followed by the prefix, copies of the indent and a JSON token. -/
theorem LineFeedsIndented_indentValue (pfx indent : GoString) (hp : (0x0A : Byte) ∉ pfx)
    (hi : (0x0A : Byte) ∉ indent) (v : Value) :
    ∀ d, LineFeedsIndented pfx indent (indentValue pfx indent d v) := by
  have hnl := LineFeedsIndented_newline pfx indent hp hi
  have happ := LineFeedsIndented_append pfx indent
  have hlit : ∀ s : GoString, (0x0A : Byte) ∉ s → LineFeedsIndented pfx indent s :=
    LineFeedsIndented_of_not_mem pfx indent
  refine Value.rec
    (motive_1 := fun v => ∀ d, LineFeedsIndented pfx indent (indentValue pfx indent d v))
    (motive_2 := fun xs => ∀ d, LineFeedsIndented pfx indent (indentElems pfx indent d xs))
    (motive_3 := fun ms => ∀ d, LineFeedsIndented pfx indent (indentMembers pfx indent d ms))
    (motive_4 := fun m => ∀ d, LineFeedsIndented pfx indent (indentMember pfx indent d m))
    ?_ ?_ ?_ ?_ ?_ ?_ ?_ ?_ ?_ v
  · intro d
    simp only [indentValue]
    exact hlit _ (by decide)
  · intro s d
    simp only [indentValue]
    exact hlit _ (not_mem_appendString s)
  · intro elems ih d
    cases elems with
    | nil => simp only [indentValue]; exact hlit _ (by decide)
    | cons x xs =>
      obtain ⟨c, t, e, hc⟩ := indentElems_token pfx indent (d + 1) x xs
      have h1 := hnl (d + 1) c t hc (by rw [← e]; exact ih (d + 1))
      have h2 := hnl d 0x5D [] (by decide) (hlit _ (by decide))
      rw [← e] at h1
      have key : indentValue pfx indent d (.arr (x :: xs))
          = lit "[" ++ ((appendNewline [] pfx indent (d + 1)
              ++ indentElems pfx indent (d + 1) (x :: xs))
            ++ (appendNewline [] pfx indent d ++ [0x5D])) := by
        simp only [indentValue, appendNewline_dst (lit "["), List.append_assoc]
        rfl
      rw [key]
      exact happ _ _ (hlit _ (by decide)) (happ _ _ h1 h2)
  · intro members ih d
    cases members with
    | nil => simp only [indentValue]; exact hlit _ (by decide)
    | cons x xs =>
      obtain ⟨t, e⟩ := indentMembers_cons pfx indent (d + 1) x xs
      have h1 := hnl (d + 1) 0x22 t (by decide) (by rw [← e]; exact ih (d + 1))
      have h2 := hnl d 0x7D [] (by decide) (hlit _ (by decide))
      rw [← e] at h1
      have key : indentValue pfx indent d (.obj (x :: xs))
          = lit "\x7b" ++ ((appendNewline [] pfx indent (d + 1)
              ++ indentMembers pfx indent (d + 1) (x :: xs))
            ++ (appendNewline [] pfx indent d ++ [0x7D])) := by
        simp only [indentValue, appendNewline_dst (lit "\x7b"), List.append_assoc]
        rfl
      rw [key]
      exact happ _ _ (hlit _ (by decide)) (happ _ _ h1 h2)
  · intro d
    simp only [indentElems]
    exact hlit _ (by simp)
  · intro x xs ihx ihxs d
    cases xs with
    | nil => simp only [indentElems]; exact ihx d
    | cons y ys =>
      obtain ⟨c, t, e, hc⟩ := indentElems_token pfx indent d y ys
      have h1 := hnl d c t hc (by rw [← e]; exact ihxs d)
      rw [← e] at h1
      simp only [indentElems, appendNewline_dst (_ ++ lit ","), List.append_assoc]
      exact happ _ _ (ihx d) (happ _ _ (hlit _ (by decide)) h1)
  · intro d
    simp only [indentMembers]
    exact hlit _ (by simp)
  · intro x xs ihx ihxs d
    cases xs with
    | nil => simp only [indentMembers]; exact ihx d
    | cons y ys =>
      obtain ⟨t, e⟩ := indentMembers_cons pfx indent d y ys
      have h1 := hnl d 0x22 t (by decide) (by rw [← e]; exact ihxs d)
      rw [← e] at h1
      simp only [indentMembers, appendNewline_dst (_ ++ lit ","), List.append_assoc]
      exact happ _ _ (ihx d) (happ _ _ (hlit _ (by decide)) h1)
  · intro k v ih d
    simp only [indentMember]
    exact happ _ _ (happ _ _ (hlit _ (not_mem_appendString k)) (hlit _ (by decide))) (ih d)

end json

namespace buildinfo

/-- C9, as the code has it. For every record nested no deeper than the limit
of the serializer, and every prefix and indent
without a line feed, `FormatJSON` returns no error and every line of its output
begins with the prefix, followed by copies of the indent and then the JSON
text of the line: the first line, where `FormatJSON` puts the prefix, and every
inner line of the serialized JSON (nested members and closing braces), where
`json.MarshalIndent` puts it before the copies of the indent. -/
theorem FormatJSON_lines (omitempty : Bool) (info : BuildInfo) (pfx indent : GoString)
    (hp : (0x0A : Byte) ∉ pfx) (hi : (0x0A : Byte) ∉ indent)
    (hd : depth (ofBuildInfo omitempty info) ≤ maxNestingDepth) :
    (FormatJSON omitempty info pfx indent).2 = none
    ∧ ∀ l ∈ lines (FormatJSON omitempty info pfx indent).1,
        pfx <+: l ∧ BeginsIndented pfx indent l := by
  rw [FormatJSON_eq omitempty info pfx indent hd]
  refine ⟨rfl, fun l hl => ?_⟩
  obtain ⟨c, t, e, hc⟩ := indentValue_token pfx indent 0 (ofBuildInfo omitempty info)
  have hb : BeginsIndented pfx indent
      (pfx ++ indentValue pfx indent 0 (ofBuildInfo omitempty info)) :=
    ⟨0, c, t, by rw [e]; simp, hc⟩
  have hf : LineFeedsIndented pfx indent
      (pfx ++ indentValue pfx indent 0 (ofBuildInfo omitempty info)) :=
    LineFeedsIndented_append pfx indent _ _ (LineFeedsIndented_of_not_mem pfx indent pfx hp)
      (LineFeedsIndented_indentValue pfx indent hp hi _ 0)
  have := lines_indented pfx indent hp hi _ _ (Nat.le_refl _) hb hf l hl
  exact ⟨BeginsIndented_starts pfx indent l this, this⟩

theorem FormatJSON_lines_witness :
    (0x0A : Byte) ∉ lit "--> " ∧ (0x0A : Byte) ∉ lit "  "
    ∧ depth (ofBuildInfo false basicBuildInfo) ≤ maxNestingDepth
    ∧ (FormatJSON false basicBuildInfo (lit "--> ") (lit "  ")).2 = none
    ∧ ∀ l ∈ lines (FormatJSON false basicBuildInfo (lit "--> ") (lit "  ")).1,
        lit "--> " <+: l ∧ BeginsIndented (lit "--> ") (lit "  ") l :=
  ⟨by decide, by decide, by decide!,
    FormatJSON_lines false basicBuildInfo (lit "--> ") (lit "  ") (by decide) (by decide)
      (by decide!)⟩

/-- C9 as stated fails: with the prefix `--> ` and an indent of two blanks, the
inner lines of the output for the zero record begin with the prefix, like the
first line, with or without the `omitempty` tags. -/
theorem FormatJSON_lines_counterexample :
    lines (FormatJSON false zeroBuildInfo (lit "--> ") (lit "  ")).1
      = [lit "--> \x7b", lit "-->   \"GoVersion\": \"\",", lit "-->   \"Path\": \"\",",
         lit "-->   \"Main\": \x7b", lit "-->     \"Path\": \"\",",
         lit "-->     \"Version\": \"\",", lit "-->     \"Sum\": \"\",",
         lit "-->     \"Replace\": null", lit "-->   \x7d,", lit "-->   \"Deps\": null,",
         lit "-->   \"Settings\": null", lit "--> \x7d"]
    ∧ lines (FormatJSON true zeroBuildInfo (lit "--> ") (lit "  ")).1
      = [lit "--> \x7b", lit "-->   \"Main\": \x7b\x7d", lit "--> \x7d"]
    ∧ ¬ (∀ l ∈ (lines (FormatJSON false zeroBuildInfo (lit "--> ") (lit "  ")).1).tail,
          ¬ lit "--> " <+: l)
    ∧ ¬ (∀ l ∈ (lines (FormatJSON true zeroBuildInfo (lit "--> ") (lit "  ")).1).tail,
          ¬ lit "--> " <+: l) := by
  decide!

end buildinfo

/-! ## The JSON report is valid JSON for a prefix and indent of white space -/

namespace buildinfo

theorem TrimPrefix_append (p s : GoString) : strings.TrimPrefix (p ++ s) p = s := by
  have h : p.isPrefixOf (p ++ s) = true := by
    rw [List.isPrefixOf_iff_prefix]; exact List.prefix_append _ _
  simp [strings.TrimPrefix, h]

theorem Valid_indentValue (pfx indent : GoString) (hp : ∀ b ∈ pfx, isSpace b = true)
    (hi : ∀ b ∈ indent, isSpace b = true) (v : Value) (d : Nat) :
    Valid (indentValue pfx indent d v) := by
  obtain ⟨n, hn⟩ := parse_indent pfx indent hp hi v d
  refine ⟨n, ?_⟩
  have h := hn n [] (Nat.le_refl n)
  rw [List.append_nil] at h
  have hs := skipSpace_indentValue pfx indent d v []
  rw [List.append_nil] at hs
  simp only [checkValid, hs, h]
  rfl

/-- No text that begins with an opening brace and a line feed, and goes on with
a byte that is neither white space nor a double quote nor the closing brace,
is valid JSON, whatever the bound on the nesting. -/
theorem not_Valid_brace (c : Byte) (t : GoString) (hs : isSpace c = false) (hq : c ≠ 0x22)
    (hb : c ≠ 0x7D) : ¬ Valid (0x7B :: 0x0A :: c :: t) := by
  rintro ⟨fuel, h⟩
  have e : skipSpace (0x7B :: 0x0A :: c :: t) = 0x7B :: 0x0A :: c :: t := rfl
  have e2 : skipSpace (0x0A :: c :: t) = c :: t := skipSpace_cons c t hs
  simp only [checkValid, e] at h
  match fuel with
  | 0 => simp [parseValue] at h
  | 1 =>
    rw [parseValue] at h
    simp [e2, hb, parseMembers] at h
  | f + 2 =>
    rw [parseValue] at h
    simp only [if_true, e2, hb, if_false] at h
    rw [parseMembers] at h
    simp [hq] at h

/-- C10, as the code has it. For every record nested no deeper than the limit
of the serializer and every prefix and indent made
of JSON white space only (blank, tab, carriage return, line feed), `FormatJSON`
returns no error, and its output, after stripping the one leading occurrence of
the prefix, is valid JSON. -/
theorem FormatJSON_valid (omitempty : Bool) (info : BuildInfo) (pfx indent : GoString)
    (hp : ∀ b ∈ pfx, isSpace b = true) (hi : ∀ b ∈ indent, isSpace b = true)
    (hd : depth (ofBuildInfo omitempty info) ≤ maxNestingDepth) :
    (FormatJSON omitempty info pfx indent).2 = none
    ∧ Valid (strings.TrimPrefix (FormatJSON omitempty info pfx indent).1 pfx) := by
  rw [FormatJSON_eq omitempty info pfx indent hd]
  refine ⟨rfl, ?_⟩
  simp only [TrimPrefix_append]
  exact Valid_indentValue pfx indent hp hi _ 0

theorem FormatJSON_valid_witness :
    (∀ b ∈ lit " ", isSpace b = true) ∧ (∀ b ∈ lit "\t", isSpace b = true)
    ∧ depth (ofBuildInfo false depsBuildInfo) ≤ maxNestingDepth
    ∧ (FormatJSON false depsBuildInfo (lit " ") (lit "\t")).2 = none
    ∧ Valid (strings.TrimPrefix (FormatJSON false depsBuildInfo (lit " ") (lit "\t")).1 (lit " ")) :=
  ⟨by decide!, by decide!, by decide!,
    FormatJSON_valid false depsBuildInfo (lit " ") (lit "\t") (by decide!) (by decide!)
      (by decide!)⟩

/-- C10 as stated fails: with the prefix `--> ` and an indent of two blanks the
output for the zero record, after stripping the one leading prefix, is not
valid JSON, with or without the `omitempty` tags: its second line begins with
the prefix. Nor is the output valid JSON with the empty prefix and the indent
`xx`. -/
theorem FormatJSON_valid_counterexample :
    ¬ Valid (strings.TrimPrefix (FormatJSON false zeroBuildInfo (lit "--> ") (lit "  ")).1
        (lit "--> "))
    ∧ ¬ Valid (strings.TrimPrefix (FormatJSON true zeroBuildInfo (lit "--> ") (lit "  ")).1
        (lit "--> "))
    ∧ strings.TrimPrefix (FormatJSON true zeroBuildInfo (lit "--> ") (lit "  ")).1 (lit "--> ")
      = lit "\x7b\n-->   \"Main\": \x7b\x7d\n--> \x7d"
    ∧ ¬ Valid (strings.TrimPrefix (FormatJSON true zeroBuildInfo (lit "") (lit "xx")).1 (lit ""))
    ∧ strings.TrimPrefix (FormatJSON true zeroBuildInfo (lit "") (lit "xx")).1 (lit "")
      = lit "\x7b\nxx\"Main\": \x7b\x7d\n\x7d" := by
  have e1 : strings.TrimPrefix (FormatJSON false zeroBuildInfo (lit "--> ") (lit "  ")).1
      (lit "--> ") = 0x7B :: 0x0A :: 0x2D ::
        (strings.TrimPrefix (FormatJSON false zeroBuildInfo (lit "--> ") (lit "  ")).1
          (lit "--> ")).drop 3 := by decide!
  have e2 : strings.TrimPrefix (FormatJSON true zeroBuildInfo (lit "--> ") (lit "  ")).1
      (lit "--> ") = 0x7B :: 0x0A :: 0x2D ::
        (strings.TrimPrefix (FormatJSON true zeroBuildInfo (lit "--> ") (lit "  ")).1
          (lit "--> ")).drop 3 := by decide!
  have e3 : strings.TrimPrefix (FormatJSON true zeroBuildInfo (lit "") (lit "xx")).1
      (lit "") = 0x7B :: 0x0A :: 0x78 ::
        (strings.TrimPrefix (FormatJSON true zeroBuildInfo (lit "") (lit "xx")).1
          (lit "")).drop 3 := by decide!
  refine ⟨?_, ?_, by decide!, ?_, by decide!⟩
  · rw [e1]; exact not_Valid_brace _ _ (by decide) (by decide) (by decide)
  · rw [e2]; exact not_Valid_brace _ _ (by decide) (by decide) (by decide)
  · rw [e3]; exact not_Valid_brace _ _ (by decide) (by decide) (by decide)

end buildinfo

/-! ## `json.Unmarshal` reads the JSON report back -/

namespace json

theorem literalBody_eq (body rest : GoString) :
    literalBody (body ++ 0x22 :: rest) rest = body := by
  have e : (body ++ 0x22 :: rest).length - rest.length - 1 = body.length := by
    simp only [List.length_append, List.length_cons]
    omega
  rw [literalBody, e, List.take_left]

theorem decodeValue_null (fuel : Nat) (rest : GoString) :
    decodeValue (fuel + 1) (lit "null" ++ rest) = some (.null, rest) := by
  have e : lit "null" ++ rest = 0x6E :: (lit "ull" ++ rest) := by
    show _ = lit "null" ++ rest; rfl
  rw [e, decodeValue]
  simp only [show ¬ ((0x6E : Byte) = 0x7B) by decide, show ¬ ((0x6E : Byte) = 0x5B) by decide,
    show ¬ ((0x6E : Byte) = 0x22) by decide, show ¬ ((0x6E : Byte) = 0x74) by decide,
    show ¬ ((0x6E : Byte) = 0x66) by decide,
    show ¬ ((0x6E : Byte) = 0x2D ∨ isDigit 0x6E = true) by decide, if_false, if_true]
  rw [← e, scanLiteral_self]

theorem decodeValue_str (fuel : Nat) (body rest : GoString) (h : Passes body) :
    decodeValue (fuel + 1) (0x22 :: (body ++ 0x22 :: rest))
      = some (.str (unquoteBytes body), rest) := by
  rw [decodeValue]
  simp only [show ¬ ((0x22 : Byte) = 0x7B) by decide, show ¬ ((0x22 : Byte) = 0x5B) by decide,
    if_false, if_true]
  have e : scanString (body ++ 0x22 :: rest) = some rest := by rw [h.1]; rfl
  simp only [e, literalBody_eq]

theorem decodeValue_arr (fuel : Nat) (t rest r : GoString) (d : Byte) (xs : List Any)
    (h : skipSpace t = d :: rest) (hd : d ≠ 0x5D)
    (he : decodeElems fuel (d :: rest) = some (xs, r)) :
    decodeValue (fuel + 1) (0x5B :: t) = some (.arr xs, r) := by
  rw [decodeValue]
  simp only [show ¬ ((0x5B : Byte) = 0x7B) by decide, if_false, if_true, h, hd, he]

theorem decodeValue_obj (fuel : Nat) (t rest r : GoString) (d : Byte)
    (ms : List (GoString × Any))
    (h : skipSpace t = d :: rest) (hd : d ≠ 0x7D)
    (he : decodeMembers fuel (d :: rest) = some (ms, r)) :
    decodeValue (fuel + 1) (0x7B :: t) = some (.obj ms, r) := by
  rw [decodeValue]
  simp only [if_true, h, hd, if_false, he]

theorem decodeElems_last (fuel : Nat) (s s1 s2 : GoString) (x : Any)
    (h : decodeValue fuel s = some (x, s1)) (h1 : skipSpace s1 = 0x5D :: s2) :
    decodeElems (fuel + 1) s = some ([x], s2) := by
  rw [decodeElems]
  simp only [h, h1, show ¬ ((0x5D : Byte) = 0x2C) by decide, if_false, if_true]

theorem decodeElems_more (fuel : Nat) (s s1 s2 r : GoString) (x : Any) (xs : List Any)
    (h : decodeValue fuel s = some (x, s1)) (h1 : skipSpace s1 = 0x2C :: s2)
    (h2 : decodeElems fuel (skipSpace s2) = some (xs, r)) :
    decodeElems (fuel + 1) s = some (x :: xs, r) := by
  rw [decodeElems]
  simp only [h, h1, if_true, h2]

theorem decodeMembers_last (fuel : Nat) (body t s1 s2 : GoString) (v : Any) (hb : Passes body)
    (h : decodeValue fuel (skipSpace t) = some (v, s1)) (h1 : skipSpace s1 = 0x7D :: s2) :
    decodeMembers (fuel + 1) (0x22 :: (body ++ 0x22 :: 0x3A :: 0x20 :: t))
      = some ([(unquoteBytes body, v)], s2) := by
  rw [decodeMembers]
  simp only [if_true]
  have e : scanString (body ++ 0x22 :: 0x3A :: 0x20 :: t) = some (0x3A :: 0x20 :: t) := by
    rw [hb.1]; rfl
  have e2 : skipSpace (0x3A :: 0x20 :: t) = 0x3A :: 0x20 :: t := rfl
  have e3 : skipSpace (0x20 :: t) = skipSpace t := rfl
  simp only [e, e2, e3, if_true, h, h1, show ¬ ((0x7D : Byte) = 0x2C) by decide, if_false,
    literalBody_eq]

theorem decodeMembers_more (fuel : Nat) (body t s1 s2 r : GoString) (v : Any)
    (ms : List (GoString × Any)) (hb : Passes body)
    (h : decodeValue fuel (skipSpace t) = some (v, s1)) (h1 : skipSpace s1 = 0x2C :: s2)
    (h2 : decodeMembers fuel (skipSpace s2) = some (ms, r)) :
    decodeMembers (fuel + 1) (0x22 :: (body ++ 0x22 :: 0x3A :: 0x20 :: t))
      = some ((unquoteBytes body, v) :: ms, r) := by
  rw [decodeMembers]
  simp only [if_true]
  have e : scanString (body ++ 0x22 :: 0x3A :: 0x20 :: t) = some (0x3A :: 0x20 :: t) := by
    rw [hb.1]; rfl
  have e2 : skipSpace (0x3A :: 0x20 :: t) = 0x3A :: 0x20 :: t := rfl
  have e3 : skipSpace (0x20 :: t) = skipSpace t := rfl
  simp only [e, e2, e3, if_true, h, h1, h2, literalBody_eq]

theorem indentValue_length_pos (pfx indent : GoString) (d : Nat) (v : Value) :
    1 ≤ (indentValue pfx indent d v).length := by
  obtain ⟨c, t, e, -, -⟩ := indentValue_head pfx indent d v
  rw [e]
  simp

theorem indentValue_arr_eq (pfx indent : GoString) (d : Nat) (x : Value) (xs : List Value) :
    indentValue pfx indent d (.arr (x :: xs))
      = 0x5B :: (appendNewline [] pfx indent (d + 1)
          ++ (indentElems pfx indent (d + 1) (x :: xs)
            ++ (appendNewline [] pfx indent d ++ [0x5D]))) := by
  simp only [indentValue, appendNewline_dst (lit "["), List.append_assoc]
  rfl

theorem indentValue_obj_eq (pfx indent : GoString) (d : Nat) (m : GoString × Value)
    (ms : List (GoString × Value)) :
    indentValue pfx indent d (.obj (m :: ms))
      = 0x7B :: (appendNewline [] pfx indent (d + 1)
          ++ (indentMembers pfx indent (d + 1) (m :: ms)
            ++ (appendNewline [] pfx indent d ++ [0x7D]))) := by
  simp only [indentValue, appendNewline_dst (lit "\x7b"), List.append_assoc]
  rfl

theorem indentElems_more_eq (pfx indent : GoString) (d : Nat) (x y : Value) (ys : List Value) :
    indentElems pfx indent d (x :: y :: ys)
      = indentValue pfx indent d x ++ (0x2C :: (appendNewline [] pfx indent d
          ++ indentElems pfx indent d (y :: ys))) := by
  simp only [indentElems, appendNewline_dst (_ ++ lit ","), List.append_assoc]
  rfl

theorem indentMembers_one_eq (pfx indent : GoString) (d : Nat) (k : GoString) (v : Value) :
    indentMembers pfx indent d [(k, v)]
      = 0x22 :: (appendStringLoop k.length [] k ++ 0x22 :: 0x3A :: 0x20 ::
          indentValue pfx indent d v) := by
  simp only [indentMembers, indentMember, appendString_eq, List.cons_append,
    List.append_assoc]
  rfl

theorem indentMembers_more_eq (pfx indent : GoString) (d : Nat) (k : GoString) (v : Value)
    (m : GoString × Value) (ms : List (GoString × Value)) :
    indentMembers pfx indent d ((k, v) :: m :: ms)
      = 0x22 :: (appendStringLoop k.length [] k ++ 0x22 :: 0x3A :: 0x20 ::
          (indentValue pfx indent d v ++ (0x2C :: (appendNewline [] pfx indent d
            ++ indentMembers pfx indent d (m :: ms))))) := by
  simp only [indentMembers, indentMember, appendString_eq, appendNewline,
    List.cons_append, List.append_assoc, List.nil_append,
    show lit ": " = [0x3A, 0x20] by decide, show lit "," = [0x2C] by decide]

/-- The decoder reads the text of a value, of the elements of an array and of
the members of an object, as laid out with a prefix and an indent of white
space, and returns the tree of the value; one call per byte of the text is
bound enough. -/
theorem decode_indent (pfx indent : GoString) (hp : ∀ b ∈ pfx, isSpace b = true)
    (hi : ∀ b ∈ indent, isSpace b = true) (v : Value) :
    ∀ d fuel rest, (indentValue pfx indent d v).length ≤ fuel →
      decodeValue fuel (indentValue pfx indent d v ++ rest) = some (decoded v, rest) := by
  have hnl := isSpace_newline pfx indent hp hi
  refine Value.rec
    (motive_1 := fun v => ∀ d fuel rest, (indentValue pfx indent d v).length ≤ fuel →
      decodeValue fuel (indentValue pfx indent d v ++ rest) = some (decoded v, rest))
    (motive_2 := fun xs => xs ≠ [] → ∀ d fuel rest d',
      (indentElems pfx indent d xs).length + 1 ≤ fuel →
      decodeElems fuel (indentElems pfx indent d xs
        ++ (appendNewline [] pfx indent d' ++ 0x5D :: rest)) = some (decodedElems xs, rest))
    (motive_3 := fun ms => ms ≠ [] → ∀ d fuel rest d',
      (indentMembers pfx indent d ms).length + 1 ≤ fuel →
      decodeMembers fuel (indentMembers pfx indent d ms
        ++ (appendNewline [] pfx indent d' ++ 0x7D :: rest)) = some (decodedMembers ms, rest))
    (motive_4 := fun m => ∀ d fuel rest, (indentValue pfx indent d m.2).length ≤ fuel →
      decodeValue fuel (indentValue pfx indent d m.2 ++ rest) = some (decoded m.2, rest))
    ?_ ?_ ?_ ?_ ?_ ?_ ?_ ?_ ?_ v
  · -- null
    intro d fuel rest h
    have := indentValue_length_pos pfx indent d .null
    obtain ⟨f, rfl⟩ : ∃ f, fuel = f + 1 := ⟨fuel - 1, by omega⟩
    simp only [indentValue, decoded]
    exact decodeValue_null f rest
  · -- str
    intro s d fuel rest h
    have := indentValue_length_pos pfx indent d (.str s)
    obtain ⟨f, rfl⟩ : ∃ f, fuel = f + 1 := ⟨fuel - 1, by omega⟩
    simp only [indentValue, decoded]
    rw [appendString_eq, List.cons_append, List.append_assoc, List.singleton_append]
    exact decodeValue_str f _ rest (Passes_appendStringLoop _ _)
  · -- arr
    intro elems ih d fuel rest h
    have hpos := indentValue_length_pos pfx indent d (.arr elems)
    obtain ⟨f, rfl⟩ : ∃ f, fuel = f + 1 := ⟨fuel - 1, by omega⟩
    cases elems with
    | nil =>
      simp only [indentValue, decoded, decodedElems]
      have e : lit "[]" ++ rest = 0x5B :: 0x5D :: rest := rfl
      rw [e, decodeValue]
      rfl
    | cons x xs =>
      obtain ⟨t, ht⟩ := indentElems_cons pfx indent (d + 1) x xs
      obtain ⟨c, t', e, hc, hc'⟩ := indentValue_head pfx indent (d + 1) x
      have heq := indentValue_arr_eq pfx indent d x xs
      have hlen := congrArg List.length heq
      simp only [List.length_cons, List.length_append, List.length_nil] at hlen
      have e1 : indentValue pfx indent d (.arr (x :: xs)) ++ rest
          = 0x5B :: (appendNewline [] pfx indent (d + 1)
              ++ (indentElems pfx indent (d + 1) (x :: xs)
                ++ (appendNewline [] pfx indent d ++ 0x5D :: rest))) := by
        rw [heq]; simp
      have hrec := ih (by simp) (d + 1) f rest d (by omega)
      rw [ht, e] at hrec
      simp only [List.cons_append, List.append_assoc] at hrec
      rw [e1]
      simp only [decoded]
      exact decodeValue_arr f _ (t' ++ (t ++ (appendNewline [] pfx indent d ++ 0x5D :: rest)))
        rest c _
        (by
          rw [skipSpace_append _ _ (hnl (d + 1)), ht, e]
          simp only [List.cons_append, List.append_assoc]
          exact skipSpace_cons c _ hc) hc' hrec
  · -- obj
    intro members ih d fuel rest h
    have hpos := indentValue_length_pos pfx indent d (.obj members)
    obtain ⟨f, rfl⟩ : ∃ f, fuel = f + 1 := ⟨fuel - 1, by omega⟩
    cases members with
    | nil =>
      simp only [indentValue, decoded, decodedMembers]
      have e : lit "\x7b\x7d" ++ rest = 0x7B :: 0x7D :: rest := rfl
      rw [e, decodeValue]
      rfl
    | cons m ms =>
      obtain ⟨t, ht⟩ := indentMembers_cons pfx indent (d + 1) m ms
      have heq := indentValue_obj_eq pfx indent d m ms
      have hlen := congrArg List.length heq
      simp only [List.length_cons, List.length_append, List.length_nil] at hlen
      have e1 : indentValue pfx indent d (.obj (m :: ms)) ++ rest
          = 0x7B :: (appendNewline [] pfx indent (d + 1)
              ++ (indentMembers pfx indent (d + 1) (m :: ms)
                ++ (appendNewline [] pfx indent d ++ 0x7D :: rest))) := by
        rw [heq]; simp
      have hrec := ih (by simp) (d + 1) f rest d (by omega)
      rw [ht] at hrec
      simp only [List.cons_append, List.append_assoc] at hrec
      rw [e1]
      simp only [decoded]
      exact decodeValue_obj f _ (t ++ (appendNewline [] pfx indent d ++ 0x7D :: rest)) rest 0x22 _
        (by
          rw [skipSpace_append _ _ (hnl (d + 1)), ht]
          rfl) (by decide) hrec
  · -- no element
    intro h
    exact absurd rfl h
  · -- elements
    intro x xs ihx ihxs _ d fuel rest d' h
    obtain ⟨f, rfl⟩ : ∃ f, fuel = f + 1 := ⟨fuel - 1, by omega⟩
    cases xs with
    | nil =>
      simp only [indentElems, decodedElems] at h ⊢
      refine decodeElems_last f _ _ rest _ (ihx d f _ (by omega)) ?_
      rw [skipSpace_append _ _ (hnl d')]
      rfl
    | cons y ys =>
      obtain ⟨t, ht⟩ := indentElems_cons pfx indent d y ys
      have heq := indentElems_more_eq pfx indent d x y ys
      have hlen := congrArg List.length heq
      simp only [List.length_cons, List.length_append, List.length_nil] at hlen
      have e1 : indentElems pfx indent d (x :: y :: ys)
            ++ (appendNewline [] pfx indent d' ++ 0x5D :: rest)
          = indentValue pfx indent d x ++ (0x2C :: (appendNewline [] pfx indent d
              ++ (indentElems pfx indent d (y :: ys)
                ++ (appendNewline [] pfx indent d' ++ 0x5D :: rest)))) := by
        rw [heq]; simp
      have h1 := ihx d f (0x2C :: (appendNewline [] pfx indent d
              ++ (indentElems pfx indent d (y :: ys)
                ++ (appendNewline [] pfx indent d' ++ 0x5D :: rest)))) (by omega)
      have h2 := ihxs (by simp) d f rest d' (by omega)
      rw [e1]
      simp only [decodedElems]
      refine decodeElems_more f _ _ _ rest _ _ h1 rfl ?_
      rw [skipSpace_append _ _ (hnl d), ht, List.append_assoc, skipSpace_indentValue,
        ← List.append_assoc, ← ht]
      exact h2
  · -- no member
    intro h
    exact absurd rfl h
  · -- members
    intro m ms ihm ihms _ d fuel rest d' h
    obtain ⟨k, v⟩ := m
    have hk := Passes_appendStringLoop k.length k
    obtain ⟨f, rfl⟩ : ∃ f, fuel = f + 1 := ⟨fuel - 1, by omega⟩
    cases ms with
    | nil =>
      have heq := indentMembers_one_eq pfx indent d k v
      have hlen := congrArg List.length heq
      simp only [List.length_cons, List.length_append, List.length_nil] at hlen
      have e1 : indentMembers pfx indent d [(k, v)]
            ++ (appendNewline [] pfx indent d' ++ 0x7D :: rest)
          = 0x22 :: (appendStringLoop k.length [] k ++ 0x22 :: 0x3A :: 0x20 ::
              (indentValue pfx indent d v ++ (appendNewline [] pfx indent d' ++ 0x7D :: rest))) := by
        rw [heq]; simp
      rw [e1]
      simp only [decodedMembers, decodedMember]
      refine decodeMembers_last f _ _ (appendNewline [] pfx indent d' ++ 0x7D :: rest) rest _ hk
        ?_ ?_
      · rw [skipSpace_indentValue]
        exact ihm d f _ (by simp only at hlen ⊢; omega)
      · rw [skipSpace_append _ _ (hnl d')]
        rfl
    | cons m' ms =>
      obtain ⟨t, ht⟩ := indentMembers_cons pfx indent d m' ms
      have heq := indentMembers_more_eq pfx indent d k v m' ms
      have hlen := congrArg List.length heq
      simp only [List.length_cons, List.length_append, List.length_nil] at hlen
      have e1 : indentMembers pfx indent d ((k, v) :: m' :: ms)
            ++ (appendNewline [] pfx indent d' ++ 0x7D :: rest)
          = 0x22 :: (appendStringLoop k.length [] k ++ 0x22 :: 0x3A :: 0x20 ::
              (indentValue pfx indent d v ++ (0x2C :: (appendNewline [] pfx indent d
                ++ (indentMembers pfx indent d (m' :: ms)
                  ++ (appendNewline [] pfx indent d' ++ 0x7D :: rest)))))) := by
        rw [heq]; simp
      have h1 := ihm d f (0x2C :: (appendNewline [] pfx indent d
                ++ (indentMembers pfx indent d (m' :: ms)
                  ++ (appendNewline [] pfx indent d' ++ 0x7D :: rest)))) (by simp only at hlen ⊢; omega)
      have h2 := ihms (by simp) d f rest d' (by omega)
      rw [e1]
      simp only [decodedMembers, decodedMember]
      refine decodeMembers_more f _ _
        (0x2C :: (appendNewline [] pfx indent d
          ++ (indentMembers pfx indent d (m' :: ms)
            ++ (appendNewline [] pfx indent d' ++ 0x7D :: rest))))
        (appendNewline [] pfx indent d
          ++ (indentMembers pfx indent d (m' :: ms)
            ++ (appendNewline [] pfx indent d' ++ 0x7D :: rest)))
        rest _ _ hk
        (by rw [skipSpace_indentValue]; exact h1) rfl ?_
      rw [skipSpace_append _ _ (hnl d), ht]
      rw [ht] at h2
      exact h2
  · -- one member
    intro k v ih
    exact ih

theorem Unmarshal_indentValue (pfx indent : GoString) (hp : ∀ b ∈ pfx, isSpace b = true)
    (hi : ∀ b ∈ indent, isSpace b = true) (v : Value) :
    Unmarshal (pfx ++ indentValue pfx indent 0 v) = some (decoded v) := by
  have hs : skipSpace (pfx ++ indentValue pfx indent 0 v) = indentValue pfx indent 0 v ++ [] := by
    rw [skipSpace_append _ _ hp, List.append_nil]
    have := skipSpace_indentValue pfx indent 0 v []
    rwa [List.append_nil] at this
  have hd := decode_indent pfx indent hp hi v 0
    ((pfx ++ indentValue pfx indent 0 v).length + 1) [] (by simp; omega)
  simp only [Unmarshal, hs, hd]
  rfl

theorem decodedMembers_eq_map (ms : List (GoString × Value)) :
    decodedMembers ms = ms.map decodedMember := by
  induction ms with
  | nil => simp [decodedMembers]
  | cons m ms ih => simp [decodedMembers, ih]

theorem decodedElems_eq_map (xs : List Value) : decodedElems xs = xs.map decoded := by
  induction xs with
  | nil => simp [decodedElems]
  | cons m ms ih => simp [decodedElems, ih]

/-- The names of the fields are read back as they are. -/
theorem field_names :
    ∀ n ∈ [lit "GoVersion", lit "Path", lit "Main", lit "Deps", lit "Settings", lit "Version",
      lit "Sum", lit "Replace", lit "Key", lit "Value"],
      unquoteBytes (appendStringLoop n.length [] n) = n := by
  decide!

theorem decodedMembers_append (a b : List (GoString × Value)) :
    decodedMembers (a ++ b) = decodedMembers a ++ decodedMembers b := by
  simp [decodedMembers_eq_map]

theorem presentKeys_append (om : Bool) (a b : List (GoString × Bool)) :
    presentKeys om (a ++ b) = presentKeys om a ++ presentKeys om b := by
  simp [presentKeys]

theorem presentKeys_four (om : Bool) (a b c d : GoString × Bool) :
    presentKeys om [a, b, c, d]
      = presentKeys om [a] ++ (presentKeys om [b] ++ (presentKeys om [c] ++ presentKeys om [d])) := by
  rw [← presentKeys_append, ← presentKeys_append, ← presentKeys_append]
  rfl

theorem presentKeys_five (om : Bool) (a b c d e : GoString × Bool) :
    presentKeys om [a, b, c, d, e]
      = presentKeys om [a] ++ (presentKeys om [b] ++ (presentKeys om [c]
          ++ (presentKeys om [d] ++ presentKeys om [e]))) := by
  rw [← presentKeys_append, ← presentKeys_append, ← presentKeys_append, ← presentKeys_append]
  rfl

theorem isEmpty_map {α β : Type} (f : α → β) (l : List α) : (l.map f).isEmpty = l.isEmpty := by
  cases l <;> rfl

theorem presentKeys_false (fields : List (GoString × Bool)) :
    presentKeys false fields = fields.map Prod.fst := by
  simp [presentKeys]

theorem stringField_decoded (om : Bool) (n s : GoString)
    (hn : unquoteBytes (appendStringLoop n.length [] n) = n) :
    decodedMembers (stringField om n s)
      = if om = true ∧ s.length = 0 then []
        else [(n, .str (unquoteBytes (appendStringLoop s.length [] s)))] := by
  simp only [stringField]
  split <;> simp [decodedMembers, decodedMember, decoded, hn]

theorem sliceField_decoded (om : Bool) (n : GoString) (xs : List Value)
    (hn : unquoteBytes (appendStringLoop n.length [] n) = n) :
    decodedMembers (sliceField om n xs)
      = if xs.length = 0 then (if om = true then [] else [(n, .null)])
        else [(n, .arr (xs.map decoded))] := by
  simp only [sliceField]
  split
  · split <;> simp [decodedMembers, decodedMember, decoded, hn]
  · simp [decodedMembers, decodedMember, decoded, hn, decodedElems_eq_map]

theorem keys_stringField (om : Bool) (n s : GoString)
    (hn : unquoteBytes (appendStringLoop n.length [] n) = n) :
    (decodedMembers (stringField om n s)).map Prod.fst = presentKeys om [(n, s.isEmpty)] := by
  rw [stringField_decoded om n s hn]
  cases s <;> cases om <;> simp [presentKeys]

theorem keys_sliceField (om : Bool) (n : GoString) (xs : List Value)
    (hn : unquoteBytes (appendStringLoop n.length [] n) = n) :
    (decodedMembers (sliceField om n xs)).map Prod.fst = presentKeys om [(n, xs.isEmpty)] := by
  rw [sliceField_decoded om n xs hn]
  cases xs <;> cases om <;> simp [presentKeys]

theorem mem_stringField (om : Bool) (n s k : GoString) (t : Any)
    (hn : unquoteBytes (appendStringLoop n.length [] n) = n)
    (h : (k, t) ∈ decodedMembers (stringField om n s)) : k = n := by
  rw [stringField_decoded om n s hn] at h
  split at h
  · simp at h
  · simp only [List.mem_singleton, Prod.mk.injEq] at h
    exact h.1

theorem mem_sliceField (om : Bool) (n k : GoString) (xs : List Value) (t : Any)
    (hn : unquoteBytes (appendStringLoop n.length [] n) = n)
    (h : (k, t) ∈ decodedMembers (sliceField om n xs)) :
    k = n ∧ ((t = .null ∧ xs = []) ∨ t = .arr (xs.map decoded)) := by
  rw [sliceField_decoded om n xs hn] at h
  split at h
  · rename_i hx
    have hx : xs = [] := List.length_eq_zero.mp hx
    split at h
    · simp at h
    · simp only [List.mem_singleton, Prod.mk.injEq] at h
      exact ⟨h.1, Or.inl ⟨h.2, hx⟩⟩
  · simp only [List.mem_singleton, Prod.mk.injEq] at h
    exact ⟨h.1, Or.inr h.2⟩

theorem IsModuleOf_ofModule (om : Bool) : ∀ m : Module, IsModuleOf om m (decoded (ofModule om m))
  | .mk p v s none => by
    have n1 := field_names (lit "Path") (by simp)
    have n2 := field_names (lit "Version") (by simp)
    have n3 := field_names (lit "Sum") (by simp)
    have n4 := field_names (lit "Replace") (by simp)
    simp only [ofModule, decoded, IsModuleOf]
    refine ⟨_, rfl, ?_, ?_⟩
    · simp only [decodedMembers_append, List.map_append, keys_stringField om _ _ n1,
        keys_stringField om _ _ n2, keys_stringField om _ _ n3, presentKeys_four,
        List.append_assoc]
      congr 3
      cases om <;> simp [presentKeys, decodedMembers, decodedMember, n4]
    · intro t ht
      simp only [decodedMembers_append, List.mem_append] at ht
      rcases ht with ((ht | ht) | ht) | ht
      · exact absurd (mem_stringField om _ p _ t n1 ht) (by decide)
      · exact absurd (mem_stringField om _ v _ t n2 ht) (by decide)
      · exact absurd (mem_stringField om _ s _ t n3 ht) (by decide)
      · cases om
        · simp only [Bool.false_eq_true, if_false, decodedMembers, decodedMember, decoded,
            List.mem_singleton, Prod.mk.injEq] at ht
          exact ht.2
        · simp [decodedMembers] at ht
  | .mk p v s (some r) => by
    have n1 := field_names (lit "Path") (by simp)
    have n2 := field_names (lit "Version") (by simp)
    have n3 := field_names (lit "Sum") (by simp)
    have n4 := field_names (lit "Replace") (by simp)
    simp only [ofModule, decoded, IsModuleOf]
    refine ⟨_, rfl, ?_, decoded (ofModule om r), ?_, IsModuleOf_ofModule om r⟩
    · simp only [decodedMembers_append, List.map_append, keys_stringField om _ _ n1,
        keys_stringField om _ _ n2, keys_stringField om _ _ n3, presentKeys_four,
        List.append_assoc]
      congr 3
      cases om <;> simp [presentKeys, decodedMembers, decodedMember, n4]
    · simp only [decodedMembers_append, List.mem_append]
      refine Or.inr ?_
      simp [decodedMembers, decodedMember, n4]

theorem IsSettingOf_ofBuildSetting (om : Bool) (s : BuildSetting) :
    IsSettingOf om s (decoded (ofBuildSetting om s)) := by
  have n1 := field_names (lit "Key") (by simp)
  have n2 := field_names (lit "Value") (by simp)
  simp only [ofBuildSetting, decoded]
  refine ⟨_, rfl, ?_⟩
  simp only [decodedMembers_append, List.map_append, keys_stringField om _ _ n1,
    keys_stringField om _ _ n2, ← presentKeys_append]
  rfl

/-- The keys of the tree that the decoder returns for the encoding of a
record. -/
theorem ofBuildInfo_keys (om : Bool) (bi : BuildInfo) :
    ∃ ms, decoded (ofBuildInfo om bi) = .obj ms
      ∧ ms.map Prod.fst = presentKeys om [(lit "GoVersion", bi.GoVersion.isEmpty),
          (lit "Path", bi.Path.isEmpty), (lit "Main", false), (lit "Deps", bi.Deps.isEmpty),
          (lit "Settings", bi.Settings.isEmpty)]
      ∧ (∃ t, (lit "Main", t) ∈ ms ∧ IsModuleOf om bi.Main t)
      ∧ (∀ t, (lit "Deps", t) ∈ ms → (t = .null ∧ bi.Deps = [])
          ∨ ∃ xs, t = .arr xs ∧ List.Forall₂ (IsModuleOf om) bi.Deps xs)
      ∧ (∀ t, (lit "Settings", t) ∈ ms → (t = .null ∧ bi.Settings = [])
          ∨ ∃ xs, t = .arr xs ∧ List.Forall₂ (IsSettingOf om) bi.Settings xs) := by
  have n1 := field_names (lit "GoVersion") (by simp)
  have n2 := field_names (lit "Path") (by simp)
  have n3 := field_names (lit "Main") (by simp)
  have n4 := field_names (lit "Deps") (by simp)
  have n5 := field_names (lit "Settings") (by simp)
  have hmain : decodedMembers [(lit "Main", ofModule om bi.Main)]
      = [(lit "Main", decoded (ofModule om bi.Main))] := by
    simp [decodedMembers, decodedMember, n3]
  refine ⟨decodedMembers (stringField om (lit "GoVersion") bi.GoVersion
      ++ stringField om (lit "Path") bi.Path
      ++ [(lit "Main", ofModule om bi.Main)]
      ++ sliceField om (lit "Deps") (bi.Deps.map (ofModule om))
      ++ sliceField om (lit "Settings") (bi.Settings.map (ofBuildSetting om))),
    by simp only [ofBuildInfo, decoded], ?_, ?_, ?_, ?_⟩
  · simp only [decodedMembers_append, List.map_append, keys_stringField om _ _ n1,
      keys_stringField om _ _ n2, keys_sliceField om _ _ n4, keys_sliceField om _ _ n5, hmain,
      presentKeys_five, List.append_assoc, isEmpty_map]
    congr 2
    cases om <;> simp [presentKeys]
  · refine ⟨decoded (ofModule om bi.Main), ?_, IsModuleOf_ofModule om bi.Main⟩
    simp only [decodedMembers_append, List.mem_append, hmain, List.mem_singleton]
    exact Or.inl (Or.inl (Or.inr trivial))
  · intro t ht
    simp only [decodedMembers_append, List.mem_append, hmain, List.mem_singleton,
      Prod.mk.injEq] at ht
    rcases ht with (((ht | ht) | ht) | ht) | ht
    · exact absurd (mem_stringField om _ _ _ t n1 ht) (by decide)
    · exact absurd (mem_stringField om _ _ _ t n2 ht) (by decide)
    · exact absurd ht.1 (by decide)
    · rcases (mem_sliceField om _ _ _ t n4 ht).2 with h | h
      · exact Or.inl ⟨h.1, by simpa using h.2⟩
      · refine Or.inr ⟨_, h, ?_⟩
        rw [List.map_map, List.forall₂_map_right_iff]
        exact List.forall₂_same.mpr (fun m _ => IsModuleOf_ofModule om m)
    · exact absurd (mem_sliceField om _ _ _ t n5 ht).1 (by decide)
  · intro t ht
    simp only [decodedMembers_append, List.mem_append, hmain, List.mem_singleton,
      Prod.mk.injEq] at ht
    rcases ht with (((ht | ht) | ht) | ht) | ht
    · exact absurd (mem_stringField om _ _ _ t n1 ht) (by decide)
    · exact absurd (mem_stringField om _ _ _ t n2 ht) (by decide)
    · exact absurd ht.1 (by decide)
    · exact absurd (mem_sliceField om _ _ _ t n4 ht).1 (by decide)
    · rcases (mem_sliceField om _ _ _ t n5 ht).2 with h | h
      · exact Or.inl ⟨h.1, by simpa using h.2⟩
      · refine Or.inr ⟨_, h, ?_⟩
        rw [List.map_map, List.forall₂_map_right_iff]
        exact List.forall₂_same.mpr (fun m _ => IsSettingOf_ofBuildSetting om m)

end json

namespace buildinfo

/-- C11, as the code has it. For every record nested no deeper than the limit
of the serializer and every indent of JSON white space, `Unmarshal` reads the
output of `FormatJSON` under the empty prefix as an object with the keys that
the encoder writes for the fields `GoVersion`, `Path`, `Main`, `Deps`,
`Settings`: all five, in this order, when the fields of the structs are
declared without the `omitempty` option; with the option, `Main` and those of
the others whose value is not empty. The value of `Main`, the elements of
`Deps` (one per dependency, in order) and, recursively, the value of `Replace`
of a replaced module are objects with the keys that the encoder writes for
`Path`, `Version`, `Sum`, `Replace`, by the same rule; `Replace` is `null`
where there is no replacement and the key is written. The elements of
`Settings` (one per setting, in order) are objects with the keys written for
`Key` and `Value`. A `Deps` or `Settings` that is not an array is `null`, for a
record without dependencies or settings. -/
theorem FormatJSON_keys (omitempty : Bool) (info : BuildInfo) (indent : GoString)
    (hi : ∀ b ∈ indent, isSpace b = true)
    (hd : depth (ofBuildInfo omitempty info) ≤ maxNestingDepth) :
    (∀ fields, presentKeys false fields = fields.map Prod.fst)
    ∧ ∃ ms, Unmarshal (FormatJSON omitempty info [] indent).1 = some (.obj ms)
      ∧ ms.map Prod.fst = presentKeys omitempty [(lit "GoVersion", info.GoVersion.isEmpty),
          (lit "Path", info.Path.isEmpty), (lit "Main", false), (lit "Deps", info.Deps.isEmpty),
          (lit "Settings", info.Settings.isEmpty)]
      ∧ (omitempty = false → ms.map Prod.fst
          = [lit "GoVersion", lit "Path", lit "Main", lit "Deps", lit "Settings"])
      ∧ (∃ t, (lit "Main", t) ∈ ms ∧ IsModuleOf omitempty info.Main t)
      ∧ (∀ t, (lit "Deps", t) ∈ ms → (t = .null ∧ info.Deps = [])
          ∨ ∃ xs, t = .arr xs ∧ List.Forall₂ (IsModuleOf omitempty) info.Deps xs)
      ∧ (∀ t, (lit "Settings", t) ∈ ms → (t = .null ∧ info.Settings = [])
          ∨ ∃ xs, t = .arr xs ∧ List.Forall₂ (IsSettingOf omitempty) info.Settings xs) := by
  obtain ⟨ms, e, hk, h⟩ := ofBuildInfo_keys omitempty info
  refine ⟨presentKeys_false, ms, ?_, hk, ?_, h⟩
  · rw [FormatJSON_eq omitempty info [] indent hd]
    rw [Unmarshal_indentValue [] indent (by simp) hi, e]
  · intro ho
    rw [hk, ho, presentKeys_false]
    rfl

theorem FormatJSON_keys_witness :
    (∀ b ∈ lit "  ", isSpace b = true)
    ∧ depth (ofBuildInfo false depsBuildInfo) ≤ maxNestingDepth
    ∧ ∃ ms, Unmarshal (FormatJSON false depsBuildInfo [] (lit "  ")).1 = some (.obj ms)
      ∧ ms.map Prod.fst
          = [lit "GoVersion", lit "Path", lit "Main", lit "Deps", lit "Settings"]
      ∧ (∃ t, (lit "Main", t) ∈ ms ∧ IsModuleOf false depsBuildInfo.Main t)
      ∧ (∀ t, (lit "Deps", t) ∈ ms → (t = .null ∧ depsBuildInfo.Deps = [])
          ∨ ∃ xs, t = .arr xs ∧ List.Forall₂ (IsModuleOf false) depsBuildInfo.Deps xs) :=
  ⟨by decide!, by decide!,
    match (FormatJSON_keys false depsBuildInfo (lit "  ") (by decide!) (by decide!)).2 with
    | ⟨ms, h1, _, h3, h4, h5, _⟩ => ⟨ms, h1, h3 rfl, h4, h5⟩⟩

/-- C11 as stated fails with the struct tags of the recent releases of the
library (`omitempty` on every field but `Main`): the output for the zero
record is read as an object with the one key `Main`, whose value is an object
without keys; the output for the record of the test "Basic JSON output" is
read as an object with the keys `GoVersion`, `Path`, `Main` only, and its
main module has no key `Replace`. (Without the tags the zero record has all
five keys.) -/
theorem FormatJSON_keys_counterexample :
    (FormatJSON true zeroBuildInfo [] (lit "  ")).1 = lit "\x7b\n  \"Main\": \x7b\x7d\n\x7d"
    ∧ (Unmarshal (FormatJSON true zeroBuildInfo [] (lit "  ")).1).map Any.keys
        = some [lit "Main"]
    ∧ ((Unmarshal (FormatJSON true zeroBuildInfo [] (lit "  ")).1).bind
        (Any.get (lit "Main"))).map Any.keys = some []
    ∧ (Unmarshal (FormatJSON true basicBuildInfo [] (lit "  ")).1).map Any.keys
        = some [lit "GoVersion", lit "Path", lit "Main"]
    ∧ ((Unmarshal (FormatJSON true basicBuildInfo [] (lit "  ")).1).bind
        (Any.get (lit "Main"))).map Any.keys = some [lit "Path", lit "Version", lit "Sum"]
    ∧ (Unmarshal (FormatJSON false zeroBuildInfo [] (lit "  ")).1).map Any.keys
        = some [lit "GoVersion", lit "Path", lit "Main", lit "Deps", lit "Settings"] := by
  decide!

end buildinfo

/-! ## The error of the JSON report -/

namespace json

theorem depthMembers_append (a b : List (GoString × Value)) :
    depthMembers (a ++ b) = max (depthMembers a) (depthMembers b) := by
  induction a with
  | nil => simp [depthMembers]
  | cons m a ih => simp [depthMembers, ih, Nat.max_assoc]

theorem depthMembers_stringField (om : Bool) (n s : GoString) :
    depthMembers (stringField om n s) = 0 := by
  simp only [stringField]
  split <;> simp [depthMembers, depthMember, depth]

theorem depth_ofModule (om : Bool) : ∀ m : Module, depth (ofModule om m) = m.chain.length
  | .mk p v s none => by
    simp only [ofModule, depth, depthMembers_append, depthMembers_stringField, Module.chain]
    cases om <;> simp [depthMembers, depthMember, depth]
  | .mk p v s (some r) => by
    simp only [ofModule, depth, depthMembers_append, depthMembers_stringField, Module.chain,
      depthMembers, depthMember, depth_ofModule om r]
    simp

theorem depthElems_le (xs : List Value) (n : Nat) :
    depthElems xs ≤ n ↔ ∀ x ∈ xs, depth x ≤ n := by
  induction xs with
  | nil => simp [depthElems]
  | cons x xs ih => simp [depthElems, ih]

theorem depth_ofBuildSetting (om : Bool) (s : BuildSetting) : depth (ofBuildSetting om s) = 1 := by
  simp [ofBuildSetting, depth, depthMembers_append, depthMembers_stringField]

theorem depthMembers_sliceField (om : Bool) (n : GoString) (xs : List Value) :
    depthMembers (sliceField om n xs) = if xs.length = 0 then 0 else depthElems xs + 1 := by
  simp only [sliceField]
  split
  · split <;> simp [depthMembers, depthMember, depth]
  · simp [depthMembers, depthMember, depth]

/-- The encoding of a record is nested within `n + 3` levels exactly when the
chain of replacements of the main module has at most `n + 2` modules and that
of every dependency at most `n + 1`. -/
theorem depth_ofBuildInfo_le (om : Bool) (bi : BuildInfo) (n : Nat) :
    depth (ofBuildInfo om bi) ≤ n + 3
      ↔ bi.Main.chain.length ≤ n + 2 ∧ ∀ d ∈ bi.Deps, d.chain.length ≤ n + 1 := by
  have hs : depthMembers (sliceField om (lit "Settings") (bi.Settings.map (ofBuildSetting om)))
      ≤ n + 2 := by
    rw [depthMembers_sliceField]
    split
    · omega
    · have : depthElems (bi.Settings.map (ofBuildSetting om)) ≤ 1 := by
        rw [depthElems_le]
        intro x hx
        simp only [List.mem_map] at hx
        obtain ⟨s, -, rfl⟩ := hx
        rw [depth_ofBuildSetting]
      omega
  have hdeps : depthMembers (sliceField om (lit "Deps") (bi.Deps.map (ofModule om))) ≤ n + 2
      ↔ ∀ d ∈ bi.Deps, d.chain.length ≤ n + 1 := by
    rw [depthMembers_sliceField]
    split
    · rename_i h
      have : bi.Deps = [] := by simpa using h
      simp [this]
    · rw [Nat.add_le_add_iff_right, depthElems_le]
      simp only [List.mem_map, forall_exists_index, and_imp, forall_apply_eq_imp_iff₂,
        depth_ofModule]
  have hm : depthMembers [(lit "Main", ofModule om bi.Main)] = bi.Main.chain.length := by
    simp [depthMembers, depthMember, depth_ofModule]
  simp only [ofBuildInfo, depth, depthMembers_append, depthMembers_stringField, hm]
  rw [Nat.add_le_add_iff_right (n := 1) (m := _) (k := n + 2)]
  simp only [Nat.max_le, Nat.zero_le, true_and, hdeps, hs, and_true]

end json

namespace buildinfo

theorem chain_deepModule : ∀ n, (deepModule n).chain.length = n + 1
  | 0 => rfl
  | n + 1 => by
    simp only [deepModule, Module.chain, List.length_cons, chain_deepModule n]

/-- `FormatJSON` fails exactly when the encoding of the record is nested deeper
than the scanner allows. -/
theorem FormatJSON_none_iff (omitempty : Bool) (info : BuildInfo) (pfx indent : GoString) :
    (FormatJSON omitempty info pfx indent).2 = none
      ↔ info.Main.chain.length ≤ 9999 ∧ ∀ d ∈ info.Deps, d.chain.length ≤ 9998 := by
  rw [← depth_ofBuildInfo_le omitempty info 9997]
  by_cases h : depth (ofBuildInfo omitempty info) > maxNestingDepth
  · simp only [FormatJSON, MarshalIndent, h, if_true]
    simp only [maxNestingDepth] at h
    simp only [reduceCtorEq, false_iff]
    omega
  · simp only [FormatJSON, MarshalIndent, h, if_false]
    simp only [maxNestingDepth] at h
    simp only [true_iff]
    omega

theorem FormatJSON_deep (omitempty : Bool) (pfx indent : GoString) :
    FormatJSON omitempty deepBuildInfo pfx indent
      = ([], some (lit "cannot convert build info to JSON: "
          ++ lit "invalid character \x27\x7b\x27 exceeded max depth")) := by
  have h : depth (ofBuildInfo omitempty deepBuildInfo) > maxNestingDepth := by
    have := (depth_ofBuildInfo_le omitempty deepBuildInfo 9997).not
    simp only [maxNestingDepth, gt_iff_lt, ← Nat.not_le]
    rw [this]
    intro hc
    have e : deepBuildInfo.Main.chain.length = 10000 := chain_deepModule 9999
    omega
  simp only [FormatJSON, MarshalIndent, h, if_true]

/-- C12, as the code has it. `FormatJSON` returns an error exactly when
`json.MarshalIndent` does; the error wraps the cause and comes with the empty
string. For a record of strings, sequences and finite chains this happens
exactly when the main module has a chain of replacements of more than 9999
modules, or a dependency one of more than 9998 (the encoding is then nested
deeper than the scanner of the layout allows); the zero record gives no
error. -/
theorem FormatJSON_error (omitempty : Bool) (info : BuildInfo) (pfx indent : GoString) :
    ((FormatJSON omitempty info pfx indent).2 ≠ none
      ↔ ∃ e, MarshalIndent omitempty info pfx indent = .error e)
    ∧ (∀ e, MarshalIndent omitempty info pfx indent = .error e →
        FormatJSON omitempty info pfx indent
          = ([], some (lit "cannot convert build info to JSON: " ++ e)))
    ∧ ((FormatJSON omitempty info pfx indent).2 ≠ none →
        (FormatJSON omitempty info pfx indent).1 = [])
    ∧ ((FormatJSON omitempty info pfx indent).2 = none
        ↔ info.Main.chain.length ≤ 9999 ∧ ∀ d ∈ info.Deps, d.chain.length ≤ 9998)
    ∧ (FormatJSON omitempty zeroBuildInfo pfx indent).2 = none := by
  refine ⟨?_, ?_, ?_, FormatJSON_none_iff omitempty info pfx indent, ?_⟩
  · simp only [FormatJSON]
    cases MarshalIndent omitempty info pfx indent <;> simp
  · intro e he
    simp only [FormatJSON, he]
  · simp only [FormatJSON]
    cases MarshalIndent omitempty info pfx indent <;> simp
  · rw [FormatJSON_none_iff]
    exact ⟨by decide, by simp [zeroBuildInfo]⟩

theorem FormatJSON_error_witness :
    (FormatJSON false depsBuildInfo (lit "") (lit "  ")).2 = none :=
  ((FormatJSON_error false depsBuildInfo (lit "") (lit "  ")).2.2.2.1).mpr
    ⟨by decide, by decide⟩

/-- C12 as stated fails: for the zero record with a main module replaced 9999
times over (a chain of 10000 modules, all fields plain strings) `FormatJSON`
returns the empty string and an error, with or without the `omitempty`
tags. -/
theorem FormatJSON_error_counterexample :
    deepBuildInfo.GoVersion = [] ∧ deepBuildInfo.Path = [] ∧ deepBuildInfo.Deps = []
    ∧ deepBuildInfo.Settings = [] ∧ deepBuildInfo.Main.chain.length = 10000
    ∧ FormatJSON false deepBuildInfo (lit "") (lit "  ")
        = ([], some (lit "cannot convert build info to JSON: "
            ++ lit "invalid character \x27\x7b\x27 exceeded max depth"))
    ∧ FormatJSON true deepBuildInfo (lit "") (lit "  ")
        = ([], some (lit "cannot convert build info to JSON: "
            ++ lit "invalid character \x27\x7b\x27 exceeded max depth")) :=
  ⟨rfl, rfl, rfl, rfl, chain_deepModule 9999, FormatJSON_deep false _ _, FormatJSON_deep true _ _⟩

end buildinfo

/-! ## `strconv.Quote` writes no control character -/

namespace utf8

theorem decode_ascii (c : Byte) (t : GoString) (h : c.val < 0x80) :
    DecodeRuneInString (c :: t) = (c.val, 1) := by
  have hf := first_ascii c h
  simp [DecodeRuneInString, hf, as, xx]

theorem NoControl_ascii (ch rest : GoString) (h : ∀ c ∈ ch, 0x20 ≤ c.val ∧ c.val < 0x7F)
    (hr : NoControl rest) : NoControl (ch ++ rest) := by
  induction ch with
  | nil => exact hr
  | cons c ch ih =>
    have ih := ih (fun x hx => h x (by simp [hx]))
    have hc := h c (by simp)
    intro fuel r hm
    cases fuel with
    | zero => simp [runesLoop] at hm
    | succ f =>
      simp only [List.cons_append, runesLoop, decode_ascii c _ (by omega), List.drop_one,
        List.tail_cons, List.mem_cons] at hm
      rcases hm with rfl | hm
      · simp [unicode.IsControl]; omega
      · exact ih f r hm

theorem NoControl_rune (s0 : Byte) (e rest : GoString) (r : Nat)
    (hdec : ∀ v, DecodeRuneInString (s0 :: e ++ v) = (r, e.length + 1))
    (hc : unicode.IsControl r = false) (hr : NoControl rest) : NoControl (s0 :: e ++ rest) := by
  intro fuel x hm
  cases fuel with
  | zero => simp [runesLoop] at hm
  | succ f =>
    have hd := hdec rest
    rw [List.cons_append] at hd hm
    simp only [runesLoop, hd, List.mem_cons] at hm
    rcases hm with rfl | hm
    · exact hc
    · have e2 : List.drop (e.length + 1) (s0 :: (e ++ rest)) = rest := by simp
      rw [e2] at hm
      exact hr f x hm

end utf8

namespace strconv

open utf8

theorem plain_ascii_chunk_all : ∀ b : Byte, b.val < 0x80 →
    (appendEscapedRune (fun _ => false) [] b.val).all
      (fun c => decide (0x20 ≤ c.val) && decide (c.val < 0x7F)) = true := by
  decide!

theorem plain_ascii_chunk (b : Byte) (h : b.val < 0x80) :
    ∀ c ∈ appendEscapedRune (fun _ => false) [] b.val, 0x20 ≤ c.val ∧ c.val < 0x7F := by
  intro c hc
  have := List.all_eq_true.mp (plain_ascii_chunk_all b h) c hc
  simpa using this

theorem plain_hexDigit : ∀ k : Fin 16, 0x20 ≤ (hexDigit k.val).val ∧ (hexDigit k.val).val < 0x7F := by
  decide!

theorem IsPrint_not_control (tbl : Nat → Bool) (r : Nat) (h : IsPrint tbl r = true) :
    unicode.IsControl r = false := by
  simp only [IsPrint] at h
  simp only [unicode.IsControl, decide_eq_false_iff_not]
  split_ifs at h <;> omega

/-- One iteration of the quoting loop emits a chunk without control
characters: its bytes are none, and reading runes over it yields none. -/
theorem quote_step_plain (tbl : Nat → Bool) (s0 : Byte) (t : GoString) :
    ∃ ch post : GoString,
      (∀ n, quoteLoop tbl (n + 1) [] (s0 :: t) = ch ++ quoteLoop tbl n [] post)
      ∧ (∀ c ∈ ch, 0x20 ≤ c.val ∧ c.val ≠ 0x7F)
      ∧ ∀ rest, NoControl rest → NoControl (ch ++ rest) := by
  have ascii : ∀ ch : GoString, (∀ c ∈ ch, 0x20 ≤ c.val ∧ c.val < 0x7F) →
      (∀ c ∈ ch, 0x20 ≤ c.val ∧ c.val ≠ 0x7F)
      ∧ ∀ rest, NoControl rest → NoControl (ch ++ rest) :=
    fun ch h => ⟨fun c hc => ⟨(h c hc).1, by have := (h c hc).2; omega⟩,
      fun rest hr => NoControl_ascii ch rest h hr⟩
  by_cases h : s0.val < 0x80
  · have hs : ¬ (s0.val ≥ RuneSelf) := by simp only [RuneSelf]; omega
    have he : ¬ (s0.val = RuneError) := by simp only [RuneError]; omega
    refine ⟨appendEscapedRune tbl [] s0.val, t, ?_, ?_⟩
    · intro n
      simp only [quoteLoop, hs, if_false, he, and_false, List.drop_one, List.tail_cons]
      rw [quoteLoop_buf]
    · rw [appendEscapedRune_latin1 tbl _ (by omega)]
      exact ascii _ (plain_ascii_chunk s0 h)
  · have hs : s0.val ≥ RuneSelf := by simp only [RuneSelf]; omega
    have hx1 := plain_hexDigit ⟨s0.val >>> 4, by rw [shr_eq_div]; omega⟩
    have hx2 := plain_hexDigit ⟨s0.val &&& 0xF, by rw [and_0x0F]; omega⟩
    rcases decodes s0 t (by omega) with hd | ⟨r, e, u, rfl, he, hr, hv, henc, hdec, hbytes⟩
    · refine ⟨[0x5C, 0x78, hexDigit (s0.val >>> 4), hexDigit (s0.val &&& 0xF)], t, ?_, ?_⟩
      · intro n
        simp only [quoteLoop, hs, if_true, hd, and_self, List.drop_one, List.tail_cons,
          lit_escapes.1, List.nil_append]
        rw [quoteLoop_buf]
        simp
      · refine ascii _ ?_
        intro c hc
        simp only [List.mem_cons, List.mem_singleton, List.not_mem_nil, or_false] at hc
        rcases hc with rfl | rfl | rfl | rfl
        · decide
        · decide
        · exact hx1
        · exact hx2
    · have hw : ¬ (e.length + 1 = 1 ∧ r = RuneError) := by omega
      refine ⟨appendEscapedRune tbl [] r, u, ?_, ?_⟩
      · intro n
        have hd := hdec u
        rw [List.cons_append] at hd
        simp only [quoteLoop, hs, if_true, hd, hw, if_false]
        rw [quoteLoop_buf]
        simp
      · have hmax := ValidRune_le r hv
        have c1 : ¬ (r = 0x22 ∨ r = 0x5C) := by omega
        have c2 : ¬ (r < 0x20 ∨ r = 0x7F) := by omega
        simp only [appendEscapedRune, c1, c2, if_false, hv, Bool.not_true, Bool.false_eq_true,
          show ¬ r = 0x07 by omega, show ¬ r = 0x08 by omega, show ¬ r = 0x0C by omega,
          show ¬ r = 0x0A by omega, show ¬ r = 0x0D by omega, show ¬ r = 0x09 by omega,
          show ¬ r = 0x0B by omega, lit_escapes.2.1, lit_escapes.2.2, List.nil_append]
        have hh : ∀ k, 0x20 ≤ (hexDigit (r >>> k &&& 0xF)).val
            ∧ (hexDigit (r >>> k &&& 0xF)).val < 0x7F :=
          fun k => plain_hexDigit ⟨r >>> k &&& 0xF, nibble_lt r k⟩
        cases hp : IsPrint tbl r
        · simp only [Bool.false_eq_true, if_false]
          by_cases hu : r < 0x10000
          · simp only [hu, if_true, List.cons_append, List.nil_append]
            refine ascii _ ?_
            intro c hc
            simp only [List.mem_cons, List.mem_singleton, List.not_mem_nil, or_false] at hc
            rcases hc with rfl | rfl | rfl | rfl | rfl | rfl
            · decide
            · decide
            · exact hh 12
            · exact hh 8
            · exact hh 4
            · exact hh 0
          · simp only [hu, if_false, List.cons_append, List.nil_append]
            refine ascii _ ?_
            intro c hc
            simp only [List.mem_cons, List.mem_singleton, List.not_mem_nil, or_false] at hc
            rcases hc with rfl | rfl | rfl | rfl | rfl | rfl | rfl | rfl | rfl | rfl
            · decide
            · decide
            · exact hh 28
            · exact hh 24
            · exact hh 20
            · exact hh 16
            · exact hh 12
            · exact hh 8
            · exact hh 4
            · exact hh 0
        · simp only [if_true, henc, List.nil_append]
          refine ⟨?_, fun rest hrest =>
            NoControl_rune s0 e rest r hdec (IsPrint_not_control tbl r hp) hrest⟩
          intro c hc
          simp only [List.mem_cons] at hc
          rcases hc with rfl | hc
          · omega
          · have := hbytes c hc
            omega

theorem quoteLoop_plain (tbl : Nat → Bool) : ∀ (n : Nat) (s : GoString),
    (∀ c ∈ quoteLoop tbl n [] s, 0x20 ≤ c.val ∧ c.val ≠ 0x7F)
    ∧ ∀ rest, NoControl rest → NoControl (quoteLoop tbl n [] s ++ rest) := by
  intro n
  induction n with
  | zero => intro s; exact ⟨fun c hc => by simp [quoteLoop] at hc, fun rest h => by simpa [quoteLoop] using h⟩
  | succ n ih =>
    intro s
    cases s with
    | nil => exact ⟨fun c hc => by simp [quoteLoop] at hc, fun rest h => by simpa [quoteLoop] using h⟩
    | cons s0 t =>
      obtain ⟨ch, post, hq, hch, hrun⟩ := quote_step_plain tbl s0 t
      rw [hq]
      refine ⟨fun c hc => ?_, fun rest h => ?_⟩
      · rw [List.mem_append] at hc
        rcases hc with hc | hc
        · exact hch c hc
        · exact (ih post).1 c hc
      · rw [List.append_assoc]
        exact hrun _ ((ih post).2 rest h)

theorem Quote_eq (tbl : Nat → Bool) (s : GoString) :
    Quote tbl s = 0x22 :: (quoteLoop tbl s.length [] s ++ [0x22]) := by
  simp only [Quote]
  rw [quoteLoop_buf]
  simp

theorem Quote_plain (tbl : Nat → Bool) (s : GoString) :
    (∀ c ∈ Quote tbl s, 0x20 ≤ c.val ∧ c.val ≠ 0x7F) ∧ NoControl (Quote tbl s) := by
  rw [Quote_eq]
  have hnil : NoControl [] := fun fuel r hr => by cases fuel <;> simp [runesLoop] at hr
  have hb : ∀ c ∈ [(0x22 : Byte)], 0x20 ≤ c.val ∧ c.val < 0x7F := by decide!
  have hq : NoControl [0x22] := NoControl_ascii [0x22] [] hb hnil
  refine ⟨fun c hc => ?_, ?_⟩
  · simp only [List.mem_cons, List.mem_append, List.mem_singleton, List.not_mem_nil,
      or_false] at hc
    rcases hc with rfl | hc | rfl
    · decide
    · exact (quoteLoop_plain tbl _ _).1 c hc
    · decide
  · exact NoControl_ascii [0x22] _ hb ((quoteLoop_plain tbl _ _).2 _ hq)

end strconv

/-! ## The lines of the text report -/

namespace buildinfo

open debug

theorem formatModule_lines (tbl : Nat → Bool) :
    ∀ (m : Module) (quote : Bool) (pfx indent : GoString),
      formatModule tbl [] m quote pfx indent = unlines (moduleLines tbl m quote pfx indent)
  | .mk p v s none, quote, pfx, indent => by
    simp [formatModule, moduleLines, unlines_cons, unlines_nil]
  | .mk p v s (some r), quote, pfx, indent => by
    rw [formatModule_spec]
    simp only [Module.Path, Module.Version, Module.Sum, Module.Replace, moduleLines]
    rw [formatModule_lines tbl r quote (pfx ++ indent) indent]
    simp [unlines_cons, unlines_nil, unlines_append]

theorem flatten_map_unlines (ls : List (List GoString)) :
    (ls.map unlines).flatten = unlines ls.flatten := by
  induction ls with
  | nil => rfl
  | cons l ls ih => simp [unlines_append, ih]

theorem FormatText_lines (tbl : Nat → Bool) (bi : BuildInfo) (quote : Bool)
    (pfx indent : GoString) :
    FormatText tbl bi quote pfx indent = unlines (textLines tbl bi quote pfx indent) := by
  rw [FormatText_eq, textLines, formatModule_lines]
  have hd : (bi.Deps.map (fun d => formatModule tbl [] d quote pfx indent)).flatten
      = unlines (bi.Deps.map (fun d => moduleLines tbl d quote pfx indent)).flatten := by
    rw [← flatten_map_unlines, List.map_map]
    congr 1
    apply List.map_congr_left
    intro d _
    exact formatModule_lines tbl d quote pfx indent
  rw [hd]
  cases bi.Deps <;> cases bi.Settings <;> simp [unlines_cons, unlines_nil, unlines_append]

theorem textLines_ne_nil (tbl : Nat → Bool) (bi : BuildInfo) (quote : Bool)
    (pfx indent : GoString) : textLines tbl bi quote pfx indent ≠ [] := by
  simp [textLines]

theorem moduleLines_starts (tbl : Nat → Bool) :
    ∀ (m : Module) (quote : Bool) (pfx indent : GoString),
      ∀ l ∈ moduleLines tbl m quote pfx indent, pfx <+: l
  | .mk p v s none, quote, pfx, indent => by
    intro l hl
    simp only [moduleLines, List.append_nil, List.mem_cons, List.mem_singleton,
      List.not_mem_nil, or_false] at hl
    rcases hl with rfl | rfl | rfl <;> simp [List.append_assoc]
  | .mk p v s (some r), quote, pfx, indent => by
    intro l hl
    simp only [moduleLines, List.mem_append, List.mem_cons, List.mem_singleton,
      List.not_mem_nil, or_false] at hl
    rcases hl with (rfl | rfl | rfl) | rfl | hl
    · simp [List.append_assoc]
    · simp [List.append_assoc]
    · simp [List.append_assoc]
    · simp [List.append_assoc]
    · exact (List.prefix_append pfx indent).trans
        (moduleLines_starts tbl r quote (pfx ++ indent) indent l hl)

theorem textLines_starts (tbl : Nat → Bool) (bi : BuildInfo) (quote : Bool)
    (pfx indent : GoString) : ∀ l ∈ textLines tbl bi quote pfx indent, pfx <+: l := by
  intro l hl
  simp only [textLines, List.mem_append, List.mem_cons, List.mem_singleton,
    List.not_mem_nil, or_false] at hl
  rcases hl with (((rfl | rfl | rfl) | hl) | hl) | hl
  · simp [List.append_assoc]
  · simp [List.append_assoc]
  · simp
  · exact moduleLines_starts tbl _ quote pfx indent l hl
  · cases hd : bi.Deps with
    | nil => rw [hd] at hl; simp at hl
    | cons d ds =>
      rw [hd] at hl
      simp only [List.mem_cons, List.mem_flatten, List.mem_map] at hl
      rcases hl with rfl | ⟨ls, ⟨m, -, rfl⟩, hl⟩
      · simp
      · exact moduleLines_starts tbl m quote pfx indent l hl
  · cases hs : bi.Settings with
    | nil => rw [hs] at hl; simp at hl
    | cons d ds =>
      rw [hs] at hl
      simp only [List.mem_cons, List.mem_map] at hl
      rcases hl with rfl | ⟨st, -, rfl⟩
      · simp
      · simp [List.append_assoc]

theorem labels_plain :
    ∀ lab ∈ [lit "Go Version: ", lit "Path: ", lit "Main Module:", lit "Version: ", lit "Sum: ",
      lit "Replace:", lit "Dependencies:", lit "Settings:", lit ": "],
      ∀ c ∈ lab, 0x20 ≤ c.val := by
  decide!

theorem not_mem_label (x : Byte) (hx : x.val < 0x20) (lab : GoString)
    (h : lab ∈ [lit "Go Version: ", lit "Path: ", lit "Main Module:", lit "Version: ",
      lit "Sum: ", lit "Replace:", lit "Dependencies:", lit "Settings:", lit ": "]) :
    x ∉ lab := by
  intro hm
  have := labels_plain lab h x hm
  omega

theorem not_mem_quoteIf (tbl : Nat → Bool) (x : Byte) (hx : x.val < 0x20) (v : GoString)
    (quote : Bool) (h : quote = true ∨ x ∉ v) : x ∉ quoteIf tbl v quote := by
  cases quote with
  | true =>
    intro hm
    have := (strconv.Quote_plain tbl v).1 x hm
    omega
  | false =>
    rcases h with h | h
    · cases h
    · exact h

theorem moduleLines_not_mem (tbl : Nat → Bool) (x : Byte) (hx : x.val < 0x20) :
    ∀ (m : Module) (quote : Bool) (pfx indent : GoString), x ∉ pfx → x ∉ indent →
      (quote = true ∨ ∀ v ∈ m.values, x ∉ v) →
      ∀ l ∈ moduleLines tbl m quote pfx indent, x ∉ l
  | .mk p v s none, quote, pfx, indent => by
    intro hp hi hv l hl
    have l1 := not_mem_label x hx (lit "Path: ") (by simp)
    have l2 := not_mem_label x hx (lit "Version: ") (by simp)
    have l3 := not_mem_label x hx (lit "Sum: ") (by simp)
    have q1 := not_mem_quoteIf tbl x hx p quote (hv.imp id (fun h => h p (by simp [Module.values])))
    have q2 := not_mem_quoteIf tbl x hx v quote (hv.imp id (fun h => h v (by simp [Module.values])))
    have q3 := not_mem_quoteIf tbl x hx s quote (hv.imp id (fun h => h s (by simp [Module.values])))
    simp only [moduleLines, List.append_nil, List.mem_cons, List.mem_singleton,
      List.not_mem_nil, or_false] at hl
    rcases hl with rfl | rfl | rfl <;> simp [hp, hi, l1, l2, l3, q1, q2, q3]
  | .mk p v s (some r), quote, pfx, indent => by
    intro hp hi hv l hl
    have l1 := not_mem_label x hx (lit "Path: ") (by simp)
    have l2 := not_mem_label x hx (lit "Version: ") (by simp)
    have l3 := not_mem_label x hx (lit "Sum: ") (by simp)
    have l4 := not_mem_label x hx (lit "Replace:") (by simp)
    have q1 := not_mem_quoteIf tbl x hx p quote (hv.imp id (fun h => h p (by simp [Module.values])))
    have q2 := not_mem_quoteIf tbl x hx v quote (hv.imp id (fun h => h v (by simp [Module.values])))
    have q3 := not_mem_quoteIf tbl x hx s quote (hv.imp id (fun h => h s (by simp [Module.values])))
    simp only [moduleLines, List.mem_append, List.mem_cons, List.mem_singleton,
      List.not_mem_nil, or_false] at hl
    rcases hl with (rfl | rfl | rfl) | rfl | hl
    · simp [hp, hi, l1, q1]
    · simp [hp, hi, l2, q2]
    · simp [hp, hi, l3, q3]
    · simp [hp, hi, l4]
    · exact moduleLines_not_mem tbl x hx r quote (pfx ++ indent) indent (by simp [hp, hi]) hi
        (hv.imp id (fun h w hw => h w (by simp [Module.values, hw]))) l hl

/-- A control byte that is neither in the prefix, the indent or a key of a
setting, nor (unless the values are quoted) in a value, is in no line that
`FormatText` writes. -/
theorem textLines_not_mem (tbl : Nat → Bool) (x : Byte) (hx : x.val < 0x20) (bi : BuildInfo)
    (quote : Bool) (pfx indent : GoString) (hp : x ∉ pfx) (hi : x ∉ indent)
    (hk : ∀ s ∈ bi.Settings, x ∉ s.Key) (hv : quote = true ∨ ∀ v ∈ bi.values, x ∉ v) :
    ∀ l ∈ textLines tbl bi quote pfx indent, x ∉ l := by
  intro l hl
  have l1 := not_mem_label x hx (lit "Go Version: ") (by simp)
  have l2 := not_mem_label x hx (lit "Path: ") (by simp)
  have l3 := not_mem_label x hx (lit "Main Module:") (by simp)
  have l4 := not_mem_label x hx (lit "Dependencies:") (by simp)
  have l5 := not_mem_label x hx (lit "Settings:") (by simp)
  have l6 := not_mem_label x hx (lit ": ") (by simp)
  have q1 := not_mem_quoteIf tbl x hx bi.GoVersion quote
    (hv.imp id (fun h => h _ (by simp [BuildInfo.values])))
  have q2 := not_mem_quoteIf tbl x hx bi.Path quote
    (hv.imp id (fun h => h _ (by simp [BuildInfo.values])))
  simp only [textLines, List.mem_append, List.mem_cons, List.mem_singleton,
    List.not_mem_nil, or_false] at hl
  rcases hl with (((rfl | rfl | rfl) | hl) | hl) | hl
  · simp [hp, l1, q1]
  · simp [hp, l2, q2]
  · simp [hp, l3]
  · exact moduleLines_not_mem tbl x hx bi.Main quote pfx indent hp hi
      (hv.imp id (fun h w hw => h w (by simp [BuildInfo.values, hw]))) l hl
  · cases hd : bi.Deps with
    | nil => rw [hd] at hl; simp at hl
    | cons d ds =>
      rw [hd] at hl
      simp only [List.mem_cons, List.mem_flatten, List.mem_map] at hl
      rcases hl with rfl | ⟨ls, ⟨m, hm, rfl⟩, hl⟩
      · simp [hp, l4]
      · refine moduleLines_not_mem tbl x hx m quote pfx indent hp hi
          (hv.imp id (fun h w hw => h w ?_)) l hl
        simp only [BuildInfo.values, List.mem_cons, List.mem_append, List.mem_flatten,
          List.mem_map, hd]
        exact Or.inr (Or.inr (Or.inl (Or.inr ⟨_, ⟨m, hm, rfl⟩, hw⟩)))
  · cases hs : bi.Settings with
    | nil => rw [hs] at hl; simp at hl
    | cons d ds =>
      rw [hs] at hl
      simp only [List.mem_cons, List.mem_map] at hl
      rcases hl with rfl | ⟨st, hst, rfl⟩
      · simp [hp, l5]
      · have k := hk st (by rw [hs]; simpa using hst)
        have q := not_mem_quoteIf tbl x hx st.Value quote
          (hv.imp id (fun h => h _ (by
            simp only [BuildInfo.values, List.mem_cons, List.mem_append, List.mem_map, hs]
            exact Or.inr (Or.inr (Or.inr ⟨st, hst, rfl⟩)))))
        simp [hp, hi, k, l6, q]

theorem moduleLines_map (tbl : Nat → Bool) :
    ∀ (m : Module) (quote : Bool) (p pfx indent : GoString),
      moduleLines tbl m quote (p ++ pfx) indent
        = (moduleLines tbl m quote pfx indent).map (fun l => p ++ l)
  | .mk a v s none, quote, p, pfx, indent => by
    simp [moduleLines, List.append_assoc]
  | .mk a v s (some r), quote, p, pfx, indent => by
    simp only [moduleLines, List.map_append, List.map_cons, List.map_nil, List.append_assoc]
    rw [← moduleLines_map tbl r quote p (pfx ++ indent) indent]

theorem textLines_map (tbl : Nat → Bool) (bi : BuildInfo) (quote : Bool) (p indent : GoString) :
    textLines tbl bi quote p indent = (textLines tbl bi quote [] indent).map (fun l => p ++ l) := by
  have hm : ∀ m, moduleLines tbl m quote p indent
      = (moduleLines tbl m quote [] indent).map (fun l => p ++ l) := by
    intro m
    have := moduleLines_map tbl m quote p [] indent
    rwa [List.append_nil] at this
  simp only [textLines, List.map_append, List.map_cons, List.map_nil, List.nil_append,
    List.append_assoc, hm]
  cases bi.Deps <;> cases bi.Settings <;>
    simp [List.map_flatten, List.map_map, Function.comp_def, hm, List.append_assoc]

theorem chain_ne_nil (m : Module) : m.chain ≠ [] := by
  cases m with
  | mk p v s r => cases r <;> simp [Module.chain]

theorem flatten_replicate_succ (indent : GoString) (i : Nat) :
    indent ++ (List.replicate i indent).flatten = (List.replicate (i + 1) indent).flatten := by
  simp [List.replicate_succ]

theorem chainLines_shift (tbl : Nat → Bool) (quote : Bool) (pfx indent : GoString) :
    ∀ (ms : List Module) (i : Nat),
      chainLines tbl quote (pfx ++ indent) indent (i + 1) ms
        = chainLines tbl quote pfx indent (i + 2) ms := by
  intro ms
  induction ms with
  | nil => intro i; rfl
  | cons m ms ih =>
    intro i
    simp only [chainLines, ih, levelLines, List.append_assoc, flatten_replicate_succ]
    simp

theorem moduleLines_chain (tbl : Nat → Bool) :
    ∀ (m : Module) (quote : Bool) (pfx indent : GoString),
      moduleLines tbl m quote pfx indent = chainLines tbl quote pfx indent 0 m.chain
  | .mk p v s none, quote, pfx, indent => by
    simp [moduleLines, Module.chain, chainLines, levelLines, Module.Path, Module.Version,
      Module.Sum]
  | .mk p v s (some r), quote, pfx, indent => by
    simp only [moduleLines, Module.chain, chainLines]
    rw [moduleLines_chain tbl r quote (pfx ++ indent) indent]
    obtain ⟨m, ms, hc⟩ : ∃ m ms, r.chain = m :: ms := by
      cases h : r.chain with
      | nil => exact absurd h (chain_ne_nil r)
      | cons m ms => exact ⟨m, ms, rfl⟩
    rw [hc]
    simp only [chainLines, chainLines_shift]
    have e := flatten_replicate_succ indent 1
    simp [levelLines, Module.Path, Module.Version, Module.Sum, List.append_assoc] at e ⊢

/-! ## The prefix, the newlines and the indentation of the text report -/

/-- When no line that `FormatText` writes has a line feed inside, the lines of
the output are the lines written. -/
theorem lines_FormatText (tbl : Nat → Bool) (bi : BuildInfo) (quote : Bool)
    (pfx indent : GoString) (hp : (0x0A : Byte) ∉ pfx) (hi : (0x0A : Byte) ∉ indent)
    (hk : ∀ s ∈ bi.Settings, (0x0A : Byte) ∉ s.Key)
    (hv : quote = true ∨ ∀ v ∈ bi.values, (0x0A : Byte) ∉ v) :
    lines (FormatText tbl bi quote pfx indent) = textLines tbl bi quote pfx indent := by
  rw [FormatText_lines]
  exact lines_unlines _ (textLines_not_mem tbl 0x0A (by decide) bi quote pfx indent hp hi hk hv)

/-- C13, as the code has it. When neither the prefix, nor the indent, nor the
key of a setting has a line feed inside, and either the values are quoted or no
value of the record has one, the lines of the output of `FormatText` (its
maximal segments terminated by a newline) are the lines that the formatter
writes, and every one of them begins with the prefix. -/
theorem FormatText_lines_begin (tbl : Nat → Bool) (bi : BuildInfo) (quote : Bool)
    (pfx indent : GoString) (hp : (0x0A : Byte) ∉ pfx) (hi : (0x0A : Byte) ∉ indent)
    (hk : ∀ s ∈ bi.Settings, (0x0A : Byte) ∉ s.Key)
    (hv : quote = true ∨ ∀ v ∈ bi.values, (0x0A : Byte) ∉ v) :
    lines (FormatText tbl bi quote pfx indent) = textLines tbl bi quote pfx indent
    ∧ ∀ l ∈ lines (FormatText tbl bi quote pfx indent), pfx <+: l := by
  have e := lines_FormatText tbl bi quote pfx indent hp hi hk hv
  refine ⟨e, fun l hl => ?_⟩
  rw [e] at hl
  exact textLines_starts tbl bi quote pfx indent l hl

theorem FormatText_lines_begin_witness :
    (0x0A : Byte) ∉ lit "--> " ∧ (0x0A : Byte) ∉ lit "    "
    ∧ (∀ s ∈ settingsBuildInfo.Settings, (0x0A : Byte) ∉ s.Key)
    ∧ lines (FormatText (fun _ => false) settingsBuildInfo true (lit "--> ") (lit "    "))
        = textLines (fun _ => false) settingsBuildInfo true (lit "--> ") (lit "    ")
    ∧ ∀ l ∈ lines (FormatText (fun _ => false) settingsBuildInfo true (lit "--> ") (lit "    ")),
        lit "--> " <+: l :=
  ⟨by decide, by decide, by decide!,
    FormatText_lines_begin (fun _ => false) settingsBuildInfo true (lit "--> ") (lit "    ")
      (by decide) (by decide) (by decide!) (Or.inl rfl)⟩

/-- C13 as stated fails: without quoting, a line feed inside a value (here the
Go version) ends the line, and the segment after it begins with the rest of
the value, not with the prefix `> `; and with quoting, an indent that is a
line feed puts every `Path`, `Version` and `Sum` on a line without the
prefix. -/
theorem FormatText_lines_begin_counterexample :
    lines (FormatText (fun _ => false) newlineBuildInfo false (lit "> ") (lit "  "))
      = [lit "> Go Version: go1.20", lit "beta", lit "> Path: p", lit "> Main Module:",
         lit ">   Path: p", lit ">   Version: v1", lit ">   Sum: "]
    ∧ ¬ (∀ l ∈ lines (FormatText (fun _ => false) newlineBuildInfo false (lit "> ") (lit "  ")),
          lit "> " <+: l)
    ∧ lines (FormatText (fun _ => false) minimalBuildInfo true (lit "> ") (lit "\n"))
      = [lit "> Go Version: \"go1.20.3\"", lit "> Path: \"example.com/project\"",
         lit "> Main Module:", lit "> ", lit "Path: \"example.com/project\"",
         lit "> ", lit "Version: \"v1.2.3\"", lit "> ", lit "Sum: \"h1:abcdef1234567890\""]
    ∧ ¬ (∀ l ∈ lines (FormatText (fun _ => false) minimalBuildInfo true (lit "> ") (lit "\n")),
          lit "> " <+: l) := by
  decide!

/-- C14. The output of `FormatText` is not empty and ends with a newline, which
terminates the last line that the formatter writes; the output is the
concatenation of the lines that the formatter writes, each followed by the
single byte `\n`; and the formatter adds no carriage return: when neither the
prefix, nor the indent, nor a key, nor (unless the values are quoted) a value
has a carriage return inside, the output has none. -/
theorem FormatText_ends_newline (tbl : Nat → Bool) (bi : BuildInfo) (quote : Bool)
    (pfx indent : GoString) :
    FormatText tbl bi quote pfx indent ≠ []
    ∧ (FormatText tbl bi quote pfx indent).getLast? = some 0x0A
    ∧ FormatText tbl bi quote pfx indent
        = ((textLines tbl bi quote pfx indent).map (fun l => l ++ [0x0A])).flatten
    ∧ (∃ ls l, textLines tbl bi quote pfx indent = ls ++ [l]
        ∧ FormatText tbl bi quote pfx indent = unlines ls ++ (l ++ [0x0A]))
    ∧ ((0x0D : Byte) ∉ pfx → (0x0D : Byte) ∉ indent
        → (∀ s ∈ bi.Settings, (0x0D : Byte) ∉ s.Key)
        → (quote = true ∨ ∀ v ∈ bi.values, (0x0D : Byte) ∉ v)
        → (0x0D : Byte) ∉ FormatText tbl bi quote pfx indent) := by
  obtain ⟨ls, l, hl⟩ : ∃ ls l, textLines tbl bi quote pfx indent = ls ++ [l] :=
    ⟨_, _, (List.dropLast_append_getLast (textLines_ne_nil tbl bi quote pfx indent)).symm⟩
  have e : FormatText tbl bi quote pfx indent = unlines ls ++ (l ++ [0x0A]) := by
    rw [FormatText_lines, hl, unlines_append, unlines_cons, unlines_nil]
    simp
    rfl
  refine ⟨?_, ?_, ?_, ⟨ls, l, hl, e⟩, ?_⟩
  · rw [e]; simp
  · rw [e, ← List.append_assoc]; exact List.getLast?_concat _
  · rw [FormatText_lines]; rfl
  · intro hp hi hk hv hm
    rw [FormatText_lines] at hm
    simp only [unlines, List.mem_flatten, List.mem_map] at hm
    obtain ⟨x, ⟨l', hl', rfl⟩, hx⟩ := hm
    rw [List.mem_append] at hx
    rcases hx with hx | hx
    · exact textLines_not_mem tbl 0x0D (by decide) bi quote pfx indent hp hi hk hv l' hl' hx
    · revert hx; decide

theorem FormatText_ends_newline_witness :
    (FormatText (fun _ => false) minimalBuildInfo false (lit "") (lit "  ")).getLast? = some 0x0A
    ∧ (0x0D : Byte) ∉ FormatText (fun _ => false) minimalBuildInfo false (lit "") (lit "  ") :=
  ⟨(FormatText_ends_newline (fun _ => false) minimalBuildInfo false (lit "") (lit "  ")).2.1,
   (FormatText_ends_newline (fun _ => false) minimalBuildInfo false (lit "") (lit "  ")).2.2.2.2
     (by decide) (by decide) (by decide!) (Or.inr (by decide!))⟩

/-- The rendering of a module replaced twice over, under the prefix `>` and the
indent `--`. -/
theorem formatModule_twice_replaced :
    formatModule (fun _ => false) []
        (.mk (lit "a") (lit "v1") (lit "h1:x")
          (some (.mk (lit "b") (lit "v2") (lit "")
            (some (.mk (lit "c") (lit "v3") (lit "") none)))))
        false (lit ">") (lit "--")
      = unlines [lit ">--Path: a", lit ">--Version: v1", lit ">--Sum: h1:x", lit ">--Replace:",
          lit ">----Path: b", lit ">----Version: v2", lit ">----Sum: ", lit ">----Replace:",
          lit ">------Path: c", lit ">------Version: v3", lit ">------Sum: "] := by
  decide!

/-- C15. For a module with the chain of replacements `m0, m1, ..., mk`, of any
length, `formatModule` appends to the builder, level by level: for `i ≥ 1` the
line `Replace:` that introduces `mi`, after the prefix and `i` copies of the
indent; then the lines `Path`, `Version` and `Sum` of `mi`, after the prefix
and `i + 1` copies of the indent. -/
theorem formatModule_chain (tbl : Nat → Bool) (sb : GoString) (m : Module) (quote : Bool)
    (pfx indent : GoString) :
    formatModule tbl sb m quote pfx indent
      = sb ++ unlines (chainLines tbl quote pfx indent 0 m.chain) := by
  rw [formatModule_builder, formatModule_lines, moduleLines_chain]

/-- C16. The result of `quoteIf s true` has no control character: none of its
bytes is below the blank (so no raw newline, carriage return or tab) or the
byte DEL, and no rune read from it is a control character (U+0000 to U+001F,
U+007F to U+009F); followed by a newline it is a single line. -/
theorem quoteIf_true_single_line (tbl : Nat → Bool) (s : GoString) :
    (∀ b ∈ quoteIf tbl s true, 0x20 ≤ b.val ∧ b.val ≠ 0x7F)
    ∧ (∀ r ∈ utf8.runes (quoteIf tbl s true), unicode.IsControl r = false)
    ∧ lines (quoteIf tbl s true ++ lit "\n") = [quoteIf tbl s true] := by
  have h := strconv.Quote_plain tbl s
  have e : quoteIf tbl s true = strconv.Quote tbl s := rfl
  rw [e]
  refine ⟨h.1, fun r hr => h.2 _ r hr, ?_⟩
  have := lines_unlines [strconv.Quote tbl s] (by
    intro l hl hm
    simp only [List.mem_singleton] at hl
    subst hl
    have := (h.1 _ hm).1
    revert this
    decide)
  simpa [unlines] using this

/-- C17. With quoting, and an indent and keys of settings without a line feed,
the output of `FormatText` under the prefix `p` is the output under the empty
prefix with `p` put in front of every line, and nothing else changed. -/
theorem FormatText_uniform (tbl : Nat → Bool) (bi : BuildInfo) (p indent : GoString)
    (hi : (0x0A : Byte) ∉ indent) (hk : ∀ s ∈ bi.Settings, (0x0A : Byte) ∉ s.Key) :
    FormatText tbl bi true p indent
      = unlines ((lines (FormatText tbl bi true [] indent)).map (fun l => p ++ l)) := by
  rw [lines_FormatText tbl bi true [] indent (by simp) hi hk (Or.inl rfl),
    ← textLines_map, FormatText_lines]

theorem FormatText_uniform_witness :
    (0x0A : Byte) ∉ lit "    "
    ∧ (∀ s ∈ settingsBuildInfo.Settings, (0x0A : Byte) ∉ s.Key)
    ∧ FormatText (fun _ => false) settingsBuildInfo true (lit "--> ") (lit "    ")
      = unlines ((lines (FormatText (fun _ => false) settingsBuildInfo true [] (lit "    "))).map
          (fun l => lit "--> " ++ l)) :=
  ⟨by decide, by decide!,
    FormatText_uniform (fun _ => false) settingsBuildInfo (lit "--> ") (lit "    ")
      (by decide) (by decide!)⟩

/-! ## The record with only a main module -/

/-- C2, as the code has it. For a record with only a main module (no
dependencies, no settings, no replacement of the main module), and every
quote flag, prefix and indent, the text report is the concatenation of six
written lines, each followed by one newline and nothing else, in this order:
Go version, path, the header `Main Module:`, and the main module's path,
version and checksum; each of them is non-empty. When none of the six has a
line feed inside, in particular when neither the prefix nor the indent has
one and either the values are quoted or no value has one, these six are the
lines of the output, which then has exactly six lines. -/
theorem FormatText_minimal (tbl : Nat → Bool) (bi : BuildInfo) (quote : Bool)
    (pfx indent : GoString) (hd : bi.Deps = []) (hs : bi.Settings = [])
    (hr : bi.Main.Replace = none) :
    FormatText tbl bi quote pfx indent
      = unlines [pfx ++ lit "Go Version: " ++ quoteIf tbl bi.GoVersion quote,
                 pfx ++ lit "Path: " ++ quoteIf tbl bi.Path quote,
                 pfx ++ lit "Main Module:",
                 pfx ++ indent ++ lit "Path: " ++ quoteIf tbl bi.Main.Path quote,
                 pfx ++ indent ++ lit "Version: " ++ quoteIf tbl bi.Main.Version quote,
                 pfx ++ indent ++ lit "Sum: " ++ quoteIf tbl bi.Main.Sum quote]
      ∧ (∀ l ∈ [pfx ++ lit "Go Version: " ++ quoteIf tbl bi.GoVersion quote,
                 pfx ++ lit "Path: " ++ quoteIf tbl bi.Path quote,
                 pfx ++ lit "Main Module:",
                 pfx ++ indent ++ lit "Path: " ++ quoteIf tbl bi.Main.Path quote,
                 pfx ++ indent ++ lit "Version: " ++ quoteIf tbl bi.Main.Version quote,
                 pfx ++ indent ++ lit "Sum: " ++ quoteIf tbl bi.Main.Sum quote], l ≠ [])
      ∧ ((∀ l ∈ [pfx ++ lit "Go Version: " ++ quoteIf tbl bi.GoVersion quote,
                 pfx ++ lit "Path: " ++ quoteIf tbl bi.Path quote,
                 pfx ++ lit "Main Module:",
                 pfx ++ indent ++ lit "Path: " ++ quoteIf tbl bi.Main.Path quote,
                 pfx ++ indent ++ lit "Version: " ++ quoteIf tbl bi.Main.Version quote,
                 pfx ++ indent ++ lit "Sum: " ++ quoteIf tbl bi.Main.Sum quote],
              (0x0A : Byte) ∉ l) →
          lines (FormatText tbl bi quote pfx indent)
            = [pfx ++ lit "Go Version: " ++ quoteIf tbl bi.GoVersion quote,
               pfx ++ lit "Path: " ++ quoteIf tbl bi.Path quote,
               pfx ++ lit "Main Module:",
               pfx ++ indent ++ lit "Path: " ++ quoteIf tbl bi.Main.Path quote,
               pfx ++ indent ++ lit "Version: " ++ quoteIf tbl bi.Main.Version quote,
               pfx ++ indent ++ lit "Sum: " ++ quoteIf tbl bi.Main.Sum quote])
      ∧ ((0x0A : Byte) ∉ pfx → (0x0A : Byte) ∉ indent
          → (quote = true ∨ ∀ v ∈ bi.values, (0x0A : Byte) ∉ v)
          → lines (FormatText tbl bi quote pfx indent)
              = [pfx ++ lit "Go Version: " ++ quoteIf tbl bi.GoVersion quote,
                 pfx ++ lit "Path: " ++ quoteIf tbl bi.Path quote,
                 pfx ++ lit "Main Module:",
                 pfx ++ indent ++ lit "Path: " ++ quoteIf tbl bi.Main.Path quote,
                 pfx ++ indent ++ lit "Version: " ++ quoteIf tbl bi.Main.Version quote,
                 pfx ++ indent ++ lit "Sum: " ++ quoteIf tbl bi.Main.Sum quote]
            ∧ (lines (FormatText tbl bi quote pfx indent)).length = 6) := by
  have ht : textLines tbl bi quote pfx indent
      = [pfx ++ lit "Go Version: " ++ quoteIf tbl bi.GoVersion quote,
         pfx ++ lit "Path: " ++ quoteIf tbl bi.Path quote,
         pfx ++ lit "Main Module:",
         pfx ++ indent ++ lit "Path: " ++ quoteIf tbl bi.Main.Path quote,
         pfx ++ indent ++ lit "Version: " ++ quoteIf tbl bi.Main.Version quote,
         pfx ++ indent ++ lit "Sum: " ++ quoteIf tbl bi.Main.Sum quote] := by
    obtain ⟨gv, path, main, deps, settings⟩ := bi
    obtain ⟨p, v, s, r⟩ := main
    simp only [Module.Replace] at hr
    simp only at hd hs
    subst hd hs hr
    simp [textLines, moduleLines, Module.Path, Module.Version, Module.Sum]
  have key := FormatText_lines tbl bi quote pfx indent
  rw [ht] at key
  refine ⟨key, ?_, ?_, ?_⟩
  · intro l hl
    simp only [List.mem_cons, List.mem_singleton, List.not_mem_nil, or_false] at hl
    have e1 : lit "Go Version: " ≠ [] := by decide
    have e2 : lit "Path: " ≠ [] := by decide
    have e3 : lit "Main Module:" ≠ [] := by decide
    have e4 : lit "Version: " ≠ [] := by decide
    have e5 : lit "Sum: " ≠ [] := by decide
    rcases hl with h | h | h | h | h | h <;> subst h <;> simp [e1, e2, e3, e4, e5]
  · intro h
    rw [key]
    exact lines_unlines _ h
  · intro hp hi hv
    have e := lines_FormatText tbl bi quote pfx indent hp hi (by rw [hs]; simp) hv
    rw [ht] at e
    exact ⟨e, by rw [e]; rfl⟩

theorem FormatText_minimal_witness :
    minimalBuildInfo.Deps = [] ∧ minimalBuildInfo.Settings = []
    ∧ minimalBuildInfo.Main.Replace = none
    ∧ FormatText (fun _ => false) minimalBuildInfo false (lit "") (lit "  ")
      = unlines [lit "" ++ lit "Go Version: " ++ lit "go1.20.3",
                 lit "" ++ lit "Path: " ++ lit "example.com/project",
                 lit "" ++ lit "Main Module:",
                 lit "" ++ lit "  " ++ lit "Path: " ++ lit "example.com/project",
                 lit "" ++ lit "  " ++ lit "Version: " ++ lit "v1.2.3",
                 lit "" ++ lit "  " ++ lit "Sum: " ++ lit "h1:abcdef1234567890"]
    ∧ lines (FormatText (fun _ => false) minimalBuildInfo false (lit "") (lit "  "))
      = [lit "" ++ lit "Go Version: " ++ lit "go1.20.3",
         lit "" ++ lit "Path: " ++ lit "example.com/project",
         lit "" ++ lit "Main Module:",
         lit "" ++ lit "  " ++ lit "Path: " ++ lit "example.com/project",
         lit "" ++ lit "  " ++ lit "Version: " ++ lit "v1.2.3",
         lit "" ++ lit "  " ++ lit "Sum: " ++ lit "h1:abcdef1234567890"]
    ∧ (lines (FormatText (fun _ => false) minimalBuildInfo false (lit "") (lit "  "))).length
      = 6 :=
  ⟨rfl, rfl, rfl,
    (FormatText_minimal (fun _ => false) minimalBuildInfo false (lit "") (lit "  ")
      rfl rfl rfl).1,
    (FormatText_minimal (fun _ => false) minimalBuildInfo false (lit "") (lit "  ")
      rfl rfl rfl).2.2.2 (by decide) (by decide) (Or.inr (by decide!))⟩

/-- C2 as stated fails: for the record of the test "Minimal BuildInfo", which
has only a main module, the output under the empty prefix and an indent that
is a line feed has nine lines, three of them empty; and for a record with only
a main module whose Go version has a line feed inside, the unquoted output
under the prefix `> ` has seven lines. -/
theorem FormatText_minimal_counterexample :
    minimalBuildInfo.Deps = [] ∧ minimalBuildInfo.Settings = []
    ∧ minimalBuildInfo.Main.Replace = none
    ∧ lines (FormatText (fun _ => false) minimalBuildInfo false (lit "") (lit "\n"))
      = [lit "Go Version: go1.20.3", lit "Path: example.com/project", lit "Main Module:",
         lit "", lit "Path: example.com/project", lit "", lit "Version: v1.2.3",
         lit "", lit "Sum: h1:abcdef1234567890"]
    ∧ (lines (FormatText (fun _ => false) minimalBuildInfo false (lit "") (lit "\n"))).length = 9
    ∧ newlineBuildInfo.Deps = [] ∧ newlineBuildInfo.Settings = []
    ∧ newlineBuildInfo.Main.Replace = none
    ∧ (lines (FormatText (fun _ => false) newlineBuildInfo false (lit "> ") (lit "  "))).length
      = 7 :=
  ⟨rfl, rfl, rfl, by decide!, by decide!, rfl, rfl, rfl, by decide!⟩

end buildinfo
